import Mathlib

/-!
# Sound driver using the DAC on an STM32 MCU: playback state machine and ramps

Shallow embedding of `lib/pbio/drv/sound/sound_stm32_hal_dac.c`; the waveform generator of
`lib/pbio/src/audio_generator.c` is embedded further down, in a section of its own.

* The file-scope statics and the hardware the driver programs (output-enable GPIO line,
  DMA mode, timer period, DMA transfer-complete interrupt enable, running DAC/DMA transfer)
  are the fields of one record, `driver_state`, passed explicitly.
* `uint32_t` arithmetic is arithmetic on `Nat` reduced modulo `2 ^ 32` where it can wrap.
* A `float` is the rational number it stands for. Every `float` operation (a conversion from
  an integer, a sum, a difference, a product, a quotient) is the exact operation followed by
  the rounding `f32_round` to binary32: to the nearest, a tie to the even significand, one
  rounding per operation. Overflow to an infinity is left out of the rounding: the operands of
  the two files are samples, lengths and phases, far below `2 ^ 128`. The store of a `float`
  into a `uint16_t` truncates toward zero and is reduced modulo `2 ^ 16`.
* A C operation with undefined behaviour (a read through a null pointer or outside the
  object pointed to, an integer division by zero) makes the embedded function return `none`.
* The header `sound_stm32_hal_dac.h` (the enum `sound_state_t`, the macros
  `SOUND_RAMP_SMAPLE_COUNT` and `SOUND_RAMP_SMAPLE_RATE`, the platform data) is not among
  the files embedded: the enum is declared with the constants the code uses, the two macros
  and `tim_clock_rate` are fields of `platform_data`, a parameter of every function.
* `__HAL_DMA_GET_COUNTER` reads a live hardware register: its value is an argument.
* The HAL calls are embedded by their effect on the record: `HAL_DAC_Start_DMA` and
  `HAL_DAC_Stop_DMA` set and clear the running transfer, `HAL_DMA_Init` and
  `HAL_TIM_Base_Init` apply the mode and the period stored just before them,
  `HAL_GPIO_WritePin` drives the output-enable line. Every path that calls them ends with an
  explicit `__HAL_DMA_ENABLE_IT` or `__HAL_DMA_DISABLE_IT`, which decides the interrupt enable
  the path leaves behind.
-/

namespace PbdrvSound

/-! ## Data model -/

/-- The enum `sound_state_t`, with the four constants used by the driver. -/
inductive sound_state_t
  | SOUND_STATE_STOPPED
  | SOUND_STATE_RAMPING_UP
  | SOUND_STATE_PLAYING
  | SOUND_STATE_RAMPING_DOWN
  deriving DecidableEq, Repr

/-- The values written to `pbdrv_sound_hdma.Init.Mode`: one-shot or auto-repeating. -/
inductive dma_mode_t
  | DMA_NORMAL
  | DMA_CIRCULAR
  deriving DecidableEq, Repr

/-- A caller-supplied `const uint16_t *data`: the address and the samples found there. -/
structure caller_buffer where
  addr : Nat
  samples : List Nat
  deriving DecidableEq, Repr

/-- The values a `const uint16_t *` of the driver can hold: the null pointer the statics
start with, the address of `ramp_data_buffer`, or a buffer passed by a caller. -/
inductive sample_ptr
  | null
  | ramp
  | caller (b : caller_buffer)
  deriving DecidableEq, Repr

/-- The constants the driver is compiled against: the two ramp macros and the
`tim_clock_rate` field of `pbdrv_sound_stm32_hal_dac_platform_data`. -/
structure platform_data where
  SOUND_RAMP_SMAPLE_COUNT : Nat
  SOUND_RAMP_SMAPLE_RATE : Nat
  tim_clock_rate : Nat
  deriving DecidableEq, Repr

/-- The statics of the driver together with the hardware it programs. -/
structure driver_state where
  /-- The static `sound_state`. -/
  sound_state : sound_state_t
  /-- The static `current_playing_data`. -/
  current_playing_data : sample_ptr
  /-- The static `current_playing_length`. -/
  current_playing_length : Nat
  /-- The static array `ramp_data_buffer[SOUND_RAMP_SMAPLE_COUNT]`. -/
  ramp_data_buffer : List Nat
  /-- The static `target_sound_data`. -/
  target_sound_data : sample_ptr
  /-- The static `target_sound_length`. -/
  target_sound_length : Nat
  /-- The static `target_sample_rate`. -/
  target_sample_rate : Nat
  /-- The output-enable line `enable_gpio_pin`: `true` is `GPIO_PIN_SET`. -/
  enable_gpio : Bool
  /-- The field `pbdrv_sound_hdma.Init.Mode`, applied by `HAL_DMA_Init`. -/
  hdma_mode : dma_mode_t
  /-- The field `pbdrv_sound_htim.Init.Period`, applied by `HAL_TIM_Base_Init`. -/
  htim_period : Nat
  /-- The transfer-complete interrupt enable `DMA_IT_TC` of the DMA stream. -/
  dma_it_tc : Bool
  /-- The transfer handed to `HAL_DAC_Start_DMA` (buffer and length); `none` after
  `HAL_DAC_Stop_DMA`. -/
  dac_dma : Option (sample_ptr × Nat)
  deriving DecidableEq, Repr

/-! ## Machine arithmetic -/

/-- Subtraction of `uint32_t` values: wraps modulo `2 ^ 32`. -/
def u32_sub (a b : Nat) : Nat :=
  (a % 2 ^ 32 + 2 ^ 32 - b % 2 ^ 32) % 2 ^ 32

/-- Division of `uint32_t` values: truncating; undefined for a zero divisor. -/
def u32_div (a b : Nat) : Option Nat :=
  if b = 0 then none else some (a / b)

/-- The conversion of a `float` to `uint16_t` done by the store `ramp_data_buffer[i] = value`:
the fractional part is discarded (truncation toward zero); a result outside the range of
`uint16_t`, for which C leaves the conversion undefined, is reduced modulo `2 ^ 16`. -/
def float_to_uint16 (value : ℚ) : Nat :=
  (Int.tdiv value.num (value.den : Int) % 65536).toNat

/-! ## Floating-point arithmetic -/

/-- Rounding of a rational to the nearest integer, a tie going to the even one. -/
def round_ties_even (x : ℚ) : ℤ :=
  if x - (⌊x⌋ : ℚ) < 1 / 2 then ⌊x⌋
  else if 1 / 2 < x - (⌊x⌋ : ℚ) then ⌊x⌋ + 1
  else if ⌊x⌋ % 2 = 0 then ⌊x⌋ else ⌊x⌋ + 1

/-- Rounding of a rational to the nearest number of a binary floating-point format with
`prec` significant bits and least exponent `emin`, a tie going to the even significand: the
unit in the last place is `2 ^ (e - (prec - 1))`, with `e` the binary exponent of the argument,
or `emin` for a subnormal result. -/
def fp_round (prec : Nat) (emin : ℤ) (q : ℚ) : ℚ :=
  if q = 0 then 0
  else (round_ties_even (q / 2 ^ (max (Int.log 2 |q|) emin - ((prec : ℤ) - 1))) : ℚ) *
    2 ^ (max (Int.log 2 |q|) emin - ((prec : ℤ) - 1))

/-- Rounding to `float`, binary32: 24 significant bits, least exponent `-126`. -/
def f32_round (q : ℚ) : ℚ :=
  fp_round 24 (-126) q

/-- Rounding to `double`, binary64: 53 significant bits, least exponent `-1022`. -/
def f64_round (q : ℚ) : ℚ :=
  fp_round 53 (-1022) q

/-! ## Reading samples -/

/-- The read `p[i]` through a sample pointer of the driver. -/
def read_sample (s : driver_state) (p : sample_ptr) (i : Nat) : Option Nat :=
  match p with
  | sample_ptr.null => none
  | sample_ptr.ramp => s.ramp_data_buffer[i]?
  | sample_ptr.caller b => b.samples[i]?

/-- The index of the sample being served by the DMA, as `pbdrv_sound_start` and
`pbdrv_sound_stop` both compute it:
`current_index = current_playing_length - __HAL_DMA_GET_COUNTER(..)`, reset to `0` when
`current_index >= current_playing_length`. -/
def current_index (current_playing_length dma_counter : Nat) : Nat :=
  let current_index := u32_sub current_playing_length dma_counter
  if current_index ≥ current_playing_length then 0 else current_index

/-- The sample being served by the DMA: `current_playing_data[current_index]`. -/
def current_position (s : driver_state) (dma_counter : Nat) : Option Nat :=
  read_sample s s.current_playing_data (current_index s.current_playing_length dma_counter)

/-! ## The ramp -/

/-- The loop `for (i = 0; i < SOUND_RAMP_SMAPLE_COUNT; i++) { value += step;
ramp_data_buffer[i] = value; }` with `n` iterations left, at index `i`: the sum is rounded to
`float`, the store truncates it. -/
def ramp_loop (step : ℚ) : Nat → Nat → ℚ → List Nat → List Nat
  | 0, _, _, buf => buf
  | n + 1, i, value, buf =>
    let value := f32_round (value + step)
    ramp_loop step n (i + 1) value (buf.set i (float_to_uint16 value))

/-- The assignment `step = ((float)end_position - start_position) / SOUND_RAMP_SMAPLE_COUNT`:
the three operands are converted to `float`, the difference is rounded, the quotient is
rounded. With a count of `0` the loop does not run and `step` is not used. -/
def ramp_step (count start_position end_position : Nat) : ℚ :=
  f32_round (f32_round (f32_round (end_position : ℚ) - f32_round (start_position : ℚ)) /
    f32_round (count : ℚ))

/-- The ramp computation of `pbdrv_sound_start` and `pbdrv_sound_stop`: `step` as above,
`value = (float)start_position`, then the loop over `ramp_data_buffer`. -/
def compute_ramp (count start_position end_position : Nat) (buf : List Nat) : List Nat :=
  let step : ℚ := ramp_step count start_position end_position
  ramp_loop step count 0 (f32_round (start_position : ℚ)) buf

/-- The variable `value` of the ramp loop after `k` iterations of `value += step`. -/
def ramp_value (step value : ℚ) (k : Nat) : ℚ :=
  (fun v => f32_round (v + step))^[k] value

/-! ## The driver functions -/

/-- The state before `pbdrv_sound_init`: zero-initialised statics, hardware after reset. -/
def power_on (pdata : platform_data) : driver_state :=
  { sound_state := sound_state_t.SOUND_STATE_STOPPED
    current_playing_data := sample_ptr.null
    current_playing_length := 0
    ramp_data_buffer := List.replicate pdata.SOUND_RAMP_SMAPLE_COUNT 0
    target_sound_data := sample_ptr.null
    target_sound_length := 0
    target_sample_rate := 0
    enable_gpio := false
    hdma_mode := dma_mode_t.DMA_NORMAL
    htim_period := 0
    dma_it_tc := false
    dac_dma := none }

/-- The function `pbdrv_sound_init`: clears the output-enable line, configures the DMA
(circular), the DAC and the timer (period `0xffff`), and sets `sound_state` to stopped. -/
def pbdrv_sound_init (s : driver_state) : driver_state :=
  { s with
    enable_gpio := false
    hdma_mode := dma_mode_t.DMA_CIRCULAR
    htim_period := 0xffff
    sound_state := sound_state_t.SOUND_STATE_STOPPED }

/-- The completion handler `HAL_DAC_ConvCpltCallbackCh1`. -/
def HAL_DAC_ConvCpltCallbackCh1 (pdata : platform_data) (s : driver_state) :
    Option driver_state :=
  if s.sound_state = sound_state_t.SOUND_STATE_RAMPING_DOWN then
    some { s with
      enable_gpio := false
      dac_dma := none
      dma_it_tc := false
      sound_state := sound_state_t.SOUND_STATE_STOPPED }
  else if s.sound_state = sound_state_t.SOUND_STATE_RAMPING_UP then do
    let ticks ← u32_div pdata.tim_clock_rate s.target_sample_rate
    some { s with
      hdma_mode := dma_mode_t.DMA_CIRCULAR
      enable_gpio := true
      htim_period := u32_sub ticks 1
      dac_dma := some (s.target_sound_data, s.target_sound_length)
      current_playing_data := s.target_sound_data
      current_playing_length := s.target_sound_length
      dma_it_tc := false
      sound_state := sound_state_t.SOUND_STATE_PLAYING }
  else
    some s

/-- The function `pbdrv_sound_start`; `dma_counter` is the value `__HAL_DMA_GET_COUNTER`
returns during the call. -/
def pbdrv_sound_start (pdata : platform_data) (s : driver_state) (data : caller_buffer)
    (length sample_rate dma_counter : Nat) : Option driver_state := do
  let s := { s with dma_it_tc := false }
  let end_position ← data.samples[0]?
  let start_position ←
    if s.sound_state = sound_state_t.SOUND_STATE_STOPPED then some 0
    else current_position s dma_counter
  let s := { s with
    ramp_data_buffer :=
      compute_ramp pdata.SOUND_RAMP_SMAPLE_COUNT start_position end_position s.ramp_data_buffer }
  let s := { s with dac_dma := none, hdma_mode := dma_mode_t.DMA_NORMAL }
  let ticks ← u32_div pdata.tim_clock_rate pdata.SOUND_RAMP_SMAPLE_RATE
  let s := { s with
    enable_gpio := true
    htim_period := u32_sub ticks 1
    dac_dma := some (sample_ptr.ramp, pdata.SOUND_RAMP_SMAPLE_COUNT) }
  let s := { s with
    current_playing_data := sample_ptr.ramp
    current_playing_length := pdata.SOUND_RAMP_SMAPLE_COUNT }
  let s := { s with
    target_sound_data := sample_ptr.caller data
    target_sample_rate := sample_rate
    target_sound_length := length }
  let s := { s with sound_state := sound_state_t.SOUND_STATE_RAMPING_UP }
  some { s with dma_it_tc := true }

/-- The function `pbdrv_sound_stop`; `dma_counter` is the value `__HAL_DMA_GET_COUNTER`
returns during the call. The static `end_position` is never assigned and stays `0`. -/
def pbdrv_sound_stop (pdata : platform_data) (s : driver_state) (dma_counter : Nat) :
    Option driver_state := do
  let s := { s with dma_it_tc := false }
  let end_position := 0
  if s.sound_state = sound_state_t.SOUND_STATE_STOPPED then
    some s
  else
    let start_position ← current_position s dma_counter
    let s := { s with
      ramp_data_buffer :=
        compute_ramp pdata.SOUND_RAMP_SMAPLE_COUNT start_position end_position s.ramp_data_buffer }
    let s := { s with dac_dma := none, hdma_mode := dma_mode_t.DMA_NORMAL }
    let ticks ← u32_div pdata.tim_clock_rate pdata.SOUND_RAMP_SMAPLE_RATE
    let s := { s with
      enable_gpio := true
      htim_period := u32_sub ticks 1
      dac_dma := some (sample_ptr.ramp, pdata.SOUND_RAMP_SMAPLE_COUNT) }
    let s := { s with
      current_playing_data := sample_ptr.ramp
      current_playing_length := pdata.SOUND_RAMP_SMAPLE_COUNT }
    let s := { s with sound_state := sound_state_t.SOUND_STATE_RAMPING_DOWN }
    some { s with dma_it_tc := true }

/-! ## Memory safety of the read of the sample being served -/

/-- The size of the object a sample pointer of the driver points to. -/
def buffer_size (s : driver_state) (p : sample_ptr) : Nat :=
  match p with
  | sample_ptr.null => 0
  | sample_ptr.ramp => s.ramp_data_buffer.length
  | sample_ptr.caller b => b.samples.length

/-- The active buffer is an object of at least `current_playing_length` samples, and of at
least one: the condition under which the read of the sample being served is defined. -/
def active_in_bounds (s : driver_state) : Prop :=
  0 < buffer_size s s.current_playing_data ∧
    s.current_playing_length ≤ buffer_size s s.current_playing_data

instance (s : driver_state) : Decidable (active_in_bounds s) := by
  unfold active_in_bounds
  infer_instance

/-! ## Concrete configurations and states used as test inputs -/

/-- A platform: ramps of 4 samples at 48 kHz, timer clocked at 96 MHz. -/
def pdata_example : platform_data :=
  { SOUND_RAMP_SMAPLE_COUNT := 4, SOUND_RAMP_SMAPLE_RATE := 48000, tim_clock_rate := 96000000 }

/-- A caller buffer of three samples. -/
def buf_a : caller_buffer := { addr := 0x20000100, samples := [1000, 2000, 3000] }

/-- A second caller buffer, of two samples. -/
def buf_b : caller_buffer := { addr := 0x20000200, samples := [500, 600] }

/-- A caller buffer of one hundred samples. -/
def buf_100 : caller_buffer := { addr := 0x20000400, samples := List.replicate 100 2048 }

/-- A state in which `buf_a` is being played in a loop at 8 kHz. -/
def playing_example : driver_state :=
  { sound_state := sound_state_t.SOUND_STATE_PLAYING
    current_playing_data := sample_ptr.caller buf_a
    current_playing_length := 3
    ramp_data_buffer := [250, 500, 750, 1000]
    target_sound_data := sample_ptr.caller buf_a
    target_sound_length := 3
    target_sample_rate := 8000
    enable_gpio := true
    hdma_mode := dma_mode_t.DMA_CIRCULAR
    htim_period := 11999
    dma_it_tc := false
    dac_dma := some (sample_ptr.caller buf_a, 3) }

/-- A state in which the ramp up to `buf_a` is being emitted. -/
def ramping_up_example : driver_state :=
  { sound_state := sound_state_t.SOUND_STATE_RAMPING_UP
    current_playing_data := sample_ptr.ramp
    current_playing_length := 4
    ramp_data_buffer := [250, 500, 750, 1000]
    target_sound_data := sample_ptr.caller buf_a
    target_sound_length := 3
    target_sample_rate := 8000
    enable_gpio := true
    hdma_mode := dma_mode_t.DMA_NORMAL
    htim_period := 1999
    dma_it_tc := true
    dac_dma := some (sample_ptr.ramp, 4) }

/-- A state in which the ramp down to silence is being emitted. -/
def ramping_down_example : driver_state :=
  { sound_state := sound_state_t.SOUND_STATE_RAMPING_DOWN
    current_playing_data := sample_ptr.ramp
    current_playing_length := 4
    ramp_data_buffer := [750, 500, 250, 0]
    target_sound_data := sample_ptr.caller buf_a
    target_sound_length := 3
    target_sample_rate := 8000
    enable_gpio := true
    hdma_mode := dma_mode_t.DMA_NORMAL
    htim_period := 1999
    dma_it_tc := true
    dac_dma := some (sample_ptr.ramp, 4) }

/-- A platform whose ramps have 3 samples, a count that is not a power of two. -/
def pdata_three : platform_data :=
  { SOUND_RAMP_SMAPLE_COUNT := 3, SOUND_RAMP_SMAPLE_RATE := 48000, tim_clock_rate := 96000000 }

/-- A caller buffer whose first sample is `2`. -/
def buf_two : caller_buffer := { addr := 0x20000300, samples := [2, 7, 9] }

/-- A caller buffer whose first sample is `1`. -/
def buf_one : caller_buffer := { addr := 0x20000500, samples := [1, 5] }

/-! ## Sequences of calls -/

/-- The entry points that run after `pbdrv_sound_init`: a call of `pbdrv_sound_start` or of
`pbdrv_sound_stop`, each with the value of the DMA counter it reads, or a delivery of the
transfer-complete interrupt to `HAL_DAC_ConvCpltCallbackCh1`. -/
inductive sound_event
  | start (data : caller_buffer) (length sample_rate dma_counter : Nat)
  | stop (dma_counter : Nat)
  | completion
  deriving DecidableEq, Repr

/-- One entry point run to its end in state `s`. -/
def apply_event (pdata : platform_data) (s : driver_state) : sound_event → Option driver_state
  | sound_event.start data length sample_rate dma_counter =>
    pbdrv_sound_start pdata s data length sample_rate dma_counter
  | sound_event.stop dma_counter => pbdrv_sound_stop pdata s dma_counter
  | sound_event.completion => HAL_DAC_ConvCpltCallbackCh1 pdata s

/-- A finite sequence of entry points run one after the other from state `s`. -/
def run_events (pdata : platform_data) : driver_state → List sound_event → Option driver_state
  | s, [] => some s
  | s, ev :: rest => (apply_event pdata s ev).bind fun s' => run_events pdata s' rest

/-- The states the driver can be in: `pbdrv_sound_init` is run on the state after power-on,
then any finite sequence of start, stop and completion steps. -/
def reachable (pdata : platform_data) (s : driver_state) : Prop :=
  ∃ events, run_events pdata (pbdrv_sound_init (power_on pdata)) events = some s

/-! ## The waveform generator

Shallow embedding of `lib/pbio/src/audio_generator.c`. As for the ramp, every `float`
operation is rounded to binary32; `cosf`, a function of the C library, is a parameter. The
division that computes the phase is guarded: a zero divisor makes the generator return `none`,
as does a store outside the buffer `data` points to. -/

/-- The status type `pbio_error_t` of `pbio/error.h`, a header that is not among the files
embedded: `PBIO_SUCCESS`, the constant the generator names, and the other codes of the enum,
told apart by their value. -/
inductive pbio_error_t
  | PBIO_SUCCESS
  | PBIO_ERROR (code : Nat)
  deriving DecidableEq, Repr

/-- The macro `PBIO_SOUND_WAVE_TYPE_SINE`. -/
def PBIO_SOUND_WAVE_TYPE_SINE : Nat := 0

/-- The macro `PBIO_SOUND_WAVE_TYPE_TRIANGLE`. -/
def PBIO_SOUND_WAVE_TYPE_TRIANGLE : Nat := 1

/-- The macro `PBIO_SOUND_WAVE_TYPE_SAW`. -/
def PBIO_SOUND_WAVE_TYPE_SAW : Nat := 2

/-- The macro `PBIO_SOUND_WAVE_TYPE_SQUARE`. -/
def PBIO_SOUND_WAVE_TYPE_SQUARE : Nat := 3

/-- The macro `M_PI` as the file defines it under `#ifndef M_PI`, the `float` constant
`3.14159265358979323846f`. Where `<math.h>` defines `M_PI` itself, as a `double`, the product
`time * 2 * M_PI` is a `double` product converted to `float` on the call of `cosf`; the
argument of `cosf` then differs from the one computed here by a rounding. -/
def M_PI : ℚ := f32_round 3.14159265358979323846

/-- The function `get_sin_value_at_time`: `-cosf(time * 2 * M_PI) / 2 + 0.5`. The two products
and the quotient are `float` operations; the sum has the `double` constant `0.5` for an
operand, so it is rounded to `double`, and the value returned is converted to `float`. -/
def get_sin_value_at_time (cosf : ℚ → ℚ) (time : ℚ) : ℚ :=
  f32_round (f64_round
    (f32_round (-cosf (f32_round (f32_round (time * 2) * M_PI)) / 2) + 1 / 2))

/-- The function `get_triangle_value_at_time`. -/
def get_triangle_value_at_time (time : ℚ) : ℚ :=
  if time < 1 / 2 then f32_round (time * 2) else f32_round (f32_round (1 - time) * 2)

/-- The function `get_saw_value_at_time`. -/
def get_saw_value_at_time (time : ℚ) : ℚ :=
  time

/-- The function `get_square_value_at_time`. -/
def get_square_value_at_time (time : ℚ) : ℚ :=
  if time < 1 / 2 then 0 else if time = 1 / 2 then 1 / 2 else 1

/-- The division of `(float)time_stamp / length`, guarded against a zero divisor: the
quotient of two `float` values, rounded. -/
def float_div (a b : ℚ) : Option ℚ :=
  if b = 0 then none else some (f32_round (a / b))

/-- The phase `(float)time_stamp / length` for a length that is not `0`: both operands are
converted to `float` and the quotient is rounded. -/
def phase (time_stamp length : Nat) : ℚ :=
  f32_round (f32_round (time_stamp : ℚ) / f32_round (length : ℚ))

/-- The `switch (wave_type)` of `pbio_sound_generate_wave`: the value a matching case stores in
`data[time_stamp]`, or `none` when no case matches and nothing is stored. In each case
`volume` is converted to `float`, the product is rounded, and the cast truncates it. -/
def switch_wave_type (cosf : ℚ → ℚ) (wave_type : Nat) (time : ℚ) (volume : Nat) : Option Nat :=
  if wave_type = PBIO_SOUND_WAVE_TYPE_SINE then
    some (float_to_uint16
      (f32_round (get_sin_value_at_time cosf time * f32_round (volume : ℚ))))
  else if wave_type = PBIO_SOUND_WAVE_TYPE_TRIANGLE then
    some (float_to_uint16
      (f32_round (get_triangle_value_at_time time * f32_round (volume : ℚ))))
  else if wave_type = PBIO_SOUND_WAVE_TYPE_SAW then
    some (float_to_uint16 (f32_round (get_saw_value_at_time time * f32_round (volume : ℚ))))
  else if wave_type = PBIO_SOUND_WAVE_TYPE_SQUARE then
    some (float_to_uint16
      (f32_round (get_square_value_at_time time * f32_round (volume : ℚ))))
  else
    none

/-- The loop `for (time_stamp = 0; time_stamp < length; time_stamp++)` of
`pbio_sound_generate_wave`, with `n` iterations left, at index `time_stamp`. -/
def generate_loop (cosf : ℚ → ℚ) (length wave_type volume : Nat) :
    Nat → Nat → List Nat → Option (List Nat)
  | 0, _, data => some data
  | n + 1, time_stamp, data => do
    let time_at_current_timestamp ←
      float_div (f32_round (time_stamp : ℚ)) (f32_round (length : ℚ))
    match switch_wave_type cosf wave_type time_at_current_timestamp volume with
    | some value =>
      if time_stamp < data.length then
        generate_loop cosf length wave_type volume n (time_stamp + 1) (data.set time_stamp value)
      else
        none
    | none => generate_loop cosf length wave_type volume n (time_stamp + 1) data

/-- The function `pbio_sound_generate_wave`: the status returned and the buffer left behind. -/
def pbio_sound_generate_wave (cosf : ℚ → ℚ) (data : List Nat) (length wave_type volume : Nat) :
    Option (pbio_error_t × List Nat) := do
  let data ← generate_loop cosf length wave_type volume length 0 data
  some (pbio_error_t.PBIO_SUCCESS, data)

/-- A rational stand-in for `cosf`, used as a test input: the Taylor polynomial of degree six
of the cosine, cut off at `-1` and `1`. -/
def cosf_example (x : ℚ) : ℚ :=
  max (-1) (min 1 (1 - x ^ 2 / 2 + x ^ 4 / 24 - x ^ 6 / 720))

/-! ## Rounding to the nearest integer -/

theorem round_ties_even_spec (x : ℚ) :
    |x - (round_ties_even x : ℚ)| < 1 / 2 ∨
      (|x - (round_ties_even x : ℚ)| = 1 / 2 ∧ round_ties_even x % 2 = 0) := by
  have h1 : (⌊x⌋ : ℚ) ≤ x := Int.floor_le x
  have h2 : x < (⌊x⌋ : ℚ) + 1 := Int.lt_floor_add_one x
  unfold round_ties_even
  split_ifs with ha hb hc
  · left
    rw [abs_lt]
    constructor <;> linarith
  · left
    push_cast
    rw [abs_lt]
    constructor <;> linarith
  · right
    have he : x - (⌊x⌋ : ℚ) = 1 / 2 := le_antisymm (not_lt.mp hb) (not_lt.mp ha)
    refine ⟨?_, hc⟩
    rw [he]
    norm_num
  · right
    have he : x - (⌊x⌋ : ℚ) = 1 / 2 := le_antisymm (not_lt.mp hb) (not_lt.mp ha)
    constructor
    · push_cast
      have : x - ((⌊x⌋ : ℚ) + 1) = -(1 / 2) := by linarith
      rw [this]
      norm_num
    · omega

theorem round_ties_even_unique (x : ℚ) (m : ℤ)
    (h : |x - (m : ℚ)| < 1 / 2 ∨ (|x - (m : ℚ)| = 1 / 2 ∧ m % 2 = 0)) :
    round_ties_even x = m := by
  have hs := round_ties_even_spec x
  generalize round_ties_even x = r at hs
  have hr : |x - (r : ℚ)| ≤ 1 / 2 := by
    rcases hs with h1 | h1
    · exact h1.le
    · exact h1.1.le
  have hm : |x - (m : ℚ)| ≤ 1 / 2 := by
    rcases h with h1 | h1
    · exact h1.le
    · exact h1.1.le
  rw [abs_le] at hr hm
  have hd1 : (r : ℚ) - (m : ℚ) ≤ 1 := by linarith
  have hd2 : (m : ℚ) - (r : ℚ) ≤ 1 := by linarith
  have hd1' : r - m ≤ 1 := by exact_mod_cast hd1
  have hd2' : m - r ≤ 1 := by exact_mod_cast hd2
  by_contra hne
  have hcases : r = m + 1 ∨ m = r + 1 := by omega
  rcases hcases with hc | hc
  · have hrq : (r : ℚ) = (m : ℚ) + 1 := by exact_mod_cast hc
    rcases hs with h1 | h1
    · rw [abs_lt] at h1
      rcases h with h2 | h2
      · rw [abs_lt] at h2
        linarith
      · rw [abs_eq (by norm_num)] at h2
        rcases h2.1 with h3 | h3 <;> linarith
    · rcases h with h2 | h2
      · rw [abs_lt] at h2
        rw [abs_eq (by norm_num)] at h1
        rcases h1.1 with h3 | h3 <;> linarith
      · omega
  · have hrq : (m : ℚ) = (r : ℚ) + 1 := by exact_mod_cast hc
    rcases hs with h1 | h1
    · rw [abs_lt] at h1
      rcases h with h2 | h2
      · rw [abs_lt] at h2
        linarith
      · rw [abs_eq (by norm_num)] at h2
        rcases h2.1 with h3 | h3 <;> linarith
    · rcases h with h2 | h2
      · rw [abs_lt] at h2
        rw [abs_eq (by norm_num)] at h1
        rcases h1.1 with h3 | h3 <;> linarith
      · omega

theorem round_ties_even_intCast (n : ℤ) : round_ties_even (n : ℚ) = n :=
  round_ties_even_unique _ n (Or.inl (by simp))

theorem round_ties_even_error (x : ℚ) : |(round_ties_even x : ℚ) - x| ≤ 1 / 2 := by
  rw [abs_sub_comm]
  rcases round_ties_even_spec x with h | h
  · exact h.le
  · exact h.1.le

theorem round_ties_even_neg (x : ℚ) : round_ties_even (-x) = -round_ties_even x := by
  apply round_ties_even_unique
  have e : -x - ((-round_ties_even x : ℤ) : ℚ) = -(x - (round_ties_even x : ℚ)) := by
    push_cast
    ring
  rw [e, abs_neg]
  rcases round_ties_even_spec x with h | h
  · exact Or.inl h
  · exact Or.inr ⟨h.1, by omega⟩

theorem round_ties_even_mono (x y : ℚ) (h : x ≤ y) : round_ties_even x ≤ round_ties_even y := by
  by_contra hc
  have hlt : round_ties_even y + 1 ≤ round_ties_even x := by omega
  have hq : (round_ties_even y : ℚ) + 1 ≤ (round_ties_even x : ℚ) := by exact_mod_cast hlt
  have hx := round_ties_even_error x
  have hy := round_ties_even_error y
  rw [abs_le] at hx hy
  have hxy : x = y := by linarith
  rw [hxy] at hlt
  omega

theorem round_ties_even_le (x : ℚ) (n : ℤ) (h : x ≤ (n : ℚ)) : round_ties_even x ≤ n := by
  have := round_ties_even_mono x n h
  rwa [round_ties_even_intCast] at this

theorem le_round_ties_even (x : ℚ) (n : ℤ) (h : (n : ℚ) ≤ x) : n ≤ round_ties_even x := by
  have := round_ties_even_mono n x h
  rwa [round_ties_even_intCast] at this
/-! ## Rounding to a floating-point format -/

theorem fp_round_zero (prec : Nat) (emin : ℤ) : fp_round prec emin 0 = 0 := by
  simp [fp_round]

theorem fp_round_of_ne_zero (prec : Nat) (emin : ℤ) (q : ℚ) (hq : q ≠ 0) :
    fp_round prec emin q =
      (round_ties_even (q / 2 ^ (max (Int.log 2 |q|) emin - ((prec : ℤ) - 1))) : ℚ) *
        2 ^ (max (Int.log 2 |q|) emin - ((prec : ℤ) - 1)) := by
  unfold fp_round
  rw [if_neg hq]

theorem two_zpow_pos (x : ℤ) : (0 : ℚ) < 2 ^ x :=
  zpow_pos (by norm_num) x

theorem fp_round_neg (prec : Nat) (emin : ℤ) (q : ℚ) :
    fp_round prec emin (-q) = -fp_round prec emin q := by
  by_cases hq : q = 0
  · subst hq
    simp [fp_round_zero]
  · rw [fp_round_of_ne_zero _ _ _ (neg_ne_zero.mpr hq), fp_round_of_ne_zero _ _ _ hq, abs_neg,
      neg_div, round_ties_even_neg]
    push_cast
    ring

/-- The binary exponent of a nonzero rational: `2 ^ e ≤ |q| < 2 ^ (e + 1)`. -/
theorem log_two_bounds (q : ℚ) (hq : q ≠ 0) :
    (2 : ℚ) ^ Int.log 2 |q| ≤ |q| ∧ |q| < (2 : ℚ) ^ (Int.log 2 |q| + 1) := by
  have hpos : 0 < |q| := abs_pos.mpr hq
  have h1 := Int.zpow_log_le_self (b := 2) (by norm_num) hpos
  have h2 := Int.lt_zpow_succ_log_self (b := 2) (by norm_num) |q|
  simp only [Nat.cast_ofNat] at h1 h2
  exact ⟨h1, h2⟩

theorem log_two_lt (q : ℚ) (hq : q ≠ 0) (x : ℤ) (h : |q| < (2 : ℚ) ^ x) :
    Int.log 2 |q| < x := by
  have hpos : 0 < |q| := abs_pos.mpr hq
  have := (Int.lt_zpow_iff_log_lt (b := 2) (by norm_num) (x := x) hpos).mp
    (by simpa only [Nat.cast_ofNat] using h)
  exact this

theorem le_log_two (q : ℚ) (hq : q ≠ 0) (x : ℤ) (h : (2 : ℚ) ^ x ≤ |q|) :
    x ≤ Int.log 2 |q| := by
  have hpos : 0 < |q| := abs_pos.mpr hq
  have := (Int.zpow_le_iff_le_log (b := 2) (by norm_num) (x := x) hpos).mp
    (by simpa only [Nat.cast_ofNat] using h)
  exact this

theorem log_two_eq (q : ℚ) (e : ℤ) (h1 : (2 : ℚ) ^ e ≤ |q|) (h2 : |q| < (2 : ℚ) ^ (e + 1)) :
    Int.log 2 |q| = e := by
  have hq : q ≠ 0 := by
    intro h0
    rw [h0, abs_zero] at h1
    exact absurd h1 (not_le.mpr (two_zpow_pos e))
  have := log_two_lt q hq (e + 1) h2
  have := le_log_two q hq e h1
  omega

/-- A number with at most `prec` significant bits and exponent not below the least one is not
changed by rounding. -/
theorem fp_round_exact (prec : Nat) (emin : ℤ) (m k : ℤ) (hm : |m| < 2 ^ prec)
    (hk : emin - ((prec : ℤ) - 1) ≤ k) :
    fp_round prec emin ((m : ℚ) * 2 ^ k) = (m : ℚ) * 2 ^ k := by
  by_cases hm0 : m = 0
  · subst hm0
    simp [fp_round_zero]
  · have hk0 : (0 : ℚ) < 2 ^ k := two_zpow_pos k
    have hq : (m : ℚ) * 2 ^ k ≠ 0 :=
      mul_ne_zero (by exact_mod_cast hm0) (ne_of_gt hk0)
    have habs : |(m : ℚ) * 2 ^ k| < (2 : ℚ) ^ ((prec : ℤ) + k) := by
      rw [abs_mul, abs_of_pos hk0, zpow_add₀ (by norm_num : (2 : ℚ) ≠ 0)]
      apply mul_lt_mul_of_pos_right _ hk0
      have : ((|m| : ℤ) : ℚ) < ((2 ^ prec : ℤ) : ℚ) := by exact_mod_cast hm
      simpa [zpow_natCast] using this
    have hlog := log_two_lt _ hq _ habs
    rw [fp_round_of_ne_zero _ _ _ hq]
    generalize Int.log 2 |(m : ℚ) * 2 ^ k| = e at hlog
    have hE : max e emin - ((prec : ℤ) - 1) ≤ k := by
      rcases le_total e emin with h | h
      · rw [max_eq_right h]
        exact hk
      · rw [max_eq_left h]
        omega
    generalize max e emin - ((prec : ℤ) - 1) = u at hE
    obtain ⟨n, hn⟩ := Int.eq_ofNat_of_zero_le (sub_nonneg.mpr hE)
    have hk2 : k = (n : ℤ) + u := by omega
    have hdiv : (m : ℚ) * 2 ^ k / 2 ^ u = ((m * 2 ^ n : ℤ) : ℚ) := by
      rw [hk2, zpow_add₀ (by norm_num : (2 : ℚ) ≠ 0), zpow_natCast]
      push_cast
      field_simp
      ring
    rw [hdiv, round_ties_even_intCast, hk2, zpow_add₀ (by norm_num : (2 : ℚ) ≠ 0), zpow_natCast]
    push_cast
    ring

/-- Integers of magnitude at most `2 ^ prec` are not changed by rounding. -/
theorem fp_round_intCast (prec : Nat) (emin : ℤ) (m : ℤ) (hm : |m| < 2 ^ prec)
    (hemin : emin ≤ (prec : ℤ) - 1) :
    fp_round prec emin (m : ℚ) = (m : ℚ) := by
  have h := fp_round_exact prec emin m 0 hm (by omega)
  simpa using h

/-- The error of rounding is at most half a unit in the last place. -/
theorem fp_round_error (prec : Nat) (emin : ℤ) (q : ℚ) :
    |fp_round prec emin q - q| ≤ 2 ^ (max (Int.log 2 |q|) emin - ((prec : ℤ) - 1)) / 2 := by
  by_cases hq : q = 0
  · subst hq
    rw [fp_round_zero, sub_zero, abs_zero]
    exact (div_pos (two_zpow_pos _) (by norm_num)).le
  · rw [fp_round_of_ne_zero _ _ _ hq]
    generalize max (Int.log 2 |q|) emin - ((prec : ℤ) - 1) = u
    have hu : (0 : ℚ) < 2 ^ u := two_zpow_pos u
    have he := round_ties_even_error (q / 2 ^ u)
    have e : (round_ties_even (q / 2 ^ u) : ℚ) * 2 ^ u - q =
        ((round_ties_even (q / 2 ^ u) : ℚ) - q / 2 ^ u) * 2 ^ u := by
      field_simp
    rw [e, abs_mul, abs_of_pos hu]
    calc |(round_ties_even (q / 2 ^ u) : ℚ) - q / 2 ^ u| * 2 ^ u ≤ 1 / 2 * 2 ^ u :=
          mul_le_mul_of_nonneg_right he hu.le
      _ = 2 ^ u / 2 := by ring

theorem fp_round_nonneg (prec : Nat) (emin : ℤ) (q : ℚ) (h : 0 ≤ q) :
    0 ≤ fp_round prec emin q := by
  by_cases hq : q = 0
  · subst hq
    rw [fp_round_zero]
  · rw [fp_round_of_ne_zero _ _ _ hq]
    generalize max (Int.log 2 |q|) emin - ((prec : ℤ) - 1) = u
    have hu : (0 : ℚ) < 2 ^ u := two_zpow_pos u
    apply mul_nonneg _ hu.le
    have : (0 : ℤ) ≤ round_ties_even (q / 2 ^ u) :=
      le_round_ties_even _ 0 (by simpa using div_nonneg h hu.le)
    exact_mod_cast this

theorem fp_round_nonpos (prec : Nat) (emin : ℤ) (q : ℚ) (h : q ≤ 0) :
    fp_round prec emin q ≤ 0 := by
  have := fp_round_nonneg prec emin (-q) (by linarith)
  rw [fp_round_neg] at this
  linarith
theorem two_zpow_le (x y : ℤ) (h : x ≤ y) : (2 : ℚ) ^ x ≤ 2 ^ y :=
  zpow_le_zpow_right₀ (by norm_num) h

theorem two_zpow_sub (x y : ℤ) : (2 : ℚ) ^ x / 2 ^ y = 2 ^ (x - y) :=
  (zpow_sub₀ (by norm_num : (2 : ℚ) ≠ 0) x y).symm

/-- A rational below `2 ^ (e + 1)` rounds, with the unit of exponent `e`, to at most
`2 ^ (e + 1)`. -/
theorem round_scaled_le (prec : Nat) (e : ℤ) (a : ℚ) (ha : a ≤ (2 : ℚ) ^ (e + 1)) :
    (round_ties_even (a / 2 ^ (e - ((prec : ℤ) - 1))) : ℚ) * 2 ^ (e - ((prec : ℤ) - 1)) ≤
      (2 : ℚ) ^ (e + 1) := by
  have hu : (0 : ℚ) < 2 ^ (e - ((prec : ℤ) - 1)) := two_zpow_pos _
  have hx : a / 2 ^ (e - ((prec : ℤ) - 1)) ≤ (((2 : ℤ) ^ prec : ℤ) : ℚ) := by
    rw [div_le_iff₀ hu]
    push_cast
    rw [← zpow_natCast, ← zpow_add₀ (by norm_num : (2 : ℚ) ≠ 0)]
    have : (prec : ℤ) + (e - ((prec : ℤ) - 1)) = e + 1 := by ring
    rw [this]
    exact ha
  have hr := round_ties_even_le _ _ hx
  have hrq : (round_ties_even (a / 2 ^ (e - ((prec : ℤ) - 1))) : ℚ) ≤ (2 : ℚ) ^ (prec : ℤ) := by
    have : (round_ties_even (a / 2 ^ (e - ((prec : ℤ) - 1))) : ℚ) ≤ (((2 : ℤ) ^ prec : ℤ) : ℚ) := by
      exact_mod_cast hr
    simpa [zpow_natCast] using this
  calc (round_ties_even (a / 2 ^ (e - ((prec : ℤ) - 1))) : ℚ) * 2 ^ (e - ((prec : ℤ) - 1))
      ≤ (2 : ℚ) ^ (prec : ℤ) * 2 ^ (e - ((prec : ℤ) - 1)) :=
        mul_le_mul_of_nonneg_right hrq hu.le
    _ = (2 : ℚ) ^ (e + 1) := by
        rw [← zpow_add₀ (by norm_num : (2 : ℚ) ≠ 0)]
        congr 1
        ring

/-- A rational of at least `2 ^ e` rounds, with the unit of exponent `e`, to at least
`2 ^ e`. -/
theorem le_round_scaled (prec : Nat) (hprec : 1 ≤ prec) (e : ℤ) (b : ℚ)
    (hb : (2 : ℚ) ^ e ≤ b) :
    (2 : ℚ) ^ e ≤
      (round_ties_even (b / 2 ^ (e - ((prec : ℤ) - 1))) : ℚ) * 2 ^ (e - ((prec : ℤ) - 1)) := by
  have hu : (0 : ℚ) < 2 ^ (e - ((prec : ℤ) - 1)) := two_zpow_pos _
  have hp : ((prec - 1 : Nat) : ℤ) = (prec : ℤ) - 1 := by omega
  have hx : (((2 : ℤ) ^ (prec - 1) : ℤ) : ℚ) ≤ b / 2 ^ (e - ((prec : ℤ) - 1)) := by
    rw [le_div_iff₀ hu]
    push_cast
    rw [← zpow_natCast, ← zpow_add₀ (by norm_num : (2 : ℚ) ≠ 0), hp]
    have : (prec : ℤ) - 1 + (e - ((prec : ℤ) - 1)) = e := by ring
    rw [this]
    exact hb
  have hr := le_round_ties_even _ _ hx
  have hrq : (2 : ℚ) ^ ((prec : ℤ) - 1) ≤
      (round_ties_even (b / 2 ^ (e - ((prec : ℤ) - 1))) : ℚ) := by
    have hpow : (2 : ℚ) ^ ((prec : ℤ) - 1) = (((2 : ℤ) ^ (prec - 1) : ℤ) : ℚ) := by
      rw [← hp, zpow_natCast]
      push_cast
      rfl
    rw [hpow]
    exact_mod_cast hr
  calc (2 : ℚ) ^ e = (2 : ℚ) ^ ((prec : ℤ) - 1) * 2 ^ (e - ((prec : ℤ) - 1)) := by
        rw [← zpow_add₀ (by norm_num : (2 : ℚ) ≠ 0)]
        congr 1
        ring
    _ ≤ _ := mul_le_mul_of_nonneg_right hrq hu.le

theorem fp_round_mono_pos (prec : Nat) (hprec : 1 ≤ prec) (emin : ℤ) (a b : ℚ) (ha : 0 < a)
    (hab : a ≤ b) : fp_round prec emin a ≤ fp_round prec emin b := by
  have hb : 0 < b := lt_of_lt_of_le ha hab
  have ha0 : a ≠ 0 := ne_of_gt ha
  have hb0 : b ≠ 0 := ne_of_gt hb
  have hla := log_two_bounds a ha0
  have hlb := log_two_bounds b hb0
  have hlog : Int.log 2 |a| ≤ Int.log 2 |b| := by
    apply Int.log_mono_right (abs_pos.mpr ha0)
    rw [abs_of_pos ha, abs_of_pos hb]
    exact hab
  rw [fp_round_of_ne_zero _ _ _ ha0, fp_round_of_ne_zero _ _ _ hb0]
  rw [abs_of_pos ha] at hla ⊢
  rw [abs_of_pos hb] at hlb ⊢
  rw [abs_of_pos ha, abs_of_pos hb] at hlog
  generalize Int.log 2 a = ea at hla hlog
  generalize Int.log 2 b = eb at hlb hlog
  rcases eq_or_lt_of_le (max_le_max hlog (le_refl emin)) with heq | hlt
  · rw [heq]
    have hu : (0 : ℚ) < 2 ^ (max eb emin - ((prec : ℤ) - 1)) := two_zpow_pos _
    apply mul_le_mul_of_nonneg_right _ hu.le
    have := round_ties_even_mono _ _ (div_le_div_of_nonneg_right hab hu.le)
    exact_mod_cast this
  · have hEb : max eb emin = eb := by
      apply max_eq_left
      by_contra hc
      rw [max_eq_right (le_of_lt (not_le.mp hc))] at hlt
      exact absurd (le_max_right ea emin) (not_le.mpr hlt)
    have h1 : a ≤ (2 : ℚ) ^ (max ea emin + 1) :=
      le_trans hla.2.le (two_zpow_le _ _ (by have := le_max_left ea emin; omega))
    have h2 := round_scaled_le prec (max ea emin) a h1
    have h3 := le_round_scaled prec hprec eb b hlb.1
    rw [hEb] at hlt ⊢
    have h4 : (2 : ℚ) ^ (max ea emin + 1) ≤ 2 ^ eb := two_zpow_le _ _ (by omega)
    linarith

/-- Rounding is monotone. -/
theorem fp_round_mono (prec : Nat) (hprec : 1 ≤ prec) (emin : ℤ) (a b : ℚ) (hab : a ≤ b) :
    fp_round prec emin a ≤ fp_round prec emin b := by
  rcases lt_trichotomy a 0 with ha | ha | ha
  · rcases le_or_lt b 0 with hb | hb
    · rcases eq_or_lt_of_le hb with hb0 | hb0
      · rw [hb0, fp_round_zero]
        exact fp_round_nonpos _ _ _ ha.le
      · have h := fp_round_mono_pos prec hprec emin (-b) (-a) (by linarith) (by linarith)
        rw [fp_round_neg, fp_round_neg] at h
        linarith
    · exact le_trans (fp_round_nonpos _ _ _ ha.le) (fp_round_nonneg _ _ _ hb.le)
  · rw [ha, fp_round_zero]
    exact fp_round_nonneg _ _ _ (by linarith)
  · exact fp_round_mono_pos prec hprec emin a b ha hab

/-- The value of a rounding, from the binary exponent `e` of the argument and the integer `m`
nearest to the argument counted in units of the last place. -/
theorem fp_round_eval (prec : Nat) (emin : ℤ) (q : ℚ) (e m : ℤ)
    (h1 : (2 : ℚ) ^ e ≤ |q|) (h2 : |q| < (2 : ℚ) ^ (e + 1)) (he : emin ≤ e)
    (hm : |q / 2 ^ (e - ((prec : ℤ) - 1)) - (m : ℚ)| < 1 / 2 ∨
      (|q / 2 ^ (e - ((prec : ℤ) - 1)) - (m : ℚ)| = 1 / 2 ∧ m % 2 = 0)) :
    fp_round prec emin q = (m : ℚ) * 2 ^ (e - ((prec : ℤ) - 1)) := by
  have hq : q ≠ 0 := by
    intro h0
    rw [h0, abs_zero] at h1
    exact absurd h1 (not_le.mpr (two_zpow_pos e))
  rw [fp_round_of_ne_zero _ _ _ hq, log_two_eq q e h1 h2, max_eq_left he,
    round_ties_even_unique _ m hm]

theorem f32_round_eval (q : ℚ) (e m : ℤ)
    (h1 : (2 : ℚ) ^ e ≤ |q|) (h2 : |q| < (2 : ℚ) ^ (e + 1)) (he : -126 ≤ e)
    (hm : |q / 2 ^ (e - 23) - (m : ℚ)| < 1 / 2 ∨
      (|q / 2 ^ (e - 23) - (m : ℚ)| = 1 / 2 ∧ m % 2 = 0)) :
    f32_round q = (m : ℚ) * 2 ^ (e - 23) := by
  have h := fp_round_eval 24 (-126) q e m h1 h2 he (by simpa using hm)
  simpa [f32_round] using h

theorem f32_round_zero : f32_round 0 = 0 :=
  fp_round_zero _ _

theorem f32_round_mono (a b : ℚ) (h : a ≤ b) : f32_round a ≤ f32_round b :=
  fp_round_mono 24 (by decide) (-126) a b h

theorem f32_round_nonneg (q : ℚ) (h : 0 ≤ q) : 0 ≤ f32_round q :=
  fp_round_nonneg _ _ q h

theorem f32_round_nonpos (q : ℚ) (h : q ≤ 0) : f32_round q ≤ 0 :=
  fp_round_nonpos _ _ q h

theorem f32_round_neg (q : ℚ) : f32_round (-q) = -f32_round q :=
  fp_round_neg _ _ q

/-- A `float` is not changed by the conversion to `float`: `m * 2 ^ k` with `|m| < 2 ^ 24`
and `k ≥ -149`. -/
theorem f32_round_exact (m k : ℤ) (hm : |m| < 2 ^ 24) (hk : -149 ≤ k) :
    f32_round ((m : ℚ) * 2 ^ k) = (m : ℚ) * 2 ^ k :=
  fp_round_exact 24 (-126) m k hm (by norm_num; omega)

theorem f32_round_intCast (m : ℤ) (hm : |m| < 2 ^ 24) : f32_round (m : ℚ) = (m : ℚ) :=
  fp_round_intCast 24 (-126) m hm (by norm_num)

theorem f32_round_natCast (n : Nat) (hn : n < 2 ^ 24) : f32_round (n : ℚ) = (n : ℚ) := by
  have h := f32_round_intCast (n : ℤ) (by rw [abs_of_nonneg (Int.natCast_nonneg n)]; exact_mod_cast hn)
  simpa using h

/-! ## Rounding twice, and the error of a rounding -/

/-- A rounded number is not changed by a second rounding. -/
theorem fp_round_idem (prec : Nat) (hprec : 1 ≤ prec) (emin : ℤ) (q : ℚ) :
    fp_round prec emin (fp_round prec emin q) = fp_round prec emin q := by
  by_cases hq : q = 0
  · subst hq
    rw [fp_round_zero, fp_round_zero]
  · have hl := log_two_bounds q hq
    rw [fp_round_of_ne_zero _ _ _ hq]
    have hE : Int.log 2 |q| ≤ max (Int.log 2 |q|) emin := le_max_left _ _
    have hE2 : emin ≤ max (Int.log 2 |q|) emin := le_max_right _ _
    generalize max (Int.log 2 |q|) emin = E at hE hE2
    have hu : (0 : ℚ) < 2 ^ (E - ((prec : ℤ) - 1)) := two_zpow_pos _
    have hq2 : |q| ≤ (2 : ℚ) ^ (E + 1) := le_trans hl.2.le (two_zpow_le _ _ (by omega))
    have hpow : (2 : ℚ) ^ (E + 1) / 2 ^ (E - ((prec : ℤ) - 1)) = (((2 : ℤ) ^ prec : ℤ) : ℚ) := by
      rw [two_zpow_sub]
      have : E + 1 - (E - ((prec : ℤ) - 1)) = (prec : ℤ) := by ring
      rw [this, zpow_natCast]
      push_cast
      rfl
    have hx := abs_le.mp hq2
    have hup : round_ties_even (q / 2 ^ (E - ((prec : ℤ) - 1))) ≤ (2 : ℤ) ^ prec := by
      apply round_ties_even_le
      rw [← hpow]
      exact div_le_div_of_nonneg_right hx.2 hu.le
    have hlo : -((2 : ℤ) ^ prec) ≤ round_ties_even (q / 2 ^ (E - ((prec : ℤ) - 1))) := by
      apply le_round_ties_even
      push_cast
      have h2 : -((2 : ℚ) ^ (E + 1) / 2 ^ (E - ((prec : ℤ) - 1))) ≤
          q / 2 ^ (E - ((prec : ℤ) - 1)) := by
        rw [← neg_div]
        exact div_le_div_of_nonneg_right hx.1 hu.le
      rw [hpow] at h2
      push_cast at h2
      exact h2
    generalize round_ties_even (q / 2 ^ (E - ((prec : ℤ) - 1))) = r at hup hlo
    have hp1 : (2 : ℤ) ^ prec = 2 * 2 ^ (prec - 1) := by
      rw [← pow_succ']
      congr 1
      omega
    have hpos : (0 : ℤ) < 2 ^ (prec - 1) := by positivity
    rcases eq_or_lt_of_le hup with h1 | h1
    · have e1 : (r : ℚ) * 2 ^ (E - ((prec : ℤ) - 1)) =
          (((2 : ℤ) ^ (prec - 1) : ℤ) : ℚ) * 2 ^ (E - ((prec : ℤ) - 1) + 1) := by
        rw [h1, hp1, zpow_add₀ (by norm_num : (2 : ℚ) ≠ 0)]
        push_cast
        ring
      rw [e1]
      apply fp_round_exact
      · rw [abs_of_pos hpos, hp1]
        omega
      · omega
    · rcases eq_or_lt_of_le hlo with h2 | h2
      · have e1 : (r : ℚ) * 2 ^ (E - ((prec : ℤ) - 1)) =
            ((-((2 : ℤ) ^ (prec - 1)) : ℤ) : ℚ) * 2 ^ (E - ((prec : ℤ) - 1) + 1) := by
          rw [← h2, hp1, zpow_add₀ (by norm_num : (2 : ℚ) ≠ 0)]
          push_cast
          ring
        rw [e1]
        apply fp_round_exact
        · rw [abs_neg, abs_of_pos hpos, hp1]
          omega
        · omega
      · apply fp_round_exact
        · rw [abs_lt]
          exact ⟨h2, h1⟩
        · omega

theorem f32_round_idem (q : ℚ) : f32_round (f32_round q) = f32_round q :=
  fp_round_idem 24 (by decide) (-126) q

/-- The error of rounding a rational of magnitude at most `2 ^ j`. -/
theorem fp_round_error_le (prec : Nat) (emin : ℤ) (q : ℚ) (j : ℤ) (hq : |q| ≤ (2 : ℚ) ^ j)
    (hj : emin ≤ j) : |fp_round prec emin q - q| ≤ (2 : ℚ) ^ (j - (prec : ℤ)) := by
  have h := fp_round_error prec emin q
  by_cases hq0 : q = 0
  · subst hq0
    rw [fp_round_zero, sub_zero, abs_zero]
    exact (two_zpow_pos _).le
  · have hlog : Int.log 2 |q| < j + 1 :=
      log_two_lt q hq0 (j + 1) (lt_of_le_of_lt hq (zpow_lt_zpow_right₀ (by norm_num) (by omega)))
    have hE : max (Int.log 2 |q|) emin ≤ j := max_le (by omega) hj
    have h2 : (2 : ℚ) ^ (max (Int.log 2 |q|) emin - ((prec : ℤ) - 1)) / 2 ≤
        (2 : ℚ) ^ (j - (prec : ℤ)) := by
      have e : (2 : ℚ) ^ (max (Int.log 2 |q|) emin - ((prec : ℤ) - 1)) / 2 =
          (2 : ℚ) ^ (max (Int.log 2 |q|) emin - (prec : ℤ)) := by
        have : max (Int.log 2 |q|) emin - ((prec : ℤ) - 1) =
            max (Int.log 2 |q|) emin - (prec : ℤ) + 1 := by ring
        rw [this, zpow_add₀ (by norm_num : (2 : ℚ) ≠ 0)]
        norm_num
      rw [e]
      exact two_zpow_le _ _ (by omega)
    exact le_trans h h2

/-- The error of rounding a rational of magnitude below `2 ^ j`: half a unit of the binade
below `2 ^ j`. -/
theorem fp_round_error_lt (prec : Nat) (emin : ℤ) (q : ℚ) (j : ℤ) (hq : |q| < (2 : ℚ) ^ j)
    (hj : emin < j) : |fp_round prec emin q - q| ≤ (2 : ℚ) ^ (j - 1 - (prec : ℤ)) := by
  have h := fp_round_error prec emin q
  by_cases hq0 : q = 0
  · subst hq0
    rw [fp_round_zero, sub_zero, abs_zero]
    exact (two_zpow_pos _).le
  · have hlog : Int.log 2 |q| < j := log_two_lt q hq0 j hq
    have hE : max (Int.log 2 |q|) emin ≤ j - 1 := max_le (by omega) (by omega)
    have h2 : (2 : ℚ) ^ (max (Int.log 2 |q|) emin - ((prec : ℤ) - 1)) / 2 ≤
        (2 : ℚ) ^ (j - 1 - (prec : ℤ)) := by
      have e : (2 : ℚ) ^ (max (Int.log 2 |q|) emin - ((prec : ℤ) - 1)) / 2 =
          (2 : ℚ) ^ (max (Int.log 2 |q|) emin - (prec : ℤ)) := by
        have : max (Int.log 2 |q|) emin - ((prec : ℤ) - 1) =
            max (Int.log 2 |q|) emin - (prec : ℤ) + 1 := by ring
        rw [this, zpow_add₀ (by norm_num : (2 : ℚ) ≠ 0)]
        norm_num
      rw [e]
      exact two_zpow_le _ _ (by omega)
    exact le_trans h h2

/-- The relative error of rounding a rational in the normal range. -/
theorem fp_round_rel_error (prec : Nat) (emin : ℤ) (q : ℚ) (hq : (2 : ℚ) ^ emin ≤ |q|) :
    |fp_round prec emin q - q| ≤ |q| * (2 : ℚ) ^ (-(prec : ℤ)) := by
  have h := fp_round_error prec emin q
  have hq0 : q ≠ 0 := by
    intro h0
    rw [h0, abs_zero] at hq
    exact absurd hq (not_le.mpr (two_zpow_pos emin))
  have hlog : emin ≤ Int.log 2 |q| := le_log_two q hq0 emin hq
  have hE : max (Int.log 2 |q|) emin = Int.log 2 |q| := max_eq_left hlog
  rw [hE] at h
  have hl := (log_two_bounds q hq0).1
  have e : (2 : ℚ) ^ (Int.log 2 |q| - ((prec : ℤ) - 1)) / 2 =
      (2 : ℚ) ^ (Int.log 2 |q|) * (2 : ℚ) ^ (-(prec : ℤ)) := by
    have : Int.log 2 |q| - ((prec : ℤ) - 1) = Int.log 2 |q| + -(prec : ℤ) + 1 := by ring
    rw [this, zpow_add₀ (by norm_num : (2 : ℚ) ≠ 0), zpow_add₀ (by norm_num : (2 : ℚ) ≠ 0)]
    norm_num
  rw [e] at h
  exact le_trans h (mul_le_mul_of_nonneg_right hl (two_zpow_pos _).le)

theorem f32_round_error_lt (q : ℚ) (j : ℤ) (hq : |q| < (2 : ℚ) ^ j) (hj : -126 < j) :
    |f32_round q - q| ≤ (2 : ℚ) ^ (j - 25) := by
  have h := fp_round_error_lt 24 (-126) q j hq hj
  have e : j - 1 - ((24 : Nat) : ℤ) = j - 25 := by
    push_cast
    ring
  rw [e] at h
  exact h

theorem f32_round_error_le (q : ℚ) (j : ℤ) (hq : |q| ≤ (2 : ℚ) ^ j) (hj : -126 ≤ j) :
    |f32_round q - q| ≤ (2 : ℚ) ^ (j - 24) :=
  fp_round_error_le 24 (-126) q j hq hj

theorem f64_round_error_le (q : ℚ) (j : ℤ) (hq : |q| ≤ (2 : ℚ) ^ j) (hj : -1022 ≤ j) :
    |f64_round q - q| ≤ (2 : ℚ) ^ (j - 53) :=
  fp_round_error_le 53 (-1022) q j hq hj

theorem f32_round_rel_error (q : ℚ) (hq : (2 : ℚ) ^ (-126 : ℤ) ≤ |q|) :
    |f32_round q - q| ≤ |q| * (2 : ℚ) ^ (-24 : ℤ) :=
  fp_round_rel_error 24 (-126) q hq

theorem f64_round_mono (p q : ℚ) (h : p ≤ q) : f64_round p ≤ f64_round q :=
  fp_round_mono 53 (by decide) (-1022) p q h

theorem f64_round_intCast (m : ℤ) (hm : |m| < 2 ^ 53) : f64_round (m : ℚ) = (m : ℚ) := by
  have h := fp_round_exact 53 (-1022) m 0 hm (by norm_num)
  simpa using h

/-- A rational between `0` and `1` rounds to a `float` between `0` and `1`. -/
theorem f32_round_unit (q : ℚ) (h0 : 0 ≤ q) (h1 : q ≤ 1) :
    0 ≤ f32_round q ∧ f32_round q ≤ 1 := by
  refine ⟨f32_round_nonneg q h0, ?_⟩
  have h := f32_round_mono q 1 h1
  have e : f32_round 1 = 1 := by
    have := f32_round_intCast 1 (by norm_num)
    simpa using this
  rwa [e] at h

/-- A rational between `0` and `1` rounds to a `double` between `0` and `1`. -/
theorem f64_round_unit (q : ℚ) (h0 : 0 ≤ q) (h1 : q ≤ 1) :
    0 ≤ f64_round q ∧ f64_round q ≤ 1 := by
  have e0 : f64_round 0 = 0 := fp_round_zero 53 (-1022)
  have e1 : f64_round 1 = 1 := by
    have := f64_round_intCast 1 (by norm_num)
    simpa using this
  have ha := f64_round_mono 0 q h0
  have hb := f64_round_mono q 1 h1
  rw [e0] at ha
  rw [e1] at hb
  exact ⟨ha, hb⟩

/-! ## The functions in closed form -/

theorem read_sample_of_lt (s : driver_state) (p : sample_ptr) (i : Nat)
    (h : i < buffer_size s p) : ∃ v, read_sample s p i = some v := by
  cases p with
  | null => simp [buffer_size] at h
  | ramp => exact ⟨_, List.getElem?_eq_getElem h⟩
  | caller b => exact ⟨_, List.getElem?_eq_getElem h⟩

theorem current_position_defined (s : driver_state) (dma_counter : Nat)
    (h : active_in_bounds s) : ∃ v, current_position s dma_counter = some v := by
  unfold current_position current_index
  apply read_sample_of_lt
  obtain ⟨hpos, hle⟩ := h
  show (if u32_sub s.current_playing_length dma_counter ≥ s.current_playing_length then 0
    else u32_sub s.current_playing_length dma_counter) < _
  split_ifs with hc
  · exact hpos
  · omega

theorem current_position_irq (s : driver_state) (dma_counter : Nat) (b : Bool) :
    current_position { s with dma_it_tc := b } dma_counter = current_position s dma_counter := by
  unfold current_position read_sample
  rfl

theorem u32_div_pos (a b : Nat) (h : 0 < b) : u32_div a b = some (a / b) := by
  simp [u32_div, Nat.pos_iff_ne_zero.mp h]

theorem u32_sub_one (a : Nat) (h1 : 1 ≤ a) (h2 : a < 2 ^ 32) : u32_sub a 1 = a - 1 := by
  unfold u32_sub
  have e1 : a % 2 ^ 32 = a := Nat.mod_eq_of_lt h2
  rw [e1]
  norm_num
  omega

/-- The state `pbdrv_sound_start` returns when `data[0]` reads `e` and the ramp starts
from `v`. -/
theorem pbdrv_sound_start_eq (pdata : platform_data) (s : driver_state) (data : caller_buffer)
    (length sample_rate dma_counter e v : Nat)
    (hend : data.samples[0]? = some e)
    (hstart : (if s.sound_state = sound_state_t.SOUND_STATE_STOPPED then some 0
      else current_position s dma_counter) = some v)
    (hrate : 0 < pdata.SOUND_RAMP_SMAPLE_RATE) :
    pbdrv_sound_start pdata s data length sample_rate dma_counter =
      some { s with
        ramp_data_buffer := compute_ramp pdata.SOUND_RAMP_SMAPLE_COUNT v e s.ramp_data_buffer
        hdma_mode := dma_mode_t.DMA_NORMAL
        enable_gpio := true
        htim_period := u32_sub (pdata.tim_clock_rate / pdata.SOUND_RAMP_SMAPLE_RATE) 1
        dac_dma := some (sample_ptr.ramp, pdata.SOUND_RAMP_SMAPLE_COUNT)
        current_playing_data := sample_ptr.ramp
        current_playing_length := pdata.SOUND_RAMP_SMAPLE_COUNT
        target_sound_data := sample_ptr.caller data
        target_sample_rate := sample_rate
        target_sound_length := length
        sound_state := sound_state_t.SOUND_STATE_RAMPING_UP
        dma_it_tc := true } := by
  have hpos := current_position_irq s dma_counter false
  have hdiv := u32_div_pos pdata.tim_clock_rate pdata.SOUND_RAMP_SMAPLE_RATE hrate
  unfold pbdrv_sound_start
  simp only [hend, hpos, hdiv, Option.bind_eq_bind, Option.some_bind, bind, pure]
  by_cases hs : s.sound_state = sound_state_t.SOUND_STATE_STOPPED
  · rw [if_pos hs] at hstart
    cases hstart
    rw [if_pos hs]
  · rw [if_neg hs] at hstart
    rw [if_neg hs, hstart]
    rfl

/-- The state `pbdrv_sound_stop` returns outside the stopped state when the ramp starts
from `v`. -/
theorem pbdrv_sound_stop_eq (pdata : platform_data) (s : driver_state) (dma_counter v : Nat)
    (hs : s.sound_state ≠ sound_state_t.SOUND_STATE_STOPPED)
    (hstart : current_position s dma_counter = some v)
    (hrate : 0 < pdata.SOUND_RAMP_SMAPLE_RATE) :
    pbdrv_sound_stop pdata s dma_counter =
      some { s with
        ramp_data_buffer := compute_ramp pdata.SOUND_RAMP_SMAPLE_COUNT v 0 s.ramp_data_buffer
        hdma_mode := dma_mode_t.DMA_NORMAL
        enable_gpio := true
        htim_period := u32_sub (pdata.tim_clock_rate / pdata.SOUND_RAMP_SMAPLE_RATE) 1
        dac_dma := some (sample_ptr.ramp, pdata.SOUND_RAMP_SMAPLE_COUNT)
        current_playing_data := sample_ptr.ramp
        current_playing_length := pdata.SOUND_RAMP_SMAPLE_COUNT
        sound_state := sound_state_t.SOUND_STATE_RAMPING_DOWN
        dma_it_tc := true } := by
  have hpos := current_position_irq s dma_counter false
  have hdiv := u32_div_pos pdata.tim_clock_rate pdata.SOUND_RAMP_SMAPLE_RATE hrate
  unfold pbdrv_sound_stop
  simp only [hpos, hdiv, hstart, Option.bind_eq_bind, Option.some_bind, bind, pure]
  rw [if_neg hs]

/-- The state the completion handler returns in the ramping-up state. -/
theorem callback_ramping_up_eq (pdata : platform_data) (s : driver_state)
    (hs : s.sound_state = sound_state_t.SOUND_STATE_RAMPING_UP)
    (hrate : 0 < s.target_sample_rate) :
    HAL_DAC_ConvCpltCallbackCh1 pdata s =
      some { s with
        hdma_mode := dma_mode_t.DMA_CIRCULAR
        enable_gpio := true
        htim_period := u32_sub (pdata.tim_clock_rate / s.target_sample_rate) 1
        dac_dma := some (s.target_sound_data, s.target_sound_length)
        current_playing_data := s.target_sound_data
        current_playing_length := s.target_sound_length
        dma_it_tc := false
        sound_state := sound_state_t.SOUND_STATE_PLAYING } := by
  have hdiv := u32_div_pos pdata.tim_clock_rate s.target_sample_rate hrate
  unfold HAL_DAC_ConvCpltCallbackCh1
  simp [hs, hdiv]

/-- The state the completion handler returns in the ramping-down state. -/
theorem callback_ramping_down_eq (pdata : platform_data) (s : driver_state)
    (hs : s.sound_state = sound_state_t.SOUND_STATE_RAMPING_DOWN) :
    HAL_DAC_ConvCpltCallbackCh1 pdata s =
      some { s with
        enable_gpio := false
        dac_dma := none
        dma_it_tc := false
        sound_state := sound_state_t.SOUND_STATE_STOPPED } := by
  unfold HAL_DAC_ConvCpltCallbackCh1
  simp [hs]

/-- The completion handler leaves the stopped and the playing state as they are. -/
theorem callback_other_eq (pdata : platform_data) (s : driver_state)
    (hd : s.sound_state ≠ sound_state_t.SOUND_STATE_RAMPING_DOWN)
    (hu : s.sound_state ≠ sound_state_t.SOUND_STATE_RAMPING_UP) :
    HAL_DAC_ConvCpltCallbackCh1 pdata s = some s := by
  unfold HAL_DAC_ConvCpltCallbackCh1
  simp [hd, hu]

/-! ## The ramp in closed form -/

theorem float_to_uint16_of_nonneg (q : ℚ) (h : 0 ≤ q) :
    float_to_uint16 q = ⌊q⌋.toNat % 65536 := by
  unfold float_to_uint16
  have hn : 0 ≤ q.num := Rat.num_nonneg.mpr h
  have hd : (0 : Int) ≤ (q.den : Int) := Int.natCast_nonneg _
  rw [Int.tdiv_eq_ediv hn hd, ← Rat.floor_def]
  have hf : 0 ≤ ⌊q⌋ := Int.floor_nonneg.mpr h
  omega

theorem float_to_uint16_natCast (n : Nat) : float_to_uint16 (n : ℚ) = n % 65536 := by
  rw [float_to_uint16_of_nonneg _ (Nat.cast_nonneg n)]
  simp

theorem ramp_loop_length (step : ℚ) (n i : Nat) (value : ℚ) (buf : List Nat) :
    (ramp_loop step n i value buf).length = buf.length := by
  induction n generalizing i value buf with
  | zero => rfl
  | succ n ih => rw [ramp_loop, ih, List.length_set]

theorem ramp_value_zero (step value : ℚ) : ramp_value step value 0 = value :=
  rfl

/-- One more iteration of the loop adds `step` to `value` and rounds the sum. -/
theorem ramp_value_succ (step value : ℚ) (k : Nat) :
    ramp_value step value (k + 1) = f32_round (ramp_value step value k + step) := by
  unfold ramp_value
  rw [Function.iterate_succ_apply']

theorem ramp_value_succ_start (step value : ℚ) (k : Nat) :
    ramp_value step value (k + 1) = ramp_value step (f32_round (value + step)) k := by
  unfold ramp_value
  rw [Function.iterate_succ_apply]

theorem ramp_loop_getElem? (step : ℚ) (n i : Nat) (value : ℚ) (buf : List Nat) (j : Nat) :
    (ramp_loop step n i value buf)[j]? =
      if i ≤ j ∧ j < i + n ∧ j < buf.length then
        some (float_to_uint16 (ramp_value step value (j - i + 1)))
      else buf[j]? := by
  induction n generalizing i value buf with
  | zero =>
    have : ¬ (i ≤ j ∧ j < i + 0 ∧ j < buf.length) := by omega
    rw [ramp_loop, if_neg this]
  | succ n ih =>
    rw [ramp_loop, ih, List.length_set, List.getElem?_set]
    by_cases hij : i = j
    · subst hij
      have h1 : ¬ (i + 1 ≤ i ∧ i < i + 1 + n ∧ i < buf.length) := by omega
      rw [if_neg h1, if_pos rfl]
      by_cases hlt : i < buf.length
      · have h2 : i ≤ i ∧ i < i + (n + 1) ∧ i < buf.length := ⟨le_refl _, by omega, hlt⟩
        rw [if_pos hlt, if_pos h2, Nat.sub_self, ramp_value_succ, ramp_value_zero]
      · have h2 : ¬ (i ≤ i ∧ i < i + (n + 1) ∧ i < buf.length) := by omega
        rw [if_neg hlt, if_neg h2]
        exact (List.getElem?_eq_none (by omega)).symm
    · rw [if_neg hij]
      by_cases hc : i + 1 ≤ j ∧ j < i + 1 + n ∧ j < buf.length
      · have h2 : i ≤ j ∧ j < i + (n + 1) ∧ j < buf.length := by omega
        rw [if_pos hc, if_pos h2]
        have e : j - i + 1 = (j - (i + 1) + 1) + 1 := by omega
        rw [e, ramp_value_succ_start step value (j - (i + 1) + 1)]
      · have h2 : ¬ (i ≤ j ∧ j < i + (n + 1) ∧ j < buf.length) := by omega
        rw [if_neg hc, if_neg h2]

/-- Every cell of the array is written by the ramp computation, cell `j` with the truncation
of `value` after `j + 1` iterations of `value += step`. -/
theorem compute_ramp_getElem? (count start_position end_position : Nat) (buf : List Nat)
    (hlen : buf.length = count) (j : Nat) (hj : j < count) :
    (compute_ramp count start_position end_position buf)[j]? =
      some (float_to_uint16 (ramp_value (ramp_step count start_position end_position)
        (f32_round (start_position : ℚ)) (j + 1))) := by
  unfold compute_ramp
  have h : 0 ≤ j ∧ j < 0 + count ∧ j < buf.length := by omega
  simp only [ramp_loop_getElem?, if_pos h, Nat.sub_zero]

theorem compute_ramp_length (count start_position end_position : Nat) (buf : List Nat) :
    (compute_ramp count start_position end_position buf).length = buf.length := by
  unfold compute_ramp
  exact ramp_loop_length _ _ _ _ _

theorem float_to_uint16_le (q : ℚ) (n : Nat) (h0 : 0 ≤ q) (h : q ≤ (n : ℚ)) :
    float_to_uint16 q ≤ n := by
  rw [float_to_uint16_of_nonneg q h0]
  have h1 : ⌊q⌋ ≤ (n : Int) := by
    have : ((⌊q⌋ : Int) : ℚ) ≤ ((n : Int) : ℚ) := le_trans (Int.floor_le q) (by simpa using h)
    exact_mod_cast this
  have h2 : ⌊q⌋.toNat ≤ n := by omega
  exact le_trans (Nat.mod_le _ _) h2

theorem le_float_to_uint16 (q : ℚ) (n m : Nat) (h1 : (n : ℚ) ≤ q) (h2 : q ≤ (m : ℚ))
    (hm : m < 65536) : n ≤ float_to_uint16 q := by
  have h0 : 0 ≤ q := le_trans (Nat.cast_nonneg n) h1
  rw [float_to_uint16_of_nonneg q h0]
  have hlo : (n : Int) ≤ ⌊q⌋ := Int.le_floor.mpr (by simpa using h1)
  have hhi : ⌊q⌋ ≤ (m : Int) := by
    have : ((⌊q⌋ : Int) : ℚ) ≤ ((m : Int) : ℚ) := le_trans (Int.floor_le q) (by simpa using h2)
    exact_mod_cast this
  omega

theorem float_to_uint16_eq_floor (q : ℚ) (h0 : 0 ≤ q) (h1 : q < 65536) :
    (float_to_uint16 q : ℤ) = ⌊q⌋ := by
  rw [float_to_uint16_of_nonneg q h0]
  have hf0 : 0 ≤ ⌊q⌋ := Int.floor_nonneg.mpr h0
  have hf1 : ⌊q⌋ < 65536 := by
    have : ((⌊q⌋ : ℤ) : ℚ) < ((65536 : ℤ) : ℚ) := lt_of_le_of_lt (Int.floor_le q) (by simpa using h1)
    exact_mod_cast this
  omega

theorem float_to_uint16_mono (p q : ℚ) (h0 : 0 ≤ p) (hpq : p ≤ q) (h1 : q < 65536) :
    float_to_uint16 p ≤ float_to_uint16 q := by
  have hp := float_to_uint16_eq_floor p h0 (lt_of_le_of_lt hpq h1)
  have hq := float_to_uint16_eq_floor q (le_trans h0 hpq) h1
  have hm : ⌊p⌋ ≤ ⌊q⌋ := Int.floor_le_floor hpq
  omega

/-- The exact value `start + step * (i + 1)` of a ramp lies between its two ends. -/
theorem exact_value_bounds (count v e i : Nat) (hi : i < count) :
    (v ≤ e → (v : ℚ) ≤ (v : ℚ) + ((e : ℚ) - (v : ℚ)) / (count : ℚ) * ((i : ℚ) + 1) ∧
        (v : ℚ) + ((e : ℚ) - (v : ℚ)) / (count : ℚ) * ((i : ℚ) + 1) ≤ (e : ℚ)) ∧
    (e ≤ v → (e : ℚ) ≤ (v : ℚ) + ((e : ℚ) - (v : ℚ)) / (count : ℚ) * ((i : ℚ) + 1) ∧
        (v : ℚ) + ((e : ℚ) - (v : ℚ)) / (count : ℚ) * ((i : ℚ) + 1) ≤ (v : ℚ)) := by
  have hc0 : (0 : ℚ) < (count : ℚ) := by
    have : 0 < count := by omega
    exact_mod_cast this
  have ht0 : (0 : ℚ) ≤ ((i : ℚ) + 1) / (count : ℚ) := by positivity
  have ht1 : ((i : ℚ) + 1) / (count : ℚ) ≤ 1 := by
    rw [div_le_one hc0]
    have : i + 1 ≤ count := hi
    exact_mod_cast this
  have hrw : ((e : ℚ) - (v : ℚ)) / (count : ℚ) * ((i : ℚ) + 1) =
      ((e : ℚ) - (v : ℚ)) * (((i : ℚ) + 1) / (count : ℚ)) := by
    field_simp
  rw [hrw]
  constructor
  · intro h
    have hd : (0 : ℚ) ≤ (e : ℚ) - (v : ℚ) := by
      have : (v : ℚ) ≤ (e : ℚ) := by exact_mod_cast h
      linarith
    have h1 := mul_nonneg hd ht0
    have h2 := mul_le_of_le_one_right hd ht1
    constructor <;> linarith
  · intro h
    have hd : (0 : ℚ) ≤ (v : ℚ) - (e : ℚ) := by
      have : (e : ℚ) ≤ (v : ℚ) := by exact_mod_cast h
      linarith
    have h1 := mul_nonneg hd ht0
    have h2 := mul_le_of_le_one_right hd ht1
    constructor <;> nlinarith

theorem float_to_uint16_eq (q : ℚ) (n : Nat) (h1 : (n : ℚ) ≤ q) (h2 : q < (n : ℚ) + 1)
    (hn : n < 65536) : float_to_uint16 q = n := by
  have h0 : 0 ≤ q := le_trans (Nat.cast_nonneg n) h1
  rw [float_to_uint16_of_nonneg q h0]
  have hf : ⌊q⌋ = (n : ℤ) := by
    rw [Int.floor_eq_iff]
    exact ⟨by exact_mod_cast h1, by exact_mod_cast h2⟩
  rw [hf, Int.toNat_natCast]
  exact Nat.mod_eq_of_lt hn

/-! ## The ramp: sign of the step, direction of the values -/

theorem one_le_f32_round_natCast (count : Nat) (h : 0 < count) :
    1 ≤ f32_round (count : ℚ) := by
  have h1 : f32_round ((1 : Nat) : ℚ) = ((1 : Nat) : ℚ) := f32_round_natCast 1 (by norm_num)
  have h2 := f32_round_mono ((1 : Nat) : ℚ) (count : ℚ) (by exact_mod_cast h)
  rw [h1] at h2
  simpa using h2

theorem ramp_step_nonneg (count start_position end_position : Nat)
    (h : start_position ≤ end_position) : 0 ≤ ramp_step count start_position end_position := by
  unfold ramp_step
  apply f32_round_nonneg
  apply div_nonneg
  · apply f32_round_nonneg
    have := f32_round_mono (start_position : ℚ) (end_position : ℚ) (by exact_mod_cast h)
    linarith
  · exact f32_round_nonneg _ (Nat.cast_nonneg count)

theorem ramp_step_nonpos (count start_position end_position : Nat)
    (h : end_position ≤ start_position) : ramp_step count start_position end_position ≤ 0 := by
  unfold ramp_step
  apply f32_round_nonpos
  apply div_nonpos_of_nonpos_of_nonneg
  · apply f32_round_nonpos
    have := f32_round_mono (end_position : ℚ) (start_position : ℚ) (by exact_mod_cast h)
    linarith
  · exact f32_round_nonneg _ (Nat.cast_nonneg count)

/-- The difference of two samples is computed without rounding. -/
theorem f32_round_sample_sub (s e : Nat) (hs : s < 2 ^ 24) (he : e < 2 ^ 24) :
    f32_round (f32_round (e : ℚ) - f32_round (s : ℚ)) = (e : ℚ) - (s : ℚ) := by
  rw [f32_round_natCast e he, f32_round_natCast s hs]
  have h := f32_round_intCast ((e : ℤ) - (s : ℤ)) (by rw [abs_lt]; constructor <;> omega)
  push_cast at h
  exact h

/-- The step does not exceed the whole difference, for a count of at least `1`. -/
theorem ramp_step_le (count s e : Nat) (hcount : 0 < count) (hs : s < 2 ^ 24)
    (he : e < 2 ^ 24) (h : s ≤ e) : ramp_step count s e ≤ (e : ℚ) - (s : ℚ) := by
  have hd := f32_round_sample_sub s e hs he
  have hc := one_le_f32_round_natCast count hcount
  have hnn : (0 : ℚ) ≤ (e : ℚ) - (s : ℚ) := by
    have : (s : ℚ) ≤ (e : ℚ) := by exact_mod_cast h
    linarith
  unfold ramp_step
  rw [hd]
  have h1 : ((e : ℚ) - (s : ℚ)) / f32_round (count : ℚ) ≤ (e : ℚ) - (s : ℚ) :=
    div_le_self hnn hc
  have h2 := f32_round_mono _ _ h1
  have h3 : f32_round ((e : ℚ) - (s : ℚ)) = (e : ℚ) - (s : ℚ) := by
    rw [← hd, f32_round_idem]
  rw [h3] at h2
  exact h2

theorem le_ramp_step (count s e : Nat) (hcount : 0 < count) (hs : s < 2 ^ 24)
    (he : e < 2 ^ 24) (h : e ≤ s) : (e : ℚ) - (s : ℚ) ≤ ramp_step count s e := by
  have hd := f32_round_sample_sub s e hs he
  have hc := one_le_f32_round_natCast count hcount
  have hnn : (0 : ℚ) ≤ (s : ℚ) - (e : ℚ) := by
    have : (e : ℚ) ≤ (s : ℚ) := by exact_mod_cast h
    linarith
  unfold ramp_step
  rw [hd]
  have h1 : (e : ℚ) - (s : ℚ) ≤ ((e : ℚ) - (s : ℚ)) / f32_round (count : ℚ) := by
    have h0 : ((s : ℚ) - (e : ℚ)) / f32_round (count : ℚ) ≤ (s : ℚ) - (e : ℚ) :=
      div_le_self hnn hc
    have e1 : ((e : ℚ) - (s : ℚ)) / f32_round (count : ℚ) =
        -(((s : ℚ) - (e : ℚ)) / f32_round (count : ℚ)) := by
      rw [← neg_div]
      congr 1
      ring
    rw [e1]
    linarith
  have h2 := f32_round_mono _ _ h1
  have h3 : f32_round ((e : ℚ) - (s : ℚ)) = (e : ℚ) - (s : ℚ) := by
    rw [← hd, f32_round_idem]
  rw [h3] at h2
  exact h2

/-- The variable `value` of the loop holds a `float` at every iteration. -/
theorem ramp_value_is_float (step v : ℚ) (k : Nat) :
    f32_round (ramp_value step (f32_round v) k) = ramp_value step (f32_round v) k := by
  cases k with
  | zero => rw [ramp_value_zero, f32_round_idem]
  | succ k => rw [ramp_value_succ, f32_round_idem]

/-- With a step that is not negative the values of the loop do not decrease. -/
theorem ramp_value_le_succ (step v : ℚ) (hstep : 0 ≤ step) (k : Nat) :
    ramp_value step (f32_round v) k ≤ ramp_value step (f32_round v) (k + 1) := by
  rw [ramp_value_succ]
  have h := f32_round_mono (ramp_value step (f32_round v) k)
    (ramp_value step (f32_round v) k + step) (by linarith)
  rwa [ramp_value_is_float] at h

/-- With a step that is not positive the values of the loop do not increase. -/
theorem ramp_value_succ_le (step v : ℚ) (hstep : step ≤ 0) (k : Nat) :
    ramp_value step (f32_round v) (k + 1) ≤ ramp_value step (f32_round v) k := by
  rw [ramp_value_succ]
  have h := f32_round_mono (ramp_value step (f32_round v) k + step)
    (ramp_value step (f32_round v) k) (by linarith)
  rwa [ramp_value_is_float] at h

theorem ramp_value_ge_start (step v : ℚ) (hstep : 0 ≤ step) (k : Nat) :
    f32_round v ≤ ramp_value step (f32_round v) k := by
  induction k with
  | zero => rw [ramp_value_zero]
  | succ k ih => exact le_trans ih (ramp_value_le_succ step v hstep k)

theorem ramp_value_le_start (step v : ℚ) (hstep : step ≤ 0) (k : Nat) :
    ramp_value step (f32_round v) k ≤ f32_round v := by
  induction k with
  | zero => rw [ramp_value_zero]
  | succ k ih => exact le_trans (ramp_value_succ_le step v hstep k) ih

theorem ramp_value_mono_of_nonneg (step v : ℚ) (hstep : 0 ≤ step) (i j : Nat) (hij : i ≤ j) :
    ramp_value step (f32_round v) i ≤ ramp_value step (f32_round v) j := by
  induction j with
  | zero =>
    have : i = 0 := by omega
    rw [this]
  | succ j ih =>
    rcases Nat.eq_or_lt_of_le hij with h | h
    · rw [h]
    · exact le_trans (ih (by omega)) (ramp_value_le_succ step v hstep j)

theorem ramp_value_anti_of_nonpos (step v : ℚ) (hstep : step ≤ 0) (i j : Nat) (hij : i ≤ j) :
    ramp_value step (f32_round v) j ≤ ramp_value step (f32_round v) i := by
  induction j with
  | zero =>
    have : i = 0 := by omega
    rw [this]
  | succ j ih =>
    rcases Nat.eq_or_lt_of_le hij with h | h
    · rw [h]
    · exact le_trans (ramp_value_succ_le step v hstep j) (ih (by omega))

/-! ## The ramp for a count that is a power of two up to 256: no operation rounds -/

theorem ramp_step_exact (k s e : Nat) (hk : k ≤ 8) (hs : s < 65536) (he : e < 65536) :
    ramp_step (2 ^ k) s e = ((e : ℚ) - (s : ℚ)) / ((2 ^ k : Nat) : ℚ) := by
  have hpow : (2 : Nat) ^ k ≤ 2 ^ 8 := Nat.pow_le_pow_right (by norm_num) hk
  unfold ramp_step
  rw [f32_round_sample_sub s e (by omega) (by omega),
    f32_round_natCast (2 ^ k) (by omega)]
  have h := f32_round_exact ((e : ℤ) - (s : ℤ)) (-(k : ℤ))
    (by rw [abs_lt]; constructor <;> omega) (by omega)
  have e1 : ((e : ℚ) - (s : ℚ)) / ((2 ^ k : Nat) : ℚ) =
      (((e : ℤ) - (s : ℤ) : ℤ) : ℚ) * 2 ^ (-(k : ℤ)) := by
    rw [zpow_neg, zpow_natCast]
    push_cast
    rw [div_eq_mul_inv]
  rw [e1]
  exact h

theorem ramp_value_exact (k s e j : Nat) (hk : k ≤ 8) (hs : s < 65536) (he : e < 65536)
    (hj : j ≤ 2 ^ k) :
    ramp_value (((e : ℚ) - (s : ℚ)) / ((2 ^ k : Nat) : ℚ)) (f32_round (s : ℚ)) j =
      (s : ℚ) + ((e : ℚ) - (s : ℚ)) / ((2 ^ k : Nat) : ℚ) * (j : ℚ) := by
  have hpow : (2 : Nat) ^ k ≤ 2 ^ 8 := Nat.pow_le_pow_right (by norm_num) hk
  induction j with
  | zero =>
    rw [ramp_value_zero, f32_round_natCast s (by omega)]
    simp
  | succ j ih =>
    rw [ramp_value_succ, ih (by omega)]
    have hb := exact_value_bounds (2 ^ k) s e j (by omega)
    have hcpos : (0 : ℚ) < ((2 ^ k : Nat) : ℚ) := by
      have : 0 < 2 ^ k := by positivity
      exact_mod_cast this
    have hval : (s : ℚ) + ((e : ℚ) - (s : ℚ)) / ((2 ^ k : Nat) : ℚ) * (j : ℚ) +
        ((e : ℚ) - (s : ℚ)) / ((2 ^ k : Nat) : ℚ) =
        (s : ℚ) + ((e : ℚ) - (s : ℚ)) / ((2 ^ k : Nat) : ℚ) * ((j : ℚ) + 1) := by ring
    have hm : (s : ℚ) + ((e : ℚ) - (s : ℚ)) / ((2 ^ k : Nat) : ℚ) * ((j : ℚ) + 1) =
        (((s : ℤ) * 2 ^ k + ((e : ℤ) - (s : ℤ)) * ((j : ℤ) + 1) : ℤ) : ℚ) * 2 ^ (-(k : ℤ)) := by
      rw [zpow_neg, zpow_natCast]
      push_cast
      field_simp
    have hrange : (0 : ℚ) ≤ (s : ℚ) + ((e : ℚ) - (s : ℚ)) / ((2 ^ k : Nat) : ℚ) *
          ((j : ℚ) + 1) ∧
        (s : ℚ) + ((e : ℚ) - (s : ℚ)) / ((2 ^ k : Nat) : ℚ) * ((j : ℚ) + 1) ≤ 65535 := by
      have hs' : (s : ℚ) ≤ 65535 := by exact_mod_cast (by omega : s ≤ 65535)
      have he' : (e : ℚ) ≤ 65535 := by exact_mod_cast (by omega : e ≤ 65535)
      have hs0 : (0 : ℚ) ≤ (s : ℚ) := Nat.cast_nonneg s
      have he0 : (0 : ℚ) ≤ (e : ℚ) := Nat.cast_nonneg e
      rcases Nat.le_total s e with h | h
      · obtain ⟨h1, h2⟩ := hb.1 h
        constructor <;> linarith
      · obtain ⟨h1, h2⟩ := hb.2 h
        constructor <;> linarith
    have hmrange : |(s : ℤ) * 2 ^ k + ((e : ℤ) - (s : ℤ)) * ((j : ℤ) + 1)| < 2 ^ 24 := by
      rw [hm] at hrange
      have hk2 : (2 : ℚ) ^ (-(k : ℤ)) = 1 / ((2 ^ k : Nat) : ℚ) := by
        rw [zpow_neg, zpow_natCast]
        push_cast
        rw [one_div]
      rw [hk2, mul_one_div, le_div_iff₀ hcpos, div_le_iff₀ hcpos] at hrange
      have h0 : (0 : ℤ) ≤ (s : ℤ) * 2 ^ k + ((e : ℤ) - (s : ℤ)) * ((j : ℤ) + 1) := by
        have := hrange.1
        rw [zero_mul] at this
        exact_mod_cast this
      have h1 : (s : ℤ) * 2 ^ k + ((e : ℤ) - (s : ℤ)) * ((j : ℤ) + 1) ≤
          65535 * ((2 ^ k : Nat) : ℤ) := by
        have := hrange.2
        exact_mod_cast this
      have hp : ((2 ^ k : Nat) : ℤ) ≤ 256 := by exact_mod_cast hpow
      rw [abs_of_nonneg h0]
      omega
    have hcast : ((j + 1 : Nat) : ℚ) = (j : ℚ) + 1 := by push_cast; rfl
    rw [hcast, hval, hm]
    exact f32_round_exact _ (-(k : ℤ)) hmrange (by omega)

/-- For a count that is a power of two up to 256 and 16-bit samples, cell `j` of the computed
ramp is the truncation of the exact `start + step * (j + 1)` with `step = (end - start) /
count`. -/
theorem compute_ramp_exact_getElem? (k count v e : Nat) (buf : List Nat)
    (hcount : count = 2 ^ k) (hk : k ≤ 8) (hv : v < 65536) (he : e < 65536)
    (hlen : buf.length = count) (j : Nat) (hj : j < count) :
    (compute_ramp count v e buf)[j]? =
      some (float_to_uint16 ((v : ℚ) + ((e : ℚ) - (v : ℚ)) / (count : ℚ) * ((j : ℚ) + 1))) := by
  rw [compute_ramp_getElem? count v e buf hlen j hj]
  subst hcount
  rw [ramp_step_exact k v e hk hv he, ramp_value_exact k v e (j + 1) hk hv he (by omega)]
  push_cast
  rfl

/-! ## The conversion to `uint16_t` between `-1` and `65536` -/

theorem float_to_uint16_of_neg (q : ℚ) (h0 : -1 < q) (h1 : q < 0) : float_to_uint16 q = 0 := by
  unfold float_to_uint16
  have hn : q.num < 0 := Rat.num_neg.mpr h1
  have hd : (0 : ℤ) < (q.den : ℤ) := by exact_mod_cast q.den_pos
  have hlt : -q.num < (q.den : ℤ) := by
    have h2 : -(q.den : ℚ) < (q.num : ℚ) := by
      have h3 : (-1 : ℚ) < (q.num : ℚ) / (q.den : ℚ) := by rwa [Rat.num_div_den]
      have hd' : (0 : ℚ) < (q.den : ℚ) := by exact_mod_cast q.den_pos
      rw [lt_div_iff₀ hd'] at h3
      linarith
    have h4 : (-(q.den : ℤ) : ℤ) < q.num := by exact_mod_cast h2
    omega
  have ht : Int.tdiv q.num (q.den : ℤ) = 0 := by
    have e : q.num = -(-q.num) := by ring
    rw [e, Int.neg_tdiv, Int.tdiv_eq_zero_of_lt (by omega) hlt]
    rfl
  rw [ht]
  rfl

/-- A value above `n - 1` and below `65536` is stored as at least `n - 1`. -/
theorem pred_le_float_to_uint16 (q : ℚ) (n : Nat) (h : (n : ℚ) - 1 < q) (h1 : q < 65536) :
    n - 1 ≤ float_to_uint16 q := by
  rcases lt_or_le q 0 with hq | hq
  · have hn : (n : ℚ) < 1 := by linarith
    have hn0 : n < 1 := by exact_mod_cast hn
    omega
  · have hf := float_to_uint16_eq_floor q hq h1
    have hfl : (n : ℤ) - 1 ≤ ⌊q⌋ := by
      apply Int.le_floor.mpr
      push_cast
      exact h.le
    omega

/-- A value above `-1` and below `n + 1` is stored as at most `n`. -/
theorem float_to_uint16_le_of_lt (q : ℚ) (n : Nat) (h0 : -1 < q) (h : q < (n : ℚ) + 1) :
    float_to_uint16 q ≤ n := by
  rcases lt_or_le q 0 with hq | hq
  · rw [float_to_uint16_of_neg q h0 hq]
    exact Nat.zero_le n
  · rw [float_to_uint16_of_nonneg q hq]
    have hfl : ⌊q⌋ < (n : ℤ) + 1 := by
      apply Int.floor_lt.mpr
      push_cast
      exact h
    have hf0 : 0 ≤ ⌊q⌋ := Int.floor_nonneg.mpr hq
    have h2 : ⌊q⌋.toNat ≤ n := by omega
    exact le_trans (Nat.mod_le _ _) h2

/-- The conversion is monotone between `-1` and `65536`. -/
theorem float_to_uint16_mono_of_gt (p q : ℚ) (h0 : -1 < p) (hpq : p ≤ q) (h1 : q < 65536) :
    float_to_uint16 p ≤ float_to_uint16 q := by
  rcases lt_or_le p 0 with hp | hp
  · rw [float_to_uint16_of_neg p h0 hp]
    exact Nat.zero_le _
  · exact float_to_uint16_mono p q hp hpq h1

/-! ## The rounding error of the ramp, for a count up to 256 and 16-bit samples -/

/-- The step differs from the exact quotient by at most `2 ^ (-8) / count`. -/
theorem ramp_step_error (count v e : Nat) (hcount : 0 < count) (hN : count ≤ 256)
    (hv : v < 65536) (he : e < 65536) :
    |ramp_step count v e - ((e : ℚ) - (v : ℚ)) / (count : ℚ)| ≤ 1 / 256 / (count : ℚ) := by
  have hc0 : (0 : ℚ) < (count : ℚ) := by exact_mod_cast hcount
  have hc1 : (count : ℚ) ≤ 256 := by exact_mod_cast hN
  unfold ramp_step
  rw [f32_round_sample_sub v e (by omega) (by omega), f32_round_natCast count (by omega)]
  by_cases hd : (e : ℚ) - (v : ℚ) = 0
  · rw [hd, zero_div, f32_round_zero, sub_zero, abs_zero]
    positivity
  · have hdabs : (1 : ℚ) ≤ |(e : ℚ) - (v : ℚ)| := by
      have h1 : ((e : ℤ) - (v : ℤ) : ℤ) ≠ 0 := by
        intro h0
        apply hd
        have : (((e : ℤ) - (v : ℤ) : ℤ) : ℚ) = 0 := by rw [h0]; rfl
        push_cast at this
        exact this
      have h2 : (1 : ℤ) ≤ |(e : ℤ) - (v : ℤ)| := Int.one_le_abs h1
      have h3 : ((1 : ℤ) : ℚ) ≤ ((|(e : ℤ) - (v : ℤ)| : ℤ) : ℚ) := by exact_mod_cast h2
      push_cast at h3
      exact h3
    have hdle : |(e : ℚ) - (v : ℚ)| ≤ 65536 := by
      have hv' : (v : ℚ) ≤ 65536 := by exact_mod_cast hv.le
      have he' : (e : ℚ) ≤ 65536 := by exact_mod_cast he.le
      have hv0 : (0 : ℚ) ≤ (v : ℚ) := Nat.cast_nonneg v
      have he0 : (0 : ℚ) ≤ (e : ℚ) := Nat.cast_nonneg e
      rw [abs_le]
      constructor <;> linarith
    have hq : |((e : ℚ) - (v : ℚ)) / (count : ℚ)| = |(e : ℚ) - (v : ℚ)| / (count : ℚ) := by
      rw [abs_div, abs_of_pos hc0]
    have hnormal : (2 : ℚ) ^ (-126 : ℤ) ≤ |((e : ℚ) - (v : ℚ)) / (count : ℚ)| := by
      rw [hq]
      have h1 : (1 : ℚ) / 256 ≤ |(e : ℚ) - (v : ℚ)| / (count : ℚ) := by
        rw [div_le_div_iff₀ (by norm_num) hc0]
        nlinarith
      have h2 : (2 : ℚ) ^ (-126 : ℤ) ≤ 1 / 256 := by
        have : (1 : ℚ) / 256 = 2 ^ (-8 : ℤ) := by norm_num
        rw [this]
        exact two_zpow_le _ _ (by norm_num)
      exact le_trans h2 h1
    have h := f32_round_rel_error _ hnormal
    rw [hq] at h
    have e24 : (2 : ℚ) ^ (-24 : ℤ) = 1 / 16777216 := by norm_num
    rw [e24] at h
    refine le_trans h ?_
    rw [div_mul_eq_mul_div, div_le_div_iff₀ hc0 hc0]
    nlinarith

/-- After `k` of the `count` iterations the variable `value` differs from the exact
`start + step * k` by at most `k * (1 / 512 + 1 / 256 / count)`. -/
theorem ramp_value_error (count v e : Nat) (hcount : 0 < count) (hN : count ≤ 256)
    (hv : v < 65536) (he : e < 65536) (k : Nat) (hk : k ≤ count) :
    |ramp_value (ramp_step count v e) (f32_round (v : ℚ)) k -
        ((v : ℚ) + ((e : ℚ) - (v : ℚ)) / (count : ℚ) * (k : ℚ))| ≤
      (k : ℚ) * (1 / 512 + 1 / 256 / (count : ℚ)) := by
  have hc0 : (0 : ℚ) < (count : ℚ) := by exact_mod_cast hcount
  have hc1 : (count : ℚ) ≤ 256 := by exact_mod_cast hN
  have hcpos : (0 : ℚ) < 1 / 512 + 1 / 256 / (count : ℚ) := by positivity
  induction k with
  | zero =>
    rw [ramp_value_zero, f32_round_natCast v (by omega)]
    simp
  | succ k ih =>
    have ih := ih (by omega)
    have hstep := ramp_step_error count v e hcount hN hv he
    rw [ramp_value_succ]
    have hkc : ((k : ℚ) + 1) ≤ (count : ℚ) := by exact_mod_cast hk
    have hk0 : (0 : ℚ) ≤ (k : ℚ) := Nat.cast_nonneg k
    have hb := exact_value_bounds count v e k (by omega)
    have hexact : (0 : ℚ) ≤ (v : ℚ) + ((e : ℚ) - (v : ℚ)) / (count : ℚ) * ((k : ℚ) + 1) ∧
        (v : ℚ) + ((e : ℚ) - (v : ℚ)) / (count : ℚ) * ((k : ℚ) + 1) ≤ 65535 := by
      have hs' : (v : ℚ) ≤ 65535 := by exact_mod_cast (by omega : v ≤ 65535)
      have he' : (e : ℚ) ≤ 65535 := by exact_mod_cast (by omega : e ≤ 65535)
      have hs0 : (0 : ℚ) ≤ (v : ℚ) := Nat.cast_nonneg v
      have he0 : (0 : ℚ) ≤ (e : ℚ) := Nat.cast_nonneg e
      rcases Nat.le_total v e with h | h
      · obtain ⟨h1, h2⟩ := hb.1 h
        constructor <;> linarith
      · obtain ⟨h1, h2⟩ := hb.2 h
        constructor <;> linarith
    -- the sum before rounding
    have hsum : |ramp_value (ramp_step count v e) (f32_round (v : ℚ)) k + ramp_step count v e -
        ((v : ℚ) + ((e : ℚ) - (v : ℚ)) / (count : ℚ) * ((k : ℚ) + 1))| ≤
        (k : ℚ) * (1 / 512 + 1 / 256 / (count : ℚ)) + 1 / 256 / (count : ℚ) := by
      have e1 : ramp_value (ramp_step count v e) (f32_round (v : ℚ)) k + ramp_step count v e -
          ((v : ℚ) + ((e : ℚ) - (v : ℚ)) / (count : ℚ) * ((k : ℚ) + 1)) =
          (ramp_value (ramp_step count v e) (f32_round (v : ℚ)) k -
            ((v : ℚ) + ((e : ℚ) - (v : ℚ)) / (count : ℚ) * (k : ℚ))) +
          (ramp_step count v e - ((e : ℚ) - (v : ℚ)) / (count : ℚ)) := by ring
      rw [e1]
      exact le_trans (abs_add _ _) (add_le_add ih hstep)
    have hbudget : (k : ℚ) * (1 / 512 + 1 / 256 / (count : ℚ)) + 1 / 256 / (count : ℚ) ≤
        1 / 2 + 1 / 256 := by
      have h1 : (k : ℚ) * (1 / 512) ≤ 1 / 2 := by nlinarith
      have h2 : (k : ℚ) * (1 / 256 / (count : ℚ)) + 1 / 256 / (count : ℚ) ≤ 1 / 256 := by
        have e2 : (k : ℚ) * (1 / 256 / (count : ℚ)) + 1 / 256 / (count : ℚ) =
            1 / 256 * (((k : ℚ) + 1) / (count : ℚ)) := by
          field_simp
        rw [e2]
        have h3 : ((k : ℚ) + 1) / (count : ℚ) ≤ 1 := (div_le_one hc0).mpr hkc
        nlinarith
      linarith
    have hmag : |ramp_value (ramp_step count v e) (f32_round (v : ℚ)) k +
        ramp_step count v e| < (2 : ℚ) ^ (16 : ℤ) := by
      have h1 := abs_le.mp (le_trans hsum hbudget)
      have e16 : (2 : ℚ) ^ (16 : ℤ) = 65536 := by norm_num
      rw [e16, abs_lt]
      constructor <;> linarith [h1.1, h1.2, hexact.1, hexact.2]
    have hround := f32_round_error_lt _ 16 hmag (by norm_num)
    have e9 : (2 : ℚ) ^ ((16 : ℤ) - 25) = 1 / 512 := by norm_num
    rw [e9] at hround
    have hcast : ((k + 1 : Nat) : ℚ) = (k : ℚ) + 1 := by push_cast; rfl
    rw [hcast]
    have e3 : f32_round (ramp_value (ramp_step count v e) (f32_round (v : ℚ)) k +
          ramp_step count v e) -
        ((v : ℚ) + ((e : ℚ) - (v : ℚ)) / (count : ℚ) * ((k : ℚ) + 1)) =
        (f32_round (ramp_value (ramp_step count v e) (f32_round (v : ℚ)) k +
          ramp_step count v e) -
          (ramp_value (ramp_step count v e) (f32_round (v : ℚ)) k + ramp_step count v e)) +
        (ramp_value (ramp_step count v e) (f32_round (v : ℚ)) k + ramp_step count v e -
          ((v : ℚ) + ((e : ℚ) - (v : ℚ)) / (count : ℚ) * ((k : ℚ) + 1))) := by ring
    rw [e3]
    refine le_trans (abs_add _ _) ?_
    have := add_le_add hround hsum
    refine le_trans this ?_
    apply le_of_eq
    ring

/-- For a count up to 256 the variable `value` stays within `1 / 2 + 1 / 256` of the exact
`start + step * k`. -/
theorem ramp_value_near (count v e : Nat) (hcount : 0 < count) (hN : count ≤ 256)
    (hv : v < 65536) (he : e < 65536) (k : Nat) (hk : k ≤ count) :
    |ramp_value (ramp_step count v e) (f32_round (v : ℚ)) k -
        ((v : ℚ) + ((e : ℚ) - (v : ℚ)) / (count : ℚ) * (k : ℚ))| ≤ 1 / 2 + 1 / 256 := by
  have hc0 : (0 : ℚ) < (count : ℚ) := by exact_mod_cast hcount
  have hc1 : (count : ℚ) ≤ 256 := by exact_mod_cast hN
  have hkc : (k : ℚ) ≤ (count : ℚ) := by exact_mod_cast hk
  have hk0 : (0 : ℚ) ≤ (k : ℚ) := Nat.cast_nonneg k
  refine le_trans (ramp_value_error count v e hcount hN hv he k hk) ?_
  have h1 : (k : ℚ) * (1 / 512) ≤ 1 / 2 := by nlinarith
  have h2 : (k : ℚ) * (1 / 256 / (count : ℚ)) ≤ 1 / 256 := by
    have e2 : (k : ℚ) * (1 / 256 / (count : ℚ)) = 1 / 256 * ((k : ℚ) / (count : ℚ)) := by
      field_simp
    rw [e2]
    have h3 : (k : ℚ) / (count : ℚ) ≤ 1 := (div_le_one hc0).mpr hkc
    nlinarith
  linarith

/-! ## The cells of a computed ramp -/

/-- Two values less than `1` apart, both in the range the conversion does not wrap on, are
stored as integers at most `1` apart. -/
theorem float_to_uint16_near (p q : ℚ) (hp : -1 < p) (hp2 : p < 65536) (hq : 0 ≤ q)
    (hq2 : q < 65536) (h : |p - q| < 1) :
    float_to_uint16 p ≤ float_to_uint16 q + 1 ∧ float_to_uint16 q ≤ float_to_uint16 p + 1 := by
  have hq' := float_to_uint16_eq_floor q hq hq2
  have habs := abs_lt.mp h
  have hfq1 : ((⌊q⌋ : ℤ) : ℚ) ≤ q := Int.floor_le q
  have hfq2 : q < ((⌊q⌋ : ℤ) : ℚ) + 1 := Int.lt_floor_add_one q
  rcases lt_or_le p 0 with hneg | hpos
  · rw [float_to_uint16_of_neg p hp hneg]
    have hq1 : q < 1 := by linarith [habs.1]
    have hfl : ⌊q⌋ < 1 := by
      have : ((⌊q⌋ : ℤ) : ℚ) < ((1 : ℤ) : ℚ) := by
        push_cast
        linarith
      exact_mod_cast this
    constructor <;> omega
  · have hp' := float_to_uint16_eq_floor p hpos hp2
    have hfp1 : ((⌊p⌋ : ℤ) : ℚ) ≤ p := Int.floor_le p
    have hfp2 : p < ((⌊p⌋ : ℤ) : ℚ) + 1 := Int.lt_floor_add_one p
    have h1 : ⌊p⌋ < ⌊q⌋ + 2 := by
      have : ((⌊p⌋ : ℤ) : ℚ) < ((⌊q⌋ + 2 : ℤ) : ℚ) := by
        push_cast
        linarith [habs.2]
      exact_mod_cast this
    have h2 : ⌊q⌋ < ⌊p⌋ + 2 := by
      have : ((⌊q⌋ : ℤ) : ℚ) < ((⌊p⌋ + 2 : ℤ) : ℚ) := by
        push_cast
        linarith [habs.1]
      exact_mod_cast this
    constructor <;> omega

theorem le_float_to_uint16_of_lt (q : ℚ) (n : Nat) (h1 : (n : ℚ) ≤ q) (h2 : q < 65536) :
    n ≤ float_to_uint16 q := by
  have h0 : 0 ≤ q := le_trans (Nat.cast_nonneg n) h1
  have hf := float_to_uint16_eq_floor q h0 h2
  have hlo : (n : ℤ) ≤ ⌊q⌋ := Int.le_floor.mpr (by simpa using h1)
  omega

/-- The exact value `start + step * k` of a ramp between 16-bit samples is between `0` and
`65535` for every `k` up to the count. -/
theorem exact_value_range (count v e k : Nat) (hv : v < 65536) (he : e < 65536)
    (hk : k ≤ count) :
    (0 : ℚ) ≤ (v : ℚ) + ((e : ℚ) - (v : ℚ)) / (count : ℚ) * (k : ℚ) ∧
      (v : ℚ) + ((e : ℚ) - (v : ℚ)) / (count : ℚ) * (k : ℚ) ≤ 65535 := by
  have hs' : (v : ℚ) ≤ 65535 := by exact_mod_cast (by omega : v ≤ 65535)
  have he' : (e : ℚ) ≤ 65535 := by exact_mod_cast (by omega : e ≤ 65535)
  have hs0 : (0 : ℚ) ≤ (v : ℚ) := Nat.cast_nonneg v
  have he0 : (0 : ℚ) ≤ (e : ℚ) := Nat.cast_nonneg e
  cases k with
  | zero =>
    simp only [Nat.cast_zero, mul_zero, add_zero]
    exact ⟨hs0, hs'⟩
  | succ k =>
    have hb := exact_value_bounds count v e k (by omega)
    have hcast : ((k + 1 : Nat) : ℚ) = (k : ℚ) + 1 := by push_cast; rfl
    rw [hcast]
    rcases Nat.le_total v e with h | h
    · obtain ⟨h1, h2⟩ := hb.1 h
      constructor <;> linarith
    · obtain ⟨h1, h2⟩ := hb.2 h
      constructor <;> linarith

/-- For a count up to 256 and 16-bit samples every value the loop converts is above `-1` and
below `65536`: the conversion to `uint16_t` does not wrap. -/
theorem ramp_value_range (count v e : Nat) (hcount : 0 < count) (hN : count ≤ 256)
    (hv : v < 65536) (he : e < 65536) (k : Nat) (hk : k ≤ count) :
    -1 < ramp_value (ramp_step count v e) (f32_round (v : ℚ)) k ∧
      ramp_value (ramp_step count v e) (f32_round (v : ℚ)) k < 65536 := by
  have h1 := abs_le.mp (ramp_value_near count v e hcount hN hv he k hk)
  have h2 := exact_value_range count v e k hv he hk
  constructor <;> linarith [h1.1, h1.2, h2.1, h2.2]

/-- The first cell of a computed ramp lies on the side of the start toward the end. -/
theorem compute_ramp_first (count v e : Nat) (buf : List Nat) (hcount : 0 < count)
    (hv : v < 65536) (he : e < 65536) (hlen : buf.length = count) :
    ∃ first, (compute_ramp count v e buf)[0]? = some first ∧
      (v ≤ e → v ≤ first) ∧ (e ≤ v → first ≤ v) := by
  refine ⟨_, compute_ramp_getElem? count v e buf hlen 0 hcount, ?_, ?_⟩
  · intro h
    have hstep0 := ramp_step_nonneg count v e h
    have hstep1 := ramp_step_le count v e hcount (by omega) (by omega) h
    rw [ramp_value_succ, ramp_value_zero, f32_round_natCast v (by omega)]
    have ha := f32_round_mono (v : ℚ) ((v : ℚ) + ramp_step count v e) (by linarith)
    have hb := f32_round_mono ((v : ℚ) + ramp_step count v e) (e : ℚ) (by linarith)
    rw [f32_round_natCast v (by omega)] at ha
    rw [f32_round_natCast e (by omega)] at hb
    exact le_float_to_uint16 _ v e ha hb he
  · intro h
    have hstep0 := ramp_step_nonpos count v e h
    have hstep1 := le_ramp_step count v e hcount (by omega) (by omega) h
    rw [ramp_value_succ, ramp_value_zero, f32_round_natCast v (by omega)]
    have ha := f32_round_mono ((v : ℚ) + ramp_step count v e) (v : ℚ) (by linarith)
    have hb := f32_round_mono (e : ℚ) ((v : ℚ) + ramp_step count v e) (by linarith)
    rw [f32_round_natCast v (by omega)] at ha
    rw [f32_round_natCast e (by omega)] at hb
    exact float_to_uint16_le _ v (le_trans (Nat.cast_nonneg e) hb) ha

/-- For a count up to 256 and 16-bit samples: a cell of an ascending ramp lies between the
start and the end; a cell of a descending ramp is at most the start and at least the end less
one. -/
theorem compute_ramp_cell_range (count v e : Nat) (buf : List Nat) (hcount : 0 < count)
    (hN : count ≤ 256) (hv : v < 65536) (he : e < 65536) (hlen : buf.length = count)
    (j : Nat) (hj : j < count) :
    ∃ x, (compute_ramp count v e buf)[j]? = some x ∧
      (v ≤ e → v ≤ x ∧ x ≤ e) ∧ (e ≤ v → e - 1 ≤ x ∧ x ≤ v) := by
  refine ⟨_, compute_ramp_getElem? count v e buf hlen j hj, ?_, ?_⟩
  · intro h
    have hnear := abs_le.mp (ramp_value_near count v e hcount hN hv he (j + 1) (by omega))
    have hrange := ramp_value_range count v e hcount hN hv he (j + 1) (by omega)
    have hge := ramp_value_ge_start (ramp_step count v e) (v : ℚ)
      (ramp_step_nonneg count v e h) (j + 1)
    rw [f32_round_natCast v (by omega)] at hge hnear hrange ⊢
    have hb := (exact_value_bounds count v e j hj).1 h
    have hcast : ((j + 1 : Nat) : ℚ) = (j : ℚ) + 1 := by push_cast; rfl
    rw [hcast] at hnear
    constructor
    · exact le_float_to_uint16_of_lt _ v hge hrange.2
    · exact float_to_uint16_le_of_lt _ e hrange.1 (by linarith [hnear.2, hb.2])
  · intro h
    have hnear := abs_le.mp (ramp_value_near count v e hcount hN hv he (j + 1) (by omega))
    have hrange := ramp_value_range count v e hcount hN hv he (j + 1) (by omega)
    have hle := ramp_value_le_start (ramp_step count v e) (v : ℚ)
      (ramp_step_nonpos count v e h) (j + 1)
    rw [f32_round_natCast v (by omega)] at hle hnear hrange ⊢
    have hb := (exact_value_bounds count v e j hj).2 h
    have hcast : ((j + 1 : Nat) : ℚ) = (j : ℚ) + 1 := by push_cast; rfl
    rw [hcast] at hnear
    constructor
    · exact pred_le_float_to_uint16 _ e (by linarith [hnear.1, hb.1]) hrange.2
    · exact float_to_uint16_le_of_lt _ v hrange.1 (by linarith)

/-- For a count up to 256 and 16-bit samples the cells of a computed ramp are monotone. -/
theorem compute_ramp_cells_mono (count v e : Nat) (buf : List Nat) (hcount : 0 < count)
    (hN : count ≤ 256) (hv : v < 65536) (he : e < 65536) (hlen : buf.length = count)
    (i j : Nat) (hij : i ≤ j) (hj : j < count) :
    ∃ x y, (compute_ramp count v e buf)[i]? = some x ∧
      (compute_ramp count v e buf)[j]? = some y ∧
      (v ≤ e → x ≤ y) ∧ (e ≤ v → y ≤ x) := by
  refine ⟨_, _, compute_ramp_getElem? count v e buf hlen i (by omega),
    compute_ramp_getElem? count v e buf hlen j hj, ?_, ?_⟩
  · intro h
    have hri := ramp_value_range count v e hcount hN hv he (i + 1) (by omega)
    have hrj := ramp_value_range count v e hcount hN hv he (j + 1) (by omega)
    exact float_to_uint16_mono_of_gt _ _ hri.1
      (ramp_value_mono_of_nonneg _ _ (ramp_step_nonneg count v e h) (i + 1) (j + 1) (by omega))
      hrj.2
  · intro h
    have hri := ramp_value_range count v e hcount hN hv he (i + 1) (by omega)
    have hrj := ramp_value_range count v e hcount hN hv he (j + 1) (by omega)
    exact float_to_uint16_mono_of_gt _ _ hrj.1
      (ramp_value_anti_of_nonpos _ _ (ramp_step_nonpos count v e h) (i + 1) (j + 1) (by omega))
      hri.2

/-- For a count up to 256 and 16-bit samples the last cell of a computed ramp is the end or
the end less one. -/
theorem compute_ramp_last (count v e : Nat) (buf : List Nat) (hcount : 0 < count)
    (hN : count ≤ 256) (hv : v < 65536) (he : e < 65536) (hlen : buf.length = count) :
    ∃ last, (compute_ramp count v e buf)[count - 1]? = some last ∧
      e - 1 ≤ last ∧ last ≤ e := by
  refine ⟨_, compute_ramp_getElem? count v e buf hlen (count - 1) (by omega), ?_, ?_⟩
  all_goals
    have hcc : count - 1 + 1 = count := by omega
    rw [hcc]
    have hnear := abs_le.mp (ramp_value_near count v e hcount hN hv he count le_rfl)
    have hrange := ramp_value_range count v e hcount hN hv he count le_rfl
    have hc0 : (count : ℚ) ≠ 0 := by
      have : (0 : ℚ) < (count : ℚ) := by exact_mod_cast hcount
      exact ne_of_gt this
    have hlast : (v : ℚ) + ((e : ℚ) - (v : ℚ)) / (count : ℚ) * (count : ℚ) = (e : ℚ) := by
      rw [div_mul_cancel₀ _ hc0]
      ring
    rw [hlast] at hnear
  · exact pred_le_float_to_uint16 _ e (by linarith [hnear.1]) hrange.2
  · exact float_to_uint16_le_of_lt _ e hrange.1 (by linarith [hnear.2])

/-- For a count that is a power of two up to 256 and 16-bit samples the last cell of a
computed ramp is the end, and every cell lies between the start and the end. -/
theorem compute_ramp_exact_range (k count v e : Nat) (buf : List Nat)
    (hcount : count = 2 ^ k) (hk : k ≤ 8) (hv : v < 65536) (he : e < 65536)
    (hlen : buf.length = count) :
    (compute_ramp count v e buf)[count - 1]? = some e ∧
      ∀ j, j < count → ∃ x, (compute_ramp count v e buf)[j]? = some x ∧
        min v e ≤ x ∧ x ≤ max v e := by
  have hpos : 0 < count := by
    rw [hcount]
    positivity
  constructor
  · rw [compute_ramp_exact_getElem? k count v e buf hcount hk hv he hlen (count - 1) (by omega)]
    have hcc : ((count - 1 : Nat) : ℚ) + 1 = (count : ℚ) := by
      have : count - 1 + 1 = count := by omega
      exact_mod_cast this
    have hc0 : (count : ℚ) ≠ 0 := by
      have : (0 : ℚ) < (count : ℚ) := by exact_mod_cast hpos
      exact ne_of_gt this
    have hlast : (v : ℚ) + ((e : ℚ) - (v : ℚ)) / (count : ℚ) * (((count - 1 : Nat) : ℚ) + 1) =
        (e : ℚ) := by
      rw [hcc, div_mul_cancel₀ _ hc0]
      ring
    rw [hlast, float_to_uint16_natCast, Nat.mod_eq_of_lt he]
  · intro j hj
    refine ⟨_, compute_ramp_exact_getElem? k count v e buf hcount hk hv he hlen j hj, ?_, ?_⟩
    · rcases Nat.le_total v e with h | h
      · rw [min_eq_left h]
        obtain ⟨h1, h2⟩ := (exact_value_bounds count v e j hj).1 h
        exact le_float_to_uint16 _ v e h1 h2 he
      · rw [min_eq_right h]
        obtain ⟨h1, h2⟩ := (exact_value_bounds count v e j hj).2 h
        exact le_float_to_uint16 _ e v h1 h2 hv
    · rcases Nat.le_total v e with h | h
      · rw [max_eq_right h]
        obtain ⟨h1, h2⟩ := (exact_value_bounds count v e j hj).1 h
        exact float_to_uint16_le _ e (le_trans (Nat.cast_nonneg v) h1) h2
      · rw [max_eq_left h]
        obtain ⟨h1, h2⟩ := (exact_value_bounds count v e j hj).2 h
        exact float_to_uint16_le _ v (le_trans (Nat.cast_nonneg e) h1) h2

theorem ramp_step_three_two_one : ramp_step 3 2 1 = -11184811 / 33554432 := by
  unfold ramp_step
  rw [f32_round_sample_sub 2 1 (by norm_num) (by norm_num), f32_round_natCast 3 (by norm_num)]
  have h := f32_round_eval (-1 / 3) (-2) (-11184811) (by norm_num [abs_of_neg])
    (by norm_num [abs_of_neg]) (by norm_num) (Or.inl (by norm_num [abs_lt]))
  norm_num at h ⊢
  exact h

theorem ramp_value_three_two_one_first :
    ramp_value (ramp_step 3 2 1) (f32_round ((2 : Nat) : ℚ)) 1 = 13981013 / 8388608 := by
  rw [ramp_value_succ, ramp_value_zero, f32_round_natCast 2 (by norm_num),
    ramp_step_three_two_one]
  have h := f32_round_eval (55924053 / 33554432) 0 13981013 (by norm_num [abs_of_pos])
    (by norm_num [abs_of_pos]) (by norm_num) (Or.inl (by norm_num [abs_lt]))
  norm_num at h ⊢
  exact h

theorem ramp_value_three_two_one_second :
    ramp_value (ramp_step 3 2 1) (f32_round ((2 : Nat) : ℚ)) 2 = 5592405 / 4194304 := by
  rw [ramp_value_succ, ramp_value_three_two_one_first, ramp_step_three_two_one]
  have h := f32_round_eval (44739241 / 33554432) 0 11184810 (by norm_num [abs_of_pos])
    (by norm_num [abs_of_pos]) (by norm_num) (Or.inl (by norm_num [abs_lt]))
  norm_num at h ⊢
  exact h

theorem ramp_value_three_two_one_third :
    ramp_value (ramp_step 3 2 1) (f32_round ((2 : Nat) : ℚ)) 3 = 8388607 / 8388608 := by
  rw [ramp_value_succ, ramp_value_three_two_one_second, ramp_step_three_two_one]
  have h := f32_round_eval (33554429 / 33554432) (-1) 16777214 (by norm_num [abs_of_pos])
    (by norm_num [abs_of_pos]) (by norm_num)
    (Or.inr ⟨by norm_num [abs_of_pos], by decide⟩)
  norm_num at h ⊢
  exact h

/-- The ramp of three cells from `2` to `1`: the third addition rounds to a value below `1`,
which the store truncates to `0`. -/
theorem compute_ramp_three_two_one (buf : List Nat) (hlen : buf.length = 3) :
    compute_ramp 3 2 1 buf = [1, 1, 0] := by
  have h0 := compute_ramp_getElem? 3 2 1 buf hlen 0 (by norm_num)
  have h1 := compute_ramp_getElem? 3 2 1 buf hlen 1 (by norm_num)
  have h2 := compute_ramp_getElem? 3 2 1 buf hlen 2 (by norm_num)
  rw [ramp_value_three_two_one_first,
    float_to_uint16_eq _ 1 (by norm_num) (by norm_num) (by norm_num)] at h0
  rw [ramp_value_three_two_one_second,
    float_to_uint16_eq _ 1 (by norm_num) (by norm_num) (by norm_num)] at h1
  rw [ramp_value_three_two_one_third,
    float_to_uint16_eq _ 0 (by norm_num) (by norm_num) (by norm_num)] at h2
  have hl := compute_ramp_length 3 2 1 buf
  rw [hlen] at hl
  apply List.ext_getElem?
  intro i
  rcases i with _ | _ | _ | i
  · exact h0
  · exact h1
  · exact h2
  · have h3 : (compute_ramp 3 2 1 buf).length ≤ i + 1 + 1 + 1 := by omega
    rw [List.getElem?_eq_none h3]
    rfl

theorem first_sample_defined (data : caller_buffer) (h : data.samples ≠ []) :
    ∃ e, data.samples[0]? = some e := by
  cases hl : data.samples with
  | nil => exact absurd hl h
  | cons e rest => exact ⟨e, by simp⟩

theorem start_position_defined (s : driver_state) (dma_counter : Nat)
    (hsafe : s.sound_state = sound_state_t.SOUND_STATE_STOPPED ∨ active_in_bounds s) :
    ∃ v, (if s.sound_state = sound_state_t.SOUND_STATE_STOPPED then some 0
      else current_position s dma_counter) = some v := by
  by_cases hs : s.sound_state = sound_state_t.SOUND_STATE_STOPPED
  · exact ⟨0, if_pos hs⟩
  · obtain ⟨v, hv⟩ := current_position_defined s dma_counter (hsafe.resolve_left hs)
    exact ⟨v, by rw [if_neg hs, hv]⟩

theorem period_eq (clock rate : Nat) (hrate : 0 < rate) (hle : rate ≤ clock)
    (hclock : clock < 2 ^ 32) : u32_sub (clock / rate) 1 = clock / rate - 1 :=
  u32_sub_one _ (Nat.div_pos hle hrate) (lt_of_le_of_lt (Nat.div_le_self _ _) hclock)

/-! ## The transitions of the playback state machine -/

/-- C1: in every playback state, `pbdrv_sound_start` on a non-empty buffer returns a state in
which `sound_state` is ramping up, the pending target is exactly the buffer, length and sample
rate passed, the active buffer is `ramp_data_buffer` with active length
`SOUND_RAMP_SMAPLE_COUNT` (also the transfer handed to the DAC), the DMA mode is one-shot, the
output-enable line is set, the timer period is `tim_clock_rate / SOUND_RAMP_SMAPLE_RATE - 1` in
`uint32_t` arithmetic (the natural-number value when the ramp rate does not exceed the clock
rate), and the transfer-complete interrupt is enabled. -/
theorem start_enters_ramping_up (pdata : platform_data) (s : driver_state)
    (data : caller_buffer) (length sample_rate dma_counter : Nat)
    (hdata : data.samples ≠ [])
    (hrate : 0 < pdata.SOUND_RAMP_SMAPLE_RATE)
    (hsafe : s.sound_state = sound_state_t.SOUND_STATE_STOPPED ∨ active_in_bounds s) :
    ∃ s', pbdrv_sound_start pdata s data length sample_rate dma_counter = some s' ∧
      s'.sound_state = sound_state_t.SOUND_STATE_RAMPING_UP ∧
      s'.target_sound_data = sample_ptr.caller data ∧
      s'.target_sound_length = length ∧
      s'.target_sample_rate = sample_rate ∧
      s'.current_playing_data = sample_ptr.ramp ∧
      s'.current_playing_length = pdata.SOUND_RAMP_SMAPLE_COUNT ∧
      s'.dac_dma = some (sample_ptr.ramp, pdata.SOUND_RAMP_SMAPLE_COUNT) ∧
      s'.hdma_mode = dma_mode_t.DMA_NORMAL ∧
      s'.enable_gpio = true ∧
      s'.htim_period = u32_sub (pdata.tim_clock_rate / pdata.SOUND_RAMP_SMAPLE_RATE) 1 ∧
      (pdata.SOUND_RAMP_SMAPLE_RATE ≤ pdata.tim_clock_rate → pdata.tim_clock_rate < 2 ^ 32 →
        s'.htim_period = pdata.tim_clock_rate / pdata.SOUND_RAMP_SMAPLE_RATE - 1) ∧
      s'.dma_it_tc = true := by
  obtain ⟨e, he⟩ := first_sample_defined data hdata
  obtain ⟨v, hv⟩ := start_position_defined s dma_counter hsafe
  refine ⟨_, pbdrv_sound_start_eq pdata s data length sample_rate dma_counter e v he hv hrate,
    rfl, rfl, rfl, rfl, rfl, rfl, rfl, rfl, rfl, rfl, ?_, rfl⟩
  intro hle hclock
  exact period_eq _ _ hrate hle hclock

/-- C1, at a concrete input: a new sound is started while `buf_a` is playing. -/
theorem start_enters_ramping_up_witness :
    ∃ s', pbdrv_sound_start pdata_example playing_example buf_b 2 16000 1 = some s' ∧
      s'.sound_state = sound_state_t.SOUND_STATE_RAMPING_UP ∧
      s'.target_sound_data = sample_ptr.caller buf_b ∧
      s'.target_sound_length = 2 ∧
      s'.target_sample_rate = 16000 ∧
      s'.current_playing_data = sample_ptr.ramp ∧
      s'.current_playing_length = 4 ∧
      s'.dac_dma = some (sample_ptr.ramp, 4) ∧
      s'.hdma_mode = dma_mode_t.DMA_NORMAL ∧
      s'.enable_gpio = true ∧
      s'.htim_period = 1999 ∧
      s'.dma_it_tc = true := by
  obtain ⟨s', h0, h1, h2, h3, h4, h5, h6, h7, h8, h9, _, h11, h12⟩ :=
    start_enters_ramping_up pdata_example playing_example buf_b 2 16000 1
      (by decide) (by decide) (Or.inr (by decide))
  exact ⟨s', h0, h1, h2, h3, h4, h5, h6, h7, h8, h9,
    h11 (by decide) (by decide), h12⟩

/-- C4: in the ramping-up state with a pending target of positive sample rate, the completion
handler returns a state in which `sound_state` is playing, the DMA mode is auto-repeating
(circular), the active buffer and active length are the pending target's (also the transfer
handed to the DAC), the timer period is `tim_clock_rate / target_sample_rate - 1` with
truncating division in `uint32_t` arithmetic (the natural-number value when the sample rate
does not exceed the clock rate), and the transfer-complete interrupt is disabled. -/
theorem callback_ramping_up (pdata : platform_data) (s : driver_state)
    (hs : s.sound_state = sound_state_t.SOUND_STATE_RAMPING_UP)
    (hrate : 0 < s.target_sample_rate) :
    ∃ s', HAL_DAC_ConvCpltCallbackCh1 pdata s = some s' ∧
      s'.sound_state = sound_state_t.SOUND_STATE_PLAYING ∧
      s'.hdma_mode = dma_mode_t.DMA_CIRCULAR ∧
      s'.current_playing_data = s.target_sound_data ∧
      s'.current_playing_length = s.target_sound_length ∧
      s'.dac_dma = some (s.target_sound_data, s.target_sound_length) ∧
      s'.htim_period = u32_sub (pdata.tim_clock_rate / s.target_sample_rate) 1 ∧
      (s.target_sample_rate ≤ pdata.tim_clock_rate → pdata.tim_clock_rate < 2 ^ 32 →
        s'.htim_period = pdata.tim_clock_rate / s.target_sample_rate - 1) ∧
      s'.dma_it_tc = false := by
  refine ⟨_, callback_ramping_up_eq pdata s hs hrate, rfl, rfl, rfl, rfl, rfl, rfl, ?_, rfl⟩
  intro hle hclock
  exact period_eq _ _ hrate hle hclock

/-- C4, at a concrete input: the ramp up to `buf_a` (3 samples, 8 kHz) completes; with the
timer clocked at 96 MHz the period is `96000000 / 8000 - 1 = 11999`. -/
theorem callback_ramping_up_witness :
    ∃ s', HAL_DAC_ConvCpltCallbackCh1 pdata_example ramping_up_example = some s' ∧
      s'.sound_state = sound_state_t.SOUND_STATE_PLAYING ∧
      s'.hdma_mode = dma_mode_t.DMA_CIRCULAR ∧
      s'.current_playing_data = sample_ptr.caller buf_a ∧
      s'.current_playing_length = 3 ∧
      s'.htim_period = 11999 ∧
      s'.dma_it_tc = false := by
  obtain ⟨s', h0, h1, h2, h3, h4, _, _, h7, h8⟩ :=
    callback_ramping_up pdata_example ramping_up_example rfl (by decide)
  exact ⟨s', h0, h1, h2, h3, h4, h7 (by decide) (by decide), h8⟩

/-- C5: in the ramping-down state the completion handler returns a state in which
`sound_state` is stopped, the output-enable line is cleared, the DAC transfer is stopped and
the transfer-complete interrupt is disabled. -/
theorem callback_ramping_down (pdata : platform_data) (s : driver_state)
    (hs : s.sound_state = sound_state_t.SOUND_STATE_RAMPING_DOWN) :
    ∃ s', HAL_DAC_ConvCpltCallbackCh1 pdata s = some s' ∧
      s'.sound_state = sound_state_t.SOUND_STATE_STOPPED ∧
      s'.enable_gpio = false ∧
      s'.dac_dma = none ∧
      s'.dma_it_tc = false :=
  ⟨_, callback_ramping_down_eq pdata s hs, rfl, rfl, rfl, rfl⟩

/-- C5, at a concrete input: the ramp down to silence completes. -/
theorem callback_ramping_down_witness :
    ∃ s', HAL_DAC_ConvCpltCallbackCh1 pdata_example ramping_down_example = some s' ∧
      s'.sound_state = sound_state_t.SOUND_STATE_STOPPED ∧
      s'.enable_gpio = false ∧
      s'.dac_dma = none ∧
      s'.dma_it_tc = false :=
  callback_ramping_down pdata_example ramping_down_example rfl

/-- C6: delivered in the playing or the stopped state, the completion handler returns the state
it was called in, unchanged in every component, and does not fail; and from every state,
running the handler a second time on the state it returned gives what the first run gave. -/
theorem callback_spurious_noop (pdata : platform_data) (s : driver_state) :
    (s.sound_state = sound_state_t.SOUND_STATE_PLAYING ∨
        s.sound_state = sound_state_t.SOUND_STATE_STOPPED →
      HAL_DAC_ConvCpltCallbackCh1 pdata s = some s) ∧
    (HAL_DAC_ConvCpltCallbackCh1 pdata s).bind (HAL_DAC_ConvCpltCallbackCh1 pdata) =
      HAL_DAC_ConvCpltCallbackCh1 pdata s := by
  constructor
  · intro h
    apply callback_other_eq <;> rcases h with h | h <;> rw [h] <;> decide
  · by_cases hd : s.sound_state = sound_state_t.SOUND_STATE_RAMPING_DOWN
    · rw [callback_ramping_down_eq pdata s hd, Option.some_bind]
      apply callback_other_eq <;> simp
    · by_cases hu : s.sound_state = sound_state_t.SOUND_STATE_RAMPING_UP
      · by_cases hr : 0 < s.target_sample_rate
        · rw [callback_ramping_up_eq pdata s hu hr, Option.some_bind]
          apply callback_other_eq <;> simp
        · have hz : s.target_sample_rate = 0 := by omega
          have hn : HAL_DAC_ConvCpltCallbackCh1 pdata s = none := by
            unfold HAL_DAC_ConvCpltCallbackCh1
            simp [hu, hz, u32_div]
          rw [hn]
          rfl
      · rw [callback_other_eq pdata s hd hu, Option.some_bind]
        exact callback_other_eq pdata s hd hu

/-- C6, at a concrete input: a completion delivered while `buf_a` is playing. -/
theorem callback_spurious_noop_witness :
    HAL_DAC_ConvCpltCallbackCh1 pdata_example playing_example = some playing_example :=
  (callback_spurious_noop pdata_example playing_example).1 (Or.inl rfl)

/-! ## Scenarios -/

/-- After `pbdrv_sound_start` the read of the sample being served is in bounds: the active
buffer is the whole of `ramp_data_buffer`. -/
theorem active_in_bounds_ramp (pdata : platform_data) (s : driver_state)
    (hcount : 0 < pdata.SOUND_RAMP_SMAPLE_COUNT)
    (hlen : s.ramp_data_buffer.length = pdata.SOUND_RAMP_SMAPLE_COUNT)
    (hdata : s.current_playing_data = sample_ptr.ramp)
    (hcur : s.current_playing_length = pdata.SOUND_RAMP_SMAPLE_COUNT) :
    active_in_bounds s := by
  unfold active_in_bounds
  rw [hdata, hcur]
  simp only [buffer_size]
  omega

/-- C7: from every state, `pbdrv_sound_start` on `buf_a`, then `pbdrv_sound_start` on
`buf_b` before any completion, then the completion handler: the state is ramping up after each
start, the pending target after the second start is `buf_b` with its length and sample rate,
and the handler returns the playing state with active buffer `buf_b`, active length `len_b`
and the timer period computed from `rate_b`; neither intermediate state is playing with active
buffer `buf_a`. -/
theorem start_supersedes_pending_start (pdata : platform_data) (s : driver_state)
    (buf_a buf_b : caller_buffer) (len_a rate_a len_b rate_b counter_a counter_b : Nat)
    (ha : buf_a.samples ≠ []) (hb : buf_b.samples ≠ [])
    (hcount : 0 < pdata.SOUND_RAMP_SMAPLE_COUNT)
    (hrate : 0 < pdata.SOUND_RAMP_SMAPLE_RATE)
    (hrate_b : 0 < rate_b)
    (hlen : s.ramp_data_buffer.length = pdata.SOUND_RAMP_SMAPLE_COUNT)
    (hsafe : s.sound_state = sound_state_t.SOUND_STATE_STOPPED ∨ active_in_bounds s) :
    ∃ s1 s2 s3,
      pbdrv_sound_start pdata s buf_a len_a rate_a counter_a = some s1 ∧
      s1.sound_state = sound_state_t.SOUND_STATE_RAMPING_UP ∧
      pbdrv_sound_start pdata s1 buf_b len_b rate_b counter_b = some s2 ∧
      s2.sound_state = sound_state_t.SOUND_STATE_RAMPING_UP ∧
      s2.target_sound_data = sample_ptr.caller buf_b ∧
      s2.target_sound_length = len_b ∧
      s2.target_sample_rate = rate_b ∧
      HAL_DAC_ConvCpltCallbackCh1 pdata s2 = some s3 ∧
      s3.sound_state = sound_state_t.SOUND_STATE_PLAYING ∧
      s3.current_playing_data = sample_ptr.caller buf_b ∧
      s3.current_playing_length = len_b ∧
      s3.dac_dma = some (sample_ptr.caller buf_b, len_b) ∧
      s3.htim_period = u32_sub (pdata.tim_clock_rate / rate_b) 1 ∧
      ¬ (s1.sound_state = sound_state_t.SOUND_STATE_PLAYING ∧
        s1.current_playing_data = sample_ptr.caller buf_a) ∧
      ¬ (s2.sound_state = sound_state_t.SOUND_STATE_PLAYING ∧
        s2.current_playing_data = sample_ptr.caller buf_a) := by
  obtain ⟨ea, hea⟩ := first_sample_defined buf_a ha
  obtain ⟨va, hva⟩ := start_position_defined s counter_a hsafe
  have h1 := pbdrv_sound_start_eq pdata s buf_a len_a rate_a counter_a ea va hea hva hrate
  generalize hs1 : ({ s with
    ramp_data_buffer := compute_ramp pdata.SOUND_RAMP_SMAPLE_COUNT va ea s.ramp_data_buffer
    hdma_mode := dma_mode_t.DMA_NORMAL
    enable_gpio := true
    htim_period := u32_sub (pdata.tim_clock_rate / pdata.SOUND_RAMP_SMAPLE_RATE) 1
    dac_dma := some (sample_ptr.ramp, pdata.SOUND_RAMP_SMAPLE_COUNT)
    current_playing_data := sample_ptr.ramp
    current_playing_length := pdata.SOUND_RAMP_SMAPLE_COUNT
    target_sound_data := sample_ptr.caller buf_a
    target_sample_rate := rate_a
    target_sound_length := len_a
    sound_state := sound_state_t.SOUND_STATE_RAMPING_UP
    dma_it_tc := true } : driver_state) = s1 at h1
  have hst1 : s1.sound_state = sound_state_t.SOUND_STATE_RAMPING_UP := by rw [← hs1]
  have hsafe1 : active_in_bounds s1 := by
    apply active_in_bounds_ramp pdata s1 hcount
    · rw [← hs1]
      exact (compute_ramp_length _ _ _ _).trans hlen
    · rw [← hs1]
    · rw [← hs1]
  obtain ⟨eb, heb⟩ := first_sample_defined buf_b hb
  obtain ⟨vb, hvb⟩ := start_position_defined s1 counter_b (Or.inr hsafe1)
  have h2 := pbdrv_sound_start_eq pdata s1 buf_b len_b rate_b counter_b eb vb heb hvb hrate
  refine ⟨s1, _, _, h1, hst1, h2, rfl, rfl, rfl, rfl,
    callback_ramping_up_eq pdata _ rfl hrate_b, rfl, rfl, rfl, rfl, rfl, ?_, ?_⟩
  · rw [hst1]
    simp
  · simp

/-- C7, at a concrete input: while `buf_a` is playing, `buf_a` is started again and `buf_b`
right after it. -/
theorem start_supersedes_pending_start_witness :
    ∃ s1 s2 s3,
      pbdrv_sound_start pdata_example playing_example buf_a 3 8000 2 = some s1 ∧
      s1.sound_state = sound_state_t.SOUND_STATE_RAMPING_UP ∧
      pbdrv_sound_start pdata_example s1 buf_b 2 16000 3 = some s2 ∧
      s2.sound_state = sound_state_t.SOUND_STATE_RAMPING_UP ∧
      s2.target_sound_data = sample_ptr.caller buf_b ∧
      HAL_DAC_ConvCpltCallbackCh1 pdata_example s2 = some s3 ∧
      s3.sound_state = sound_state_t.SOUND_STATE_PLAYING ∧
      s3.current_playing_data = sample_ptr.caller buf_b ∧
      s3.current_playing_length = 2 := by
  obtain ⟨s1, s2, s3, h1, h2, h3, h4, h5, _, _, h8, h9, h10, h11, _⟩ :=
    start_supersedes_pending_start pdata_example playing_example buf_a buf_b 3 8000 2 16000 2 3
      (by decide) (by decide) (by decide) (by decide) (by decide) (by decide)
      (Or.inr (by decide))
  exact ⟨s1, s2, s3, h1, h2, h3, h4, h5, h8, h9, h10, h11⟩

/-- C8: `pbdrv_sound_init` leaves `sound_state` stopped; `pbdrv_sound_start` on a non-empty
buffer with its length and a positive sample rate then makes it ramping up; the completion
handler makes it playing with that buffer and length active; `pbdrv_sound_stop` makes it
ramping down; the completion handler makes it stopped, with the output-enable line cleared and
the transfer stopped. The playback states visited are, in order, stopped, ramping up, playing,
ramping down, stopped. -/
theorem lifecycle (pdata : platform_data) (s0 : driver_state) (buf : caller_buffer)
    (length sample_rate counter_start counter_stop : Nat)
    (hbuf : buf.samples ≠ [])
    (hlength : length ≤ buf.samples.length)
    (hsample_rate : 0 < sample_rate)
    (hrate : 0 < pdata.SOUND_RAMP_SMAPLE_RATE) :
    ∃ s1 s2 s3 s4,
      (pbdrv_sound_init s0).sound_state = sound_state_t.SOUND_STATE_STOPPED ∧
      pbdrv_sound_start pdata (pbdrv_sound_init s0) buf length sample_rate counter_start
        = some s1 ∧
      s1.sound_state = sound_state_t.SOUND_STATE_RAMPING_UP ∧
      HAL_DAC_ConvCpltCallbackCh1 pdata s1 = some s2 ∧
      s2.sound_state = sound_state_t.SOUND_STATE_PLAYING ∧
      s2.current_playing_data = sample_ptr.caller buf ∧
      s2.current_playing_length = length ∧
      pbdrv_sound_stop pdata s2 counter_stop = some s3 ∧
      s3.sound_state = sound_state_t.SOUND_STATE_RAMPING_DOWN ∧
      HAL_DAC_ConvCpltCallbackCh1 pdata s3 = some s4 ∧
      s4.sound_state = sound_state_t.SOUND_STATE_STOPPED ∧
      s4.enable_gpio = false ∧
      s4.dac_dma = none ∧
      [(pbdrv_sound_init s0).sound_state, s1.sound_state, s2.sound_state, s3.sound_state,
          s4.sound_state] =
        [sound_state_t.SOUND_STATE_STOPPED, sound_state_t.SOUND_STATE_RAMPING_UP,
          sound_state_t.SOUND_STATE_PLAYING, sound_state_t.SOUND_STATE_RAMPING_DOWN,
          sound_state_t.SOUND_STATE_STOPPED] := by
  obtain ⟨e, he⟩ := first_sample_defined buf hbuf
  have h1 := pbdrv_sound_start_eq pdata (pbdrv_sound_init s0) buf length sample_rate
    counter_start e 0 he (if_pos rfl) hrate
  have h2 := callback_ramping_up_eq pdata _ (rfl : ({ pbdrv_sound_init s0 with
    ramp_data_buffer :=
      compute_ramp pdata.SOUND_RAMP_SMAPLE_COUNT 0 e (pbdrv_sound_init s0).ramp_data_buffer
    hdma_mode := dma_mode_t.DMA_NORMAL
    enable_gpio := true
    htim_period := u32_sub (pdata.tim_clock_rate / pdata.SOUND_RAMP_SMAPLE_RATE) 1
    dac_dma := some (sample_ptr.ramp, pdata.SOUND_RAMP_SMAPLE_COUNT)
    current_playing_data := sample_ptr.ramp
    current_playing_length := pdata.SOUND_RAMP_SMAPLE_COUNT
    target_sound_data := sample_ptr.caller buf
    target_sample_rate := sample_rate
    target_sound_length := length
    sound_state := sound_state_t.SOUND_STATE_RAMPING_UP
    dma_it_tc := true } : driver_state).sound_state = _) hsample_rate
  generalize hs2 : ({ ({ pbdrv_sound_init s0 with
    ramp_data_buffer :=
      compute_ramp pdata.SOUND_RAMP_SMAPLE_COUNT 0 e (pbdrv_sound_init s0).ramp_data_buffer
    hdma_mode := dma_mode_t.DMA_NORMAL
    enable_gpio := true
    htim_period := u32_sub (pdata.tim_clock_rate / pdata.SOUND_RAMP_SMAPLE_RATE) 1
    dac_dma := some (sample_ptr.ramp, pdata.SOUND_RAMP_SMAPLE_COUNT)
    current_playing_data := sample_ptr.ramp
    current_playing_length := pdata.SOUND_RAMP_SMAPLE_COUNT
    target_sound_data := sample_ptr.caller buf
    target_sample_rate := sample_rate
    target_sound_length := length
    sound_state := sound_state_t.SOUND_STATE_RAMPING_UP
    dma_it_tc := true } : driver_state) with
    hdma_mode := dma_mode_t.DMA_CIRCULAR
    enable_gpio := true
    htim_period := u32_sub (pdata.tim_clock_rate / sample_rate) 1
    dac_dma := some (sample_ptr.caller buf, length)
    current_playing_data := sample_ptr.caller buf
    current_playing_length := length
    dma_it_tc := false
    sound_state := sound_state_t.SOUND_STATE_PLAYING } : driver_state) = s2 at h2
  have hst2 : s2.sound_state = sound_state_t.SOUND_STATE_PLAYING := by rw [← hs2]
  have hdata2 : s2.current_playing_data = sample_ptr.caller buf := by rw [← hs2]
  have hlen2 : s2.current_playing_length = length := by rw [← hs2]
  have hsafe2 : active_in_bounds s2 := by
    unfold active_in_bounds
    rw [hdata2, hlen2]
    exact ⟨List.length_pos.mpr hbuf, hlength⟩
  obtain ⟨v, hv⟩ := current_position_defined s2 counter_stop hsafe2
  have h3 := pbdrv_sound_stop_eq pdata s2 counter_stop v (by rw [hst2]; decide) hv hrate
  exact ⟨_, s2, _, _, rfl, h1, rfl, h2, hst2, hdata2, hlen2, h3, rfl,
    callback_ramping_down_eq pdata _ rfl, rfl, rfl, rfl, by rw [hst2]; rfl⟩

/-- C8, at the input of the scenario: `init()`, `start(buf, 100, 8000)` on a buffer of one
hundred samples, completion, `stop()`, completion. -/
theorem lifecycle_witness :
    ∃ s1 s2 s3 s4,
      (pbdrv_sound_init (power_on pdata_example)).sound_state
        = sound_state_t.SOUND_STATE_STOPPED ∧
      pbdrv_sound_start pdata_example (pbdrv_sound_init (power_on pdata_example)) buf_100
        100 8000 0 = some s1 ∧
      s1.sound_state = sound_state_t.SOUND_STATE_RAMPING_UP ∧
      HAL_DAC_ConvCpltCallbackCh1 pdata_example s1 = some s2 ∧
      s2.sound_state = sound_state_t.SOUND_STATE_PLAYING ∧
      s2.current_playing_data = sample_ptr.caller buf_100 ∧
      s2.current_playing_length = 100 ∧
      pbdrv_sound_stop pdata_example s2 37 = some s3 ∧
      s3.sound_state = sound_state_t.SOUND_STATE_RAMPING_DOWN ∧
      HAL_DAC_ConvCpltCallbackCh1 pdata_example s3 = some s4 ∧
      s4.sound_state = sound_state_t.SOUND_STATE_STOPPED ∧
      s4.enable_gpio = false := by
  obtain ⟨s1, s2, s3, s4, h0, h1, h2, h3, h4, h5, h6, h7, h8, h9, h10, h11, _⟩ :=
    lifecycle pdata_example (power_on pdata_example) buf_100 100 8000 0 37
      (by decide) (by decide) (by decide) (by decide)
  exact ⟨s1, s2, s3, s4, h0, h1, h2, h3, h4, h5, h6, h7, h8, h9, h10, h11⟩

/-! ## The position clamp -/

/-- C11: for 32-bit `current_playing_length` `L` and DMA counter `c`, the index used to read
the sample being served is `(L - c) mod 2 ^ 32` when that is below `L` and `0` otherwise; it is
`0` whenever `c > L` and when `c = 0`; whenever `L ≥ 1` it is below `L`, so that the read
`current_playing_data[current_index]` from an active buffer of at least `L` samples is defined
and never leaves the buffer. -/
theorem current_index_clamp (L c : Nat) (hL : L < 2 ^ 32) (hc : c < 2 ^ 32) :
    ((current_index L c : ℤ) =
        if ((L : ℤ) - (c : ℤ)) % 2 ^ 32 < (L : ℤ) then ((L : ℤ) - (c : ℤ)) % 2 ^ 32 else 0) ∧
      (L < c → current_index L c = 0) ∧
      (c = 0 → current_index L c = 0) ∧
      (1 ≤ L → current_index L c < L) ∧
      (∀ s : driver_state, s.current_playing_length = L → 1 ≤ L →
        L ≤ buffer_size s s.current_playing_data →
        ∃ v, read_sample s s.current_playing_data (current_index L c) = some v ∧
          current_position s c = some v) := by
  have hidx : current_index L c =
      if u32_sub L c ≥ L then 0 else u32_sub L c := rfl
  refine ⟨?_, ?_, ?_, ?_, ?_⟩
  · rw [hidx]
    unfold u32_sub
    split_ifs <;> omega
  · intro h
    rw [hidx]
    unfold u32_sub
    split_ifs <;> omega
  · intro h
    rw [hidx]
    unfold u32_sub
    split_ifs <;> omega
  · intro h
    rw [hidx]
    unfold u32_sub
    split_ifs <;> omega
  · intro s hlen hpos hsize
    have hlt : current_index L c < buffer_size s s.current_playing_data := by
      have : current_index L c < L := by
        rw [hidx]
        unfold u32_sub
        split_ifs <;> omega
      omega
    obtain ⟨v, hv⟩ := read_sample_of_lt s s.current_playing_data _ hlt
    refine ⟨v, hv, ?_⟩
    unfold current_position
    rw [hlen]
    exact hv

/-- C11, at a concrete input: active length `3` and a DMA counter of `5`, more than the
length: the index falls back to `0` and the read returns `buf_a[0]`. -/
theorem current_index_clamp_witness :
    current_index 3 5 = 0 ∧ current_position playing_example 5 = some 1000 := by
  obtain ⟨_, h1, _, _, h4⟩ := current_index_clamp 3 5 (by decide) (by decide)
  obtain ⟨v, hv, hpos⟩ := h4 playing_example rfl (by decide) (by decide)
  have hv1 : v = 1000 := by
    have h : read_sample playing_example playing_example.current_playing_data
        (current_index 3 5) = some 1000 := by decide
    rw [h] at hv
    exact (Option.some.inj hv).symm
  subst hv1
  exact ⟨h1 (by decide), hpos⟩

/-! ## Invariants of the reachable states -/

theorem pbdrv_sound_start_inv (pdata : platform_data) (s s' : driver_state)
    (data : caller_buffer) (length sample_rate dma_counter : Nat)
    (h : pbdrv_sound_start pdata s data length sample_rate dma_counter = some s') :
    ∃ e v ticks, s' = { s with
        ramp_data_buffer := compute_ramp pdata.SOUND_RAMP_SMAPLE_COUNT v e s.ramp_data_buffer
        hdma_mode := dma_mode_t.DMA_NORMAL
        enable_gpio := true
        htim_period := u32_sub ticks 1
        dac_dma := some (sample_ptr.ramp, pdata.SOUND_RAMP_SMAPLE_COUNT)
        current_playing_data := sample_ptr.ramp
        current_playing_length := pdata.SOUND_RAMP_SMAPLE_COUNT
        target_sound_data := sample_ptr.caller data
        target_sample_rate := sample_rate
        target_sound_length := length
        sound_state := sound_state_t.SOUND_STATE_RAMPING_UP
        dma_it_tc := true } := by
  unfold pbdrv_sound_start at h
  simp only [Option.bind_eq_bind, bind, pure] at h
  rw [Option.bind_eq_some] at h
  obtain ⟨e, -, h⟩ := h
  split_ifs at h
  all_goals
    rw [Option.bind_eq_some] at h
    obtain ⟨v, -, h⟩ := h
    rw [Option.bind_eq_some] at h
    obtain ⟨ticks, -, h⟩ := h
    exact ⟨e, v, ticks, (Option.some.inj h).symm⟩

theorem pbdrv_sound_stop_inv (pdata : platform_data) (s s' : driver_state) (dma_counter : Nat)
    (h : pbdrv_sound_stop pdata s dma_counter = some s') :
    (s.sound_state = sound_state_t.SOUND_STATE_STOPPED ∧ s' = { s with dma_it_tc := false }) ∨
    (s.sound_state ≠ sound_state_t.SOUND_STATE_STOPPED ∧ ∃ v ticks, s' = { s with
        ramp_data_buffer := compute_ramp pdata.SOUND_RAMP_SMAPLE_COUNT v 0 s.ramp_data_buffer
        hdma_mode := dma_mode_t.DMA_NORMAL
        enable_gpio := true
        htim_period := u32_sub ticks 1
        dac_dma := some (sample_ptr.ramp, pdata.SOUND_RAMP_SMAPLE_COUNT)
        current_playing_data := sample_ptr.ramp
        current_playing_length := pdata.SOUND_RAMP_SMAPLE_COUNT
        sound_state := sound_state_t.SOUND_STATE_RAMPING_DOWN
        dma_it_tc := true }) := by
  unfold pbdrv_sound_stop at h
  simp only [Option.bind_eq_bind, bind, pure] at h
  by_cases hs : s.sound_state = sound_state_t.SOUND_STATE_STOPPED
  · rw [if_pos hs] at h
    exact Or.inl ⟨hs, (Option.some.inj h).symm⟩
  · rw [if_neg hs] at h
    rw [Option.bind_eq_some] at h
    obtain ⟨v, -, h⟩ := h
    rw [Option.bind_eq_some] at h
    obtain ⟨ticks, -, h⟩ := h
    exact Or.inr ⟨hs, v, ticks, (Option.some.inj h).symm⟩

theorem callback_inv (pdata : platform_data) (s s' : driver_state)
    (h : HAL_DAC_ConvCpltCallbackCh1 pdata s = some s') :
    (s.sound_state = sound_state_t.SOUND_STATE_RAMPING_DOWN ∧ s' = { s with
        enable_gpio := false
        dac_dma := none
        dma_it_tc := false
        sound_state := sound_state_t.SOUND_STATE_STOPPED }) ∨
    (s.sound_state = sound_state_t.SOUND_STATE_RAMPING_UP ∧ ∃ ticks, s' = { s with
        hdma_mode := dma_mode_t.DMA_CIRCULAR
        enable_gpio := true
        htim_period := u32_sub ticks 1
        dac_dma := some (s.target_sound_data, s.target_sound_length)
        current_playing_data := s.target_sound_data
        current_playing_length := s.target_sound_length
        dma_it_tc := false
        sound_state := sound_state_t.SOUND_STATE_PLAYING }) ∨
    (s.sound_state ≠ sound_state_t.SOUND_STATE_RAMPING_DOWN ∧
      s.sound_state ≠ sound_state_t.SOUND_STATE_RAMPING_UP ∧ s' = s) := by
  unfold HAL_DAC_ConvCpltCallbackCh1 at h
  by_cases hd : s.sound_state = sound_state_t.SOUND_STATE_RAMPING_DOWN
  · rw [if_pos hd] at h
    exact Or.inl ⟨hd, (Option.some.inj h).symm⟩
  · rw [if_neg hd] at h
    by_cases hu : s.sound_state = sound_state_t.SOUND_STATE_RAMPING_UP
    · rw [if_pos hu] at h
      simp only [Option.bind_eq_bind, bind] at h
      rw [Option.bind_eq_some] at h
      obtain ⟨ticks, -, h⟩ := h
      exact Or.inr (Or.inl ⟨hu, ticks, (Option.some.inj h).symm⟩)
    · rw [if_neg hu] at h
      exact Or.inr (Or.inr ⟨hd, hu, (Option.some.inj h).symm⟩)

theorem run_events_invariant (pdata : platform_data) (P : driver_state → Prop)
    (hstep : ∀ s ev s', P s → apply_event pdata s ev = some s' → P s')
    (events : List sound_event) (s s' : driver_state) (h0 : P s)
    (hrun : run_events pdata s events = some s') : P s' := by
  induction events generalizing s with
  | nil =>
    rw [run_events] at hrun
    exact Option.some.inj hrun ▸ h0
  | cons ev rest ih =>
    rw [run_events, Option.bind_eq_some] at hrun
    obtain ⟨s1, h1, h2⟩ := hrun
    exact ih s1 (hstep s ev s1 h0 h1) h2

theorem reachable_invariant (pdata : platform_data) (P : driver_state → Prop)
    (hinit : P (pbdrv_sound_init (power_on pdata)))
    (hstep : ∀ s ev s', P s → apply_event pdata s ev = some s' → P s')
    (s : driver_state) (hs : reachable pdata s) : P s := by
  obtain ⟨events, hrun⟩ := hs
  exact run_events_invariant pdata P hstep events _ s hinit hrun

theorem run_events_cons (pdata : platform_data) (s s1 : driver_state) (ev : sound_event)
    (rest : List sound_event) (h : apply_event pdata s ev = some s1) :
    run_events pdata s (ev :: rest) = run_events pdata s1 rest := by
  rw [run_events, h, Option.some_bind]

theorem run_events_nil (pdata : platform_data) (s : driver_state) :
    run_events pdata s [] = some s :=
  rfl

/-- A run that ends in the playing state: start on `buf_a`, then the completion. -/
theorem run_to_playing_example :
    ∃ s, run_events pdata_example (pbdrv_sound_init (power_on pdata_example))
        [sound_event.start buf_a 3 8000 0, sound_event.completion] = some s ∧
      s.sound_state = sound_state_t.SOUND_STATE_PLAYING := by
  have h1 := pbdrv_sound_start_eq pdata_example (pbdrv_sound_init (power_on pdata_example))
    buf_a 3 8000 0 1000 0 (by decide) (if_pos rfl) (by decide)
  have h2 := callback_ramping_up_eq pdata_example _ (rfl : ({
    pbdrv_sound_init (power_on pdata_example) with
    ramp_data_buffer := compute_ramp pdata_example.SOUND_RAMP_SMAPLE_COUNT 0 1000
      (pbdrv_sound_init (power_on pdata_example)).ramp_data_buffer
    hdma_mode := dma_mode_t.DMA_NORMAL
    enable_gpio := true
    htim_period :=
      u32_sub (pdata_example.tim_clock_rate / pdata_example.SOUND_RAMP_SMAPLE_RATE) 1
    dac_dma := some (sample_ptr.ramp, pdata_example.SOUND_RAMP_SMAPLE_COUNT)
    current_playing_data := sample_ptr.ramp
    current_playing_length := pdata_example.SOUND_RAMP_SMAPLE_COUNT
    target_sound_data := sample_ptr.caller buf_a
    target_sample_rate := 8000
    target_sound_length := 3
    sound_state := sound_state_t.SOUND_STATE_RAMPING_UP
    dma_it_tc := true } : driver_state).sound_state = _) (by decide)
  have hrun := (run_events_cons pdata_example _ _ (sound_event.start buf_a 3 8000 0)
    [sound_event.completion] h1).trans
    ((run_events_cons pdata_example _ _ sound_event.completion [] h2).trans
      (run_events_nil _ _))
  exact ⟨_, hrun, rfl⟩

/-- A run that ends in the stopped state after a ramp down: start on `buf_a`, stop during
the ramp up, then the completion. -/
theorem run_to_stopped_example :
    ∃ s, run_events pdata_example (pbdrv_sound_init (power_on pdata_example))
        [sound_event.start buf_a 3 8000 0, sound_event.stop 0, sound_event.completion]
        = some s ∧
      s.sound_state = sound_state_t.SOUND_STATE_STOPPED ∧
      s.current_playing_data = sample_ptr.ramp := by
  have h1 := pbdrv_sound_start_eq pdata_example (pbdrv_sound_init (power_on pdata_example))
    buf_a 3 8000 0 1000 0 (by decide) (if_pos rfl) (by decide)
  generalize hs1 : ({ pbdrv_sound_init (power_on pdata_example) with
    ramp_data_buffer := compute_ramp pdata_example.SOUND_RAMP_SMAPLE_COUNT 0 1000
      (pbdrv_sound_init (power_on pdata_example)).ramp_data_buffer
    hdma_mode := dma_mode_t.DMA_NORMAL
    enable_gpio := true
    htim_period :=
      u32_sub (pdata_example.tim_clock_rate / pdata_example.SOUND_RAMP_SMAPLE_RATE) 1
    dac_dma := some (sample_ptr.ramp, pdata_example.SOUND_RAMP_SMAPLE_COUNT)
    current_playing_data := sample_ptr.ramp
    current_playing_length := pdata_example.SOUND_RAMP_SMAPLE_COUNT
    target_sound_data := sample_ptr.caller buf_a
    target_sample_rate := 8000
    target_sound_length := 3
    sound_state := sound_state_t.SOUND_STATE_RAMPING_UP
    dma_it_tc := true } : driver_state) = s1 at h1
  have hst1 : s1.sound_state = sound_state_t.SOUND_STATE_RAMPING_UP := by rw [← hs1]
  have hsafe1 : active_in_bounds s1 := by
    apply active_in_bounds_ramp pdata_example s1 (by decide)
    · rw [← hs1]
      exact (compute_ramp_length _ _ _ _).trans (by decide)
    · rw [← hs1]
    · rw [← hs1]
  obtain ⟨v, hv⟩ := current_position_defined s1 0 hsafe1
  have h2 := pbdrv_sound_stop_eq pdata_example s1 0 v (by rw [hst1]; decide) hv (by decide)
  have h3 := callback_ramping_down_eq pdata_example _ (rfl : ({ s1 with
    ramp_data_buffer :=
      compute_ramp pdata_example.SOUND_RAMP_SMAPLE_COUNT v 0 s1.ramp_data_buffer
    hdma_mode := dma_mode_t.DMA_NORMAL
    enable_gpio := true
    htim_period :=
      u32_sub (pdata_example.tim_clock_rate / pdata_example.SOUND_RAMP_SMAPLE_RATE) 1
    dac_dma := some (sample_ptr.ramp, pdata_example.SOUND_RAMP_SMAPLE_COUNT)
    current_playing_data := sample_ptr.ramp
    current_playing_length := pdata_example.SOUND_RAMP_SMAPLE_COUNT
    sound_state := sound_state_t.SOUND_STATE_RAMPING_DOWN
    dma_it_tc := true } : driver_state).sound_state = _)
  have hrun := (run_events_cons pdata_example _ _ (sound_event.start buf_a 3 8000 0)
    [sound_event.stop 0, sound_event.completion] h1).trans
    ((run_events_cons pdata_example _ _ (sound_event.stop 0) [sound_event.completion] h2).trans
      ((run_events_cons pdata_example _ _ sound_event.completion [] h3).trans
        (run_events_nil _ _)))
  exact ⟨_, hrun, rfl, rfl⟩

/-- C12: in every state reachable from `pbdrv_sound_init` by start, stop and completion
steps, the DMA mode is one-shot when `sound_state` is ramping up or ramping down and
auto-repeating (circular) when it is playing, and when it is stopped the output is disabled:
the output-enable line is cleared and no DAC transfer is running. -/
theorem mode_consistent_with_state (pdata : platform_data) (s : driver_state)
    (hs : reachable pdata s) :
    (s.sound_state = sound_state_t.SOUND_STATE_RAMPING_UP ∨
        s.sound_state = sound_state_t.SOUND_STATE_RAMPING_DOWN →
      s.hdma_mode = dma_mode_t.DMA_NORMAL) ∧
    (s.sound_state = sound_state_t.SOUND_STATE_PLAYING →
      s.hdma_mode = dma_mode_t.DMA_CIRCULAR) ∧
    (s.sound_state = sound_state_t.SOUND_STATE_STOPPED →
      s.enable_gpio = false ∧ s.dac_dma = none) := by
  refine reachable_invariant pdata (fun s =>
    (s.sound_state = sound_state_t.SOUND_STATE_RAMPING_UP ∨
        s.sound_state = sound_state_t.SOUND_STATE_RAMPING_DOWN →
      s.hdma_mode = dma_mode_t.DMA_NORMAL) ∧
    (s.sound_state = sound_state_t.SOUND_STATE_PLAYING →
      s.hdma_mode = dma_mode_t.DMA_CIRCULAR) ∧
    (s.sound_state = sound_state_t.SOUND_STATE_STOPPED →
      s.enable_gpio = false ∧ s.dac_dma = none)) ?_ ?_ s hs
  · simp [pbdrv_sound_init, power_on]
  · intro s ev s' hP h
    cases ev with
    | start data length sample_rate dma_counter =>
      obtain ⟨e, v, ticks, rfl⟩ := pbdrv_sound_start_inv pdata s s' _ _ _ _ h
      simp
    | stop dma_counter =>
      rcases pbdrv_sound_stop_inv pdata s s' _ h with ⟨_, rfl⟩ | ⟨_, v, ticks, rfl⟩
      · exact hP
      · simp
    | completion =>
      rcases callback_inv pdata s s' h with ⟨_, rfl⟩ | ⟨_, ticks, rfl⟩ | ⟨_, _, rfl⟩
      · simp
      · simp
      · exact hP

/-- C12, at a concrete input: after start on `buf_a` and the completion the state is playing
and the DMA mode is circular. -/
theorem mode_consistent_with_state_witness :
    ∃ s, run_events pdata_example (pbdrv_sound_init (power_on pdata_example))
        [sound_event.start buf_a 3 8000 0, sound_event.completion] = some s ∧
      s.sound_state = sound_state_t.SOUND_STATE_PLAYING ∧
      s.hdma_mode = dma_mode_t.DMA_CIRCULAR := by
  obtain ⟨s, hrun, hst⟩ := run_to_playing_example
  exact ⟨s, hrun, hst, (mode_consistent_with_state pdata_example s ⟨_, hrun⟩).2.1 hst⟩

/-- C13, as stated, fails: after start, stop and the completion of the ramp down the state is
stopped and `current_playing_data` still points to `ramp_data_buffer`: the completion handler
does not reset it. -/
theorem ramp_active_counterexample :
    ∃ s, run_events pdata_example (pbdrv_sound_init (power_on pdata_example))
        [sound_event.start buf_a 3 8000 0, sound_event.stop 0, sound_event.completion]
        = some s ∧
      s.current_playing_data = sample_ptr.ramp ∧
      s.sound_state = sound_state_t.SOUND_STATE_STOPPED ∧
      ¬ (s.sound_state = sound_state_t.SOUND_STATE_RAMPING_UP ∨
        s.sound_state = sound_state_t.SOUND_STATE_RAMPING_DOWN) := by
  obtain ⟨s, hrun, hst, hdata⟩ := run_to_stopped_example
  refine ⟨s, hrun, hdata, hst, ?_⟩
  rw [hst]
  decide

/-- C13, amended: in every state reachable from `pbdrv_sound_init` by start, stop and
completion steps, if `current_playing_data` points to `ramp_data_buffer` then `sound_state` is
ramping up, ramping down or stopped, never playing; and if the transfer running on the DAC is
over `ramp_data_buffer` then `sound_state` is ramping up or ramping down. -/
theorem ramp_active_only_while_ramping (pdata : platform_data) (s : driver_state)
    (hs : reachable pdata s) :
    (s.current_playing_data = sample_ptr.ramp →
      s.sound_state = sound_state_t.SOUND_STATE_RAMPING_UP ∨
      s.sound_state = sound_state_t.SOUND_STATE_RAMPING_DOWN ∨
      s.sound_state = sound_state_t.SOUND_STATE_STOPPED) ∧
    (∀ n, s.dac_dma = some (sample_ptr.ramp, n) →
      s.sound_state = sound_state_t.SOUND_STATE_RAMPING_UP ∨
      s.sound_state = sound_state_t.SOUND_STATE_RAMPING_DOWN) := by
  have h := reachable_invariant pdata (fun s =>
    s.target_sound_data ≠ sample_ptr.ramp ∧
    (s.current_playing_data = sample_ptr.ramp →
      s.sound_state = sound_state_t.SOUND_STATE_RAMPING_UP ∨
      s.sound_state = sound_state_t.SOUND_STATE_RAMPING_DOWN ∨
      s.sound_state = sound_state_t.SOUND_STATE_STOPPED) ∧
    (∀ n, s.dac_dma = some (sample_ptr.ramp, n) →
      s.sound_state = sound_state_t.SOUND_STATE_RAMPING_UP ∨
      s.sound_state = sound_state_t.SOUND_STATE_RAMPING_DOWN)) ?_ ?_ s hs
  · exact h.2
  · simp [pbdrv_sound_init, power_on]
  · intro s ev s' hP h
    obtain ⟨htarget, hdata, hdma⟩ := hP
    cases ev with
    | start data length sample_rate dma_counter =>
      obtain ⟨e, v, ticks, rfl⟩ := pbdrv_sound_start_inv pdata s s' _ _ _ _ h
      simp
    | stop dma_counter =>
      rcases pbdrv_sound_stop_inv pdata s s' _ h with ⟨_, rfl⟩ | ⟨_, v, ticks, rfl⟩
      · exact ⟨htarget, hdata, hdma⟩
      · exact ⟨htarget, by simp, by simp⟩
    | completion =>
      rcases callback_inv pdata s s' h with ⟨_, rfl⟩ | ⟨_, ticks, rfl⟩ | ⟨_, _, rfl⟩
      · exact ⟨htarget, by simp, by simp⟩
      · refine ⟨htarget, ?_, ?_⟩
        · intro hr
          exact absurd hr htarget
        · intro n hn
          simp only [Option.some.injEq, Prod.mk.injEq] at hn
          exact absurd hn.1 htarget
      · exact ⟨htarget, hdata, hdma⟩

/-- C13, amended, at a concrete input: after start on `buf_a` and the completion the state is
playing, so `current_playing_data` does not point to `ramp_data_buffer`. -/
theorem ramp_active_only_while_ramping_witness :
    ∃ s, run_events pdata_example (pbdrv_sound_init (power_on pdata_example))
        [sound_event.start buf_a 3 8000 0, sound_event.completion] = some s ∧
      s.sound_state = sound_state_t.SOUND_STATE_PLAYING ∧
      s.current_playing_data ≠ sample_ptr.ramp := by
  obtain ⟨s, hrun, hst⟩ := run_to_playing_example
  refine ⟨s, hrun, hst, fun hr => ?_⟩
  have h := (ramp_active_only_while_ramping pdata_example s ⟨_, hrun⟩).1 hr
  rw [hst] at h
  revert h
  decide

/-- C19: in every state reachable from `pbdrv_sound_init`, run with the transfer-complete
interrupt disabled, by start, stop and completion steps, the interrupt is enabled if and only
if `sound_state` is ramping up or ramping down; it is disabled in the stopped and in the
playing state. -/
theorem interrupt_armed_iff_ramping (pdata : platform_data) (s : driver_state)
    (hs : reachable pdata s) :
    (s.dma_it_tc = true ↔
      (s.sound_state = sound_state_t.SOUND_STATE_RAMPING_UP ∨
        s.sound_state = sound_state_t.SOUND_STATE_RAMPING_DOWN)) ∧
    (s.sound_state = sound_state_t.SOUND_STATE_STOPPED ∨
        s.sound_state = sound_state_t.SOUND_STATE_PLAYING → s.dma_it_tc = false) := by
  have h := reachable_invariant pdata (fun s =>
    s.dma_it_tc = true ↔
      (s.sound_state = sound_state_t.SOUND_STATE_RAMPING_UP ∨
        s.sound_state = sound_state_t.SOUND_STATE_RAMPING_DOWN)) ?_ ?_ s hs
  · refine ⟨h, fun hst => ?_⟩
    cases hirq : s.dma_it_tc with
    | false => rfl
    | true =>
      have h2 := h.mp hirq
      rcases hst with h3 | h3 <;> rw [h3] at h2 <;> revert h2 <;> decide
  · simp [pbdrv_sound_init, power_on]
  · intro s ev s' hP h
    cases ev with
    | start data length sample_rate dma_counter =>
      obtain ⟨e, v, ticks, rfl⟩ := pbdrv_sound_start_inv pdata s s' _ _ _ _ h
      simp
    | stop dma_counter =>
      rcases pbdrv_sound_stop_inv pdata s s' _ h with ⟨hst, rfl⟩ | ⟨_, v, ticks, rfl⟩
      · simp [hst]
      · simp
    | completion =>
      rcases callback_inv pdata s s' h with ⟨_, rfl⟩ | ⟨_, ticks, rfl⟩ | ⟨_, _, rfl⟩
      · simp
      · simp
      · exact hP

/-- C19, at a concrete input: after start on `buf_a` and the completion the state is playing
and the transfer-complete interrupt is disabled. -/
theorem interrupt_armed_iff_ramping_witness :
    ∃ s, run_events pdata_example (pbdrv_sound_init (power_on pdata_example))
        [sound_event.start buf_a 3 8000 0, sound_event.completion] = some s ∧
      s.sound_state = sound_state_t.SOUND_STATE_PLAYING ∧
      s.dma_it_tc = false := by
  obtain ⟨s, hrun, hst⟩ := run_to_playing_example
  exact ⟨s, hrun, hst, (interrupt_armed_iff_ramping pdata_example s ⟨_, hrun⟩).2 (Or.inr hst)⟩

/-! ## Stop in the stopped state -/

/-- In the stopped state `pbdrv_sound_stop` disables the transfer-complete interrupt and
returns. -/
theorem pbdrv_sound_stop_stopped_eq (pdata : platform_data) (s : driver_state)
    (dma_counter : Nat) (hs : s.sound_state = sound_state_t.SOUND_STATE_STOPPED) :
    pbdrv_sound_stop pdata s dma_counter = some { s with dma_it_tc := false } := by
  unfold pbdrv_sound_stop
  simp only [Option.bind_eq_bind, bind, pure]
  rw [if_pos hs]

/-- In every reachable state in which `sound_state` is stopped the transfer-complete interrupt
is disabled. -/
theorem stopped_interrupt_disabled (pdata : platform_data) (s : driver_state)
    (hreach : reachable pdata s)
    (hs : s.sound_state = sound_state_t.SOUND_STATE_STOPPED) : s.dma_it_tc = false := by
  have h := reachable_invariant pdata (fun s =>
    s.sound_state = sound_state_t.SOUND_STATE_STOPPED → s.dma_it_tc = false) ?_ ?_ s hreach
  · exact h hs
  · intro _
    rfl
  · intro s ev s' hP h
    cases ev with
    | start data length sample_rate dma_counter =>
      obtain ⟨e, v, ticks, rfl⟩ := pbdrv_sound_start_inv pdata s s' _ _ _ _ h
      simp
    | stop dma_counter =>
      rcases pbdrv_sound_stop_inv pdata s s' _ h with ⟨_, rfl⟩ | ⟨_, v, ticks, rfl⟩
      · simp
      · simp
    | completion =>
      rcases callback_inv pdata s s' h with ⟨_, rfl⟩ | ⟨_, ticks, rfl⟩ | ⟨_, _, rfl⟩
      · simp
      · simp
      · exact hP

/-- C3: in every state reachable from `pbdrv_sound_init` by start, stop and completion steps
in which `sound_state` is stopped, `pbdrv_sound_stop` returns the state it was called in:
playback state, active buffer, pending target, ramp buffer, DMA mode, output-enable line,
timer period, running transfer and interrupt enable are all unchanged. The only write of the
function on this path disables the transfer-complete interrupt, which is already disabled in
every such state. -/
theorem stop_when_stopped (pdata : platform_data) (s : driver_state) (dma_counter : Nat)
    (hreach : reachable pdata s)
    (hs : s.sound_state = sound_state_t.SOUND_STATE_STOPPED) :
    pbdrv_sound_stop pdata s dma_counter = some s := by
  have hirq := stopped_interrupt_disabled pdata s hreach hs
  rw [pbdrv_sound_stop_stopped_eq pdata s dma_counter hs, ← hirq]

/-- C3, at a concrete input: after start on `buf_a`, stop during the ramp up and the
completion of the ramp down the state is stopped, and a further `pbdrv_sound_stop` returns
it unchanged. -/
theorem stop_when_stopped_witness :
    ∃ s, run_events pdata_example (pbdrv_sound_init (power_on pdata_example))
        [sound_event.start buf_a 3 8000 0, sound_event.stop 0, sound_event.completion]
        = some s ∧
      s.sound_state = sound_state_t.SOUND_STATE_STOPPED ∧
      pbdrv_sound_stop pdata_example s 5 = some s := by
  obtain ⟨s, hrun, hst, _⟩ := run_to_stopped_example
  exact ⟨s, hrun, hst, stop_when_stopped pdata_example s 5 ⟨_, hrun⟩ hst⟩

/-! ## The ramps written by start and stop -/

/-- The ramp `pbdrv_sound_start` writes: from `0` in the stopped state and from the sample
being served otherwise, to `data[0]`. -/
theorem start_ramp (pdata : platform_data) (s : driver_state) (data : caller_buffer)
    (length sample_rate dma_counter : Nat)
    (hdata : data.samples ≠ [])
    (hrate : 0 < pdata.SOUND_RAMP_SMAPLE_RATE)
    (hsafe : s.sound_state = sound_state_t.SOUND_STATE_STOPPED ∨ active_in_bounds s) :
    ∃ s' v e, data.samples[0]? = some e ∧
      (s.sound_state = sound_state_t.SOUND_STATE_STOPPED → v = 0) ∧
      (s.sound_state ≠ sound_state_t.SOUND_STATE_STOPPED →
        current_position s dma_counter = some v) ∧
      pbdrv_sound_start pdata s data length sample_rate dma_counter = some s' ∧
      s'.ramp_data_buffer =
        compute_ramp pdata.SOUND_RAMP_SMAPLE_COUNT v e s.ramp_data_buffer := by
  obtain ⟨e, he⟩ := first_sample_defined data hdata
  obtain ⟨v, hv⟩ := start_position_defined s dma_counter hsafe
  refine ⟨_, v, e, he, ?_, ?_,
    pbdrv_sound_start_eq pdata s data length sample_rate dma_counter e v he hv hrate, rfl⟩
  · intro hs
    rw [if_pos hs] at hv
    exact (Option.some.inj hv).symm
  · intro hs
    rw [if_neg hs] at hv
    exact hv

/-- The ramp `pbdrv_sound_stop` writes outside the stopped state: from the sample being
served to `0`. -/
theorem stop_ramp (pdata : platform_data) (s : driver_state) (dma_counter : Nat)
    (hs : s.sound_state ≠ sound_state_t.SOUND_STATE_STOPPED)
    (hrate : 0 < pdata.SOUND_RAMP_SMAPLE_RATE)
    (hsafe : active_in_bounds s) :
    ∃ s' v, current_position s dma_counter = some v ∧
      pbdrv_sound_stop pdata s dma_counter = some s' ∧
      s'.ramp_data_buffer =
        compute_ramp pdata.SOUND_RAMP_SMAPLE_COUNT v 0 s.ramp_data_buffer := by
  obtain ⟨v, hv⟩ := current_position_defined s dma_counter hsafe
  exact ⟨_, v, hv, pbdrv_sound_stop_eq pdata s dma_counter v hs hv hrate, rfl⟩

/-- A run on the platform `pdata_three`: start on `buf_two`, the completion, then, while
sample `0` of `buf_two` is being served, start on `buf_one`. The second start writes the ramp
from `2` to `1`. -/
theorem restart_example :
    ∃ s s', run_events pdata_three (pbdrv_sound_init (power_on pdata_three))
        [sound_event.start buf_two 3 8000 0, sound_event.completion] = some s ∧
      s.sound_state = sound_state_t.SOUND_STATE_PLAYING ∧
      current_position s 3 = some 2 ∧
      pbdrv_sound_start pdata_three s buf_one 2 8000 3 = some s' ∧
      s'.ramp_data_buffer = [1, 1, 0] := by
  have h1 := pbdrv_sound_start_eq pdata_three (pbdrv_sound_init (power_on pdata_three))
    buf_two 3 8000 0 2 0 (by decide) (if_pos rfl) (by decide)
  generalize hs1 : ({ pbdrv_sound_init (power_on pdata_three) with
    ramp_data_buffer := compute_ramp pdata_three.SOUND_RAMP_SMAPLE_COUNT 0 2
      (pbdrv_sound_init (power_on pdata_three)).ramp_data_buffer
    hdma_mode := dma_mode_t.DMA_NORMAL
    enable_gpio := true
    htim_period :=
      u32_sub (pdata_three.tim_clock_rate / pdata_three.SOUND_RAMP_SMAPLE_RATE) 1
    dac_dma := some (sample_ptr.ramp, pdata_three.SOUND_RAMP_SMAPLE_COUNT)
    current_playing_data := sample_ptr.ramp
    current_playing_length := pdata_three.SOUND_RAMP_SMAPLE_COUNT
    target_sound_data := sample_ptr.caller buf_two
    target_sample_rate := 8000
    target_sound_length := 3
    sound_state := sound_state_t.SOUND_STATE_RAMPING_UP
    dma_it_tc := true } : driver_state) = s1 at h1
  have hlen1 : s1.ramp_data_buffer.length = 3 := by
    rw [← hs1]
    exact (compute_ramp_length _ _ _ _).trans (by decide)
  have h2 := callback_ramping_up_eq pdata_three s1 (by rw [← hs1]) (by rw [← hs1]; decide)
  generalize hs2 : ({ s1 with
    hdma_mode := dma_mode_t.DMA_CIRCULAR
    enable_gpio := true
    htim_period := u32_sub (pdata_three.tim_clock_rate / s1.target_sample_rate) 1
    dac_dma := some (s1.target_sound_data, s1.target_sound_length)
    current_playing_data := s1.target_sound_data
    current_playing_length := s1.target_sound_length
    dma_it_tc := false
    sound_state := sound_state_t.SOUND_STATE_PLAYING } : driver_state) = s2 at h2
  have hst2 : s2.sound_state = sound_state_t.SOUND_STATE_PLAYING := by rw [← hs2]
  have hlen2 : s2.ramp_data_buffer.length = 3 := by
    rw [← hs2]
    exact hlen1
  have hpos2 : current_position s2 3 = some 2 := by
    rw [← hs2, ← hs1]
    rfl
  have hrun := (run_events_cons pdata_three _ _ (sound_event.start buf_two 3 8000 0)
    [sound_event.completion] h1).trans
    ((run_events_cons pdata_three _ _ sound_event.completion [] h2).trans
      (run_events_nil _ _))
  have h3 := pbdrv_sound_start_eq pdata_three s2 buf_one 2 8000 3 1 2 (by decide)
    (by rw [if_neg (by rw [hst2]; decide)]; exact hpos2) (by decide)
  exact ⟨s2, _, hrun, hst2, hpos2, h3, compute_ramp_three_two_one _ hlen2⟩

/-- C10, as stated, fails: on a platform whose ramps have 3 samples, start on a buffer whose
first sample is `1` while the sample `2` is being served writes a ramp whose last cell is `0`:
it is `1` away from the end sample `1`, more than `|step| = |1 - 2| / 3`. The third sum is
rounded to a `float` just below `1`, which the store truncates. -/
theorem ramp_endpoints_counterexample :
    ∃ (s s' : driver_state) (last : Nat),
      run_events pdata_three (pbdrv_sound_init (power_on pdata_three))
        [sound_event.start buf_two 3 8000 0, sound_event.completion] = some s ∧
      s.sound_state = sound_state_t.SOUND_STATE_PLAYING ∧
      current_position s 3 = some 2 ∧
      buf_one.samples[0]? = some 1 ∧
      pbdrv_sound_start pdata_three s buf_one 2 8000 3 = some s' ∧
      s'.ramp_data_buffer[pdata_three.SOUND_RAMP_SMAPLE_COUNT - 1]? = some last ∧
      ¬ |(last : ℚ) - ((1 : Nat) : ℚ)| ≤
        |(((1 : Nat) : ℚ) - ((2 : Nat) : ℚ)) / (pdata_three.SOUND_RAMP_SMAPLE_COUNT : ℚ)| := by
  obtain ⟨s, s', hrun, hst, hpos, hstart, hramp⟩ := restart_example
  refine ⟨s, s', 0, hrun, hst, hpos, rfl, hstart, ?_, ?_⟩
  · rw [hramp]
    rfl
  · have h3 : (pdata_three.SOUND_RAMP_SMAPLE_COUNT : ℚ) = 3 := by
      show ((3 : Nat) : ℚ) = 3
      norm_num
    rw [h3]
    norm_num [abs_of_neg, abs_of_pos]

/-- C10, amended: the ramp buffer written by `pbdrv_sound_start` and by `pbdrv_sound_stop` has
exactly `SOUND_RAMP_SMAPLE_COUNT` cells; for 16-bit samples the first cell lies on the side of
the start sample `v` toward the end sample `e` (at least `v` when `v ≤ e`, at most `v` when
`e ≤ v`); when the count is at most 256 the last cell is `e` or `e - 1`, so it differs from
`e` by at most `1`; when the count is a power of two up to 256 the last cell is `e`. In start
`e` is `data[0]`; in stop `e` is `0` and, for a count of at most 256, the last cell is `0`. -/
theorem ramp_endpoints (pdata : platform_data) (s : driver_state) (data : caller_buffer)
    (length sample_rate dma_counter : Nat)
    (hdata : data.samples ≠ [])
    (h16 : ∀ x ∈ data.samples, x < 65536)
    (hlive : ∀ v, current_position s dma_counter = some v → v < 65536)
    (hcount : 0 < pdata.SOUND_RAMP_SMAPLE_COUNT)
    (hrate : 0 < pdata.SOUND_RAMP_SMAPLE_RATE)
    (hlen : s.ramp_data_buffer.length = pdata.SOUND_RAMP_SMAPLE_COUNT)
    (hsafe : s.sound_state = sound_state_t.SOUND_STATE_STOPPED ∨ active_in_bounds s) :
    (∃ (s' : driver_state) (v e first last : Nat), data.samples[0]? = some e ∧
      (s.sound_state = sound_state_t.SOUND_STATE_STOPPED → v = 0) ∧
      (s.sound_state ≠ sound_state_t.SOUND_STATE_STOPPED →
        current_position s dma_counter = some v) ∧
      pbdrv_sound_start pdata s data length sample_rate dma_counter = some s' ∧
      s'.ramp_data_buffer.length = pdata.SOUND_RAMP_SMAPLE_COUNT ∧
      s'.ramp_data_buffer[0]? = some first ∧
      s'.ramp_data_buffer[pdata.SOUND_RAMP_SMAPLE_COUNT - 1]? = some last ∧
      (v ≤ e → v ≤ first) ∧ (e ≤ v → first ≤ v) ∧
      (pdata.SOUND_RAMP_SMAPLE_COUNT ≤ 256 →
        e - 1 ≤ last ∧ last ≤ e ∧ |(last : ℚ) - (e : ℚ)| ≤ 1) ∧
      (∀ k : Nat, pdata.SOUND_RAMP_SMAPLE_COUNT = 2 ^ k → k ≤ 8 → last = e)) ∧
    (s.sound_state ≠ sound_state_t.SOUND_STATE_STOPPED →
      ∃ (s' : driver_state) (v first last : Nat), current_position s dma_counter = some v ∧
        pbdrv_sound_stop pdata s dma_counter = some s' ∧
        s'.ramp_data_buffer.length = pdata.SOUND_RAMP_SMAPLE_COUNT ∧
        s'.ramp_data_buffer[0]? = some first ∧
        s'.ramp_data_buffer[pdata.SOUND_RAMP_SMAPLE_COUNT - 1]? = some last ∧
        first ≤ v ∧
        (pdata.SOUND_RAMP_SMAPLE_COUNT ≤ 256 → last = 0)) := by
  constructor
  · obtain ⟨s', v, e, he, hv0, hv, hstart, hramp⟩ :=
      start_ramp pdata s data length sample_rate dma_counter hdata hrate hsafe
    have he16 : e < 65536 := h16 e (List.getElem?_mem he)
    have hv16 : v < 65536 := by
      by_cases hs : s.sound_state = sound_state_t.SOUND_STATE_STOPPED
      · rw [hv0 hs]
        decide
      · exact hlive v (hv hs)
    obtain ⟨first, hfirst, hup, hdown⟩ :=
      compute_ramp_first _ v e s.ramp_data_buffer hcount hv16 he16 hlen
    have hl : (compute_ramp pdata.SOUND_RAMP_SMAPLE_COUNT v e s.ramp_data_buffer).length =
        pdata.SOUND_RAMP_SMAPLE_COUNT := (compute_ramp_length _ _ _ _).trans hlen
    obtain ⟨last, hlast⟩ : ∃ last, (compute_ramp pdata.SOUND_RAMP_SMAPLE_COUNT v e
        s.ramp_data_buffer)[pdata.SOUND_RAMP_SMAPLE_COUNT - 1]? = some last :=
      ⟨_, List.getElem?_eq_getElem (by omega)⟩
    refine ⟨s', v, e, first, last, he, hv0, hv, hstart, ?_, ?_, ?_, hup, hdown, ?_, ?_⟩
    · rw [hramp]
      exact hl
    · rw [hramp]
      exact hfirst
    · rw [hramp]
      exact hlast
    · intro hN
      obtain ⟨last', hlast', h1, h2⟩ :=
        compute_ramp_last _ v e s.ramp_data_buffer hcount hN hv16 he16 hlen
      have hll : last' = last := by
        rw [hlast] at hlast'
        exact (Option.some.inj hlast').symm
      subst hll
      refine ⟨h1, h2, ?_⟩
      have h3 : (last' : ℚ) ≤ (e : ℚ) := by exact_mod_cast h2
      have h4 : (e : ℚ) ≤ (last' : ℚ) + 1 := by
        have : e ≤ last' + 1 := by omega
        exact_mod_cast this
      rw [abs_le]
      constructor <;> linarith
    · intro k hk hk8
      have h := (compute_ramp_exact_range k _ v e s.ramp_data_buffer hk hk8 hv16 he16 hlen).1
      rw [hlast] at h
      exact Option.some.inj h
  · intro hs
    obtain ⟨s', v, hv, hstop, hramp⟩ :=
      stop_ramp pdata s dma_counter hs hrate (hsafe.resolve_left hs)
    have hv16 : v < 65536 := hlive v hv
    obtain ⟨first, hfirst, _, hdown⟩ :=
      compute_ramp_first _ v 0 s.ramp_data_buffer hcount hv16 (by decide) hlen
    have hl : (compute_ramp pdata.SOUND_RAMP_SMAPLE_COUNT v 0 s.ramp_data_buffer).length =
        pdata.SOUND_RAMP_SMAPLE_COUNT := (compute_ramp_length _ _ _ _).trans hlen
    obtain ⟨last, hlast⟩ : ∃ last, (compute_ramp pdata.SOUND_RAMP_SMAPLE_COUNT v 0
        s.ramp_data_buffer)[pdata.SOUND_RAMP_SMAPLE_COUNT - 1]? = some last :=
      ⟨_, List.getElem?_eq_getElem (by omega)⟩
    refine ⟨s', v, first, last, hv, hstop, ?_, ?_, ?_, hdown (Nat.zero_le v), ?_⟩
    · rw [hramp]
      exact hl
    · rw [hramp]
      exact hfirst
    · rw [hramp]
      exact hlast
    · intro hN
      obtain ⟨last', hlast', _, h2⟩ :=
        compute_ramp_last _ v 0 s.ramp_data_buffer hcount hN hv16 (by decide) hlen
      rw [hlast] at hlast'
      have hll : last = last' := Option.some.inj hlast'
      omega

/-- C10, amended, at a concrete input: while `buf_a` is playing, `pbdrv_sound_start` on
`buf_b` writes a ramp of four cells whose last cell is `buf_b[0]`. -/
theorem ramp_endpoints_witness :
    ∃ (s' : driver_state) (e last : Nat), buf_b.samples[0]? = some e ∧
      pbdrv_sound_start pdata_example playing_example buf_b 2 16000 1 = some s' ∧
      s'.ramp_data_buffer.length = 4 ∧
      s'.ramp_data_buffer[3]? = some last ∧
      last = e := by
  have hpos : current_position playing_example 1 = some 3000 := by decide
  obtain ⟨s', _, e, _, last, he, _, _, hstart, hlen, _, hlast, _, _, _, hend⟩ :=
    (ramp_endpoints pdata_example playing_example buf_b 2 16000 1
      (by decide) (by decide)
      (fun v hv => by
        rw [hpos] at hv
        rw [← Option.some.inj hv]
        decide)
      (by decide) (by decide) (by decide) (Or.inr (by decide))).1
  exact ⟨s', e, last, he, hstart, hlen, hlast, hend 2 (by decide) (by decide)⟩

/-- C20, as stated, fails: on a platform whose ramps have 3 samples, start on a buffer whose
first sample is `1` while the sample `2` is being served writes a ramp whose last cell is `0`,
below `min 2 1`. The third sum is rounded to a `float` just below `1`, which the store
truncates. -/
theorem ramp_no_overshoot_counterexample :
    ∃ (s s' : driver_state) (x : Nat),
      run_events pdata_three (pbdrv_sound_init (power_on pdata_three))
        [sound_event.start buf_two 3 8000 0, sound_event.completion] = some s ∧
      s.sound_state = sound_state_t.SOUND_STATE_PLAYING ∧
      current_position s 3 = some 2 ∧
      buf_one.samples[0]? = some 1 ∧
      pbdrv_sound_start pdata_three s buf_one 2 8000 3 = some s' ∧
      s'.ramp_data_buffer[2]? = some x ∧
      ¬ min 2 1 ≤ x := by
  obtain ⟨s, s', hrun, hst, hpos, hstart, hramp⟩ := restart_example
  refine ⟨s, s', 0, hrun, hst, hpos, rfl, hstart, ?_, by decide⟩
  rw [hramp]
  rfl

/-- C20, amended: for a count of at most 256 and 16-bit start sample `v` and end sample `e`,
the ramp written by `pbdrv_sound_start` and by `pbdrv_sound_stop` is monotone (non-decreasing
when `v ≤ e`, non-increasing when `e ≤ v`); every cell of an ascending ramp lies between `v`
and `e`; every cell of a descending ramp is at most `v` and at least `e - 1` (`0` when `e` is
`0`); every value
converted on the store is above `-1` and below `65536`, so the conversion does not wrap. When
the count is a power of two every cell lies between `min v e` and `max v e`. In start `e` is
`data[0]` and `v` is `0` in the stopped state and the sample being served otherwise; in stop
`e` is `0`, and every cell lies between `0` and `v`. -/
theorem ramp_no_overshoot (pdata : platform_data) (s : driver_state) (data : caller_buffer)
    (length sample_rate dma_counter : Nat)
    (hdata : data.samples ≠ [])
    (h16 : ∀ x ∈ data.samples, x < 65536)
    (hlive : ∀ v, current_position s dma_counter = some v → v < 65536)
    (hcount : 0 < pdata.SOUND_RAMP_SMAPLE_COUNT)
    (hN : pdata.SOUND_RAMP_SMAPLE_COUNT ≤ 256)
    (hrate : 0 < pdata.SOUND_RAMP_SMAPLE_RATE)
    (hlen : s.ramp_data_buffer.length = pdata.SOUND_RAMP_SMAPLE_COUNT)
    (hsafe : s.sound_state = sound_state_t.SOUND_STATE_STOPPED ∨ active_in_bounds s) :
    (∃ (s' : driver_state) (v e : Nat), data.samples[0]? = some e ∧
      (s.sound_state = sound_state_t.SOUND_STATE_STOPPED → v = 0) ∧
      (s.sound_state ≠ sound_state_t.SOUND_STATE_STOPPED →
        current_position s dma_counter = some v) ∧
      pbdrv_sound_start pdata s data length sample_rate dma_counter = some s' ∧
      (∀ i : Nat, i < pdata.SOUND_RAMP_SMAPLE_COUNT →
        ∃ x : Nat, s'.ramp_data_buffer[i]? = some x ∧
          (v ≤ e → v ≤ x ∧ x ≤ e) ∧ (e ≤ v → e - 1 ≤ x ∧ x ≤ v) ∧
          x = float_to_uint16 (ramp_value (ramp_step pdata.SOUND_RAMP_SMAPLE_COUNT v e)
            (f32_round (v : ℚ)) (i + 1)) ∧
          -1 < ramp_value (ramp_step pdata.SOUND_RAMP_SMAPLE_COUNT v e)
            (f32_round (v : ℚ)) (i + 1) ∧
          ramp_value (ramp_step pdata.SOUND_RAMP_SMAPLE_COUNT v e)
            (f32_round (v : ℚ)) (i + 1) < 65536) ∧
      (∀ i j : Nat, i ≤ j → j < pdata.SOUND_RAMP_SMAPLE_COUNT →
        ∃ x y : Nat, s'.ramp_data_buffer[i]? = some x ∧ s'.ramp_data_buffer[j]? = some y ∧
          (v ≤ e → x ≤ y) ∧ (e ≤ v → y ≤ x)) ∧
      (∀ k : Nat, pdata.SOUND_RAMP_SMAPLE_COUNT = 2 ^ k →
        ∀ i : Nat, i < pdata.SOUND_RAMP_SMAPLE_COUNT →
          ∃ x : Nat, s'.ramp_data_buffer[i]? = some x ∧ min v e ≤ x ∧ x ≤ max v e)) ∧
    (s.sound_state ≠ sound_state_t.SOUND_STATE_STOPPED →
      ∃ (s' : driver_state) (v : Nat), current_position s dma_counter = some v ∧
        pbdrv_sound_stop pdata s dma_counter = some s' ∧
        (∀ i : Nat, i < pdata.SOUND_RAMP_SMAPLE_COUNT →
          ∃ x : Nat, s'.ramp_data_buffer[i]? = some x ∧ min v 0 ≤ x ∧ x ≤ max v 0 ∧
            x = float_to_uint16 (ramp_value (ramp_step pdata.SOUND_RAMP_SMAPLE_COUNT v 0)
              (f32_round (v : ℚ)) (i + 1)) ∧
            -1 < ramp_value (ramp_step pdata.SOUND_RAMP_SMAPLE_COUNT v 0)
              (f32_round (v : ℚ)) (i + 1) ∧
            ramp_value (ramp_step pdata.SOUND_RAMP_SMAPLE_COUNT v 0)
              (f32_round (v : ℚ)) (i + 1) < 65536) ∧
        (∀ i j : Nat, i ≤ j → j < pdata.SOUND_RAMP_SMAPLE_COUNT →
          ∃ x y : Nat, s'.ramp_data_buffer[i]? = some x ∧ s'.ramp_data_buffer[j]? = some y ∧
            y ≤ x)) := by
  constructor
  · obtain ⟨s', v, e, he, hv0, hv, hstart, hramp⟩ :=
      start_ramp pdata s data length sample_rate dma_counter hdata hrate hsafe
    have he16 : e < 65536 := h16 e (List.getElem?_mem he)
    have hv16 : v < 65536 := by
      by_cases hs : s.sound_state = sound_state_t.SOUND_STATE_STOPPED
      · rw [hv0 hs]
        decide
      · exact hlive v (hv hs)
    refine ⟨s', v, e, he, hv0, hv, hstart, ?_, ?_, ?_⟩
    · intro i hi
      rw [hramp]
      obtain ⟨x, hx, hup, hdown⟩ :=
        compute_ramp_cell_range _ v e s.ramp_data_buffer hcount hN hv16 he16 hlen i hi
      have hr := ramp_value_range _ v e hcount hN hv16 he16 (i + 1) (by omega)
      have hx' := compute_ramp_getElem? _ v e s.ramp_data_buffer hlen i hi
      rw [hx] at hx'
      exact ⟨x, hx, hup, hdown, Option.some.inj hx', hr.1, hr.2⟩
    · intro i j hij hj
      rw [hramp]
      exact compute_ramp_cells_mono _ v e s.ramp_data_buffer hcount hN hv16 he16 hlen i j hij hj
    · intro k hk i hi
      rw [hramp]
      have hk8 : k ≤ 8 := by
        by_contra hcon
        have h9 : 2 ^ 9 ≤ 2 ^ k := Nat.pow_le_pow_right (by norm_num) (by omega)
        omega
      exact (compute_ramp_exact_range k _ v e s.ramp_data_buffer hk hk8 hv16 he16 hlen).2 i hi
  · intro hs
    obtain ⟨s', v, hv, hstop, hramp⟩ :=
      stop_ramp pdata s dma_counter hs hrate (hsafe.resolve_left hs)
    have hv16 : v < 65536 := hlive v hv
    refine ⟨s', v, hv, hstop, ?_, ?_⟩
    · intro i hi
      rw [hramp]
      obtain ⟨x, hx, _, hdown⟩ :=
        compute_ramp_cell_range _ v 0 s.ramp_data_buffer hcount hN hv16 (by decide) hlen i hi
      have hr := ramp_value_range _ v 0 hcount hN hv16 (by decide) (i + 1) (by omega)
      have hx' := compute_ramp_getElem? _ v 0 s.ramp_data_buffer hlen i hi
      rw [hx] at hx'
      refine ⟨x, hx, ?_, ?_, Option.some.inj hx', hr.1, hr.2⟩
      · rw [Nat.min_zero]
        exact Nat.zero_le x
      · rw [Nat.max_zero]
        exact (hdown (Nat.zero_le v)).2
    · intro i j hij hj
      rw [hramp]
      obtain ⟨x, y, hx, hy, _, hdown⟩ :=
        compute_ramp_cells_mono _ v 0 s.ramp_data_buffer hcount hN hv16 (by decide) hlen
          i j hij hj
      exact ⟨x, y, hx, hy, hdown (Nat.zero_le v)⟩

/-- C20, amended, at a concrete input: `pbdrv_sound_stop` during the ramp up, the ramp down
starting from the cell `ramp_data_buffer[2] = 750`: the second cell of the new ramp is at most
the first, and both are at most `750`. -/
theorem ramp_no_overshoot_witness :
    ∃ (s' : driver_state) (x y : Nat),
      pbdrv_sound_stop pdata_example ramping_up_example 2 = some s' ∧
      s'.ramp_data_buffer[0]? = some x ∧ s'.ramp_data_buffer[1]? = some y ∧
      y ≤ x ∧ x ≤ 750 := by
  have hpos : current_position ramping_up_example 2 = some 750 := by decide
  obtain ⟨s', v, hv, hstop, hwithin, hmono⟩ :=
    (ramp_no_overshoot pdata_example ramping_up_example buf_b 2 16000 2
      (by decide) (by decide)
      (fun v hv => by
        rw [hpos] at hv
        rw [← Option.some.inj hv]
        decide)
      (by decide) (by decide) (by decide) (by decide) (Or.inr (by decide))).2 (by decide)
  have hv1 : v = 750 := by
    rw [hpos] at hv
    exact (Option.some.inj hv).symm
  subst hv1
  obtain ⟨x, y, hx, hy, hyx⟩ := hmono 0 1 (by decide) (by decide)
  obtain ⟨x', hx', _, hmax, _⟩ := hwithin 0 (by decide)
  have hxx : x' = x := by
    rw [hx] at hx'
    exact (Option.some.inj hx').symm
  subst hxx
  exact ⟨s', x', y, hstop, hx, hy, hyx, by simpa using hmax⟩

/-! ## The waveform generator in closed form -/

theorem f32_round_length_pos (length : Nat) (h : 0 < length) :
    0 < f32_round (length : ℚ) :=
  lt_of_lt_of_le (by norm_num) (one_le_f32_round_natCast length h)

theorem float_div_pos (a : ℚ) (length : Nat) (h : 0 < length) :
    float_div a (f32_round (length : ℚ)) = some (f32_round (a / f32_round (length : ℚ))) := by
  have : f32_round (length : ℚ) ≠ 0 := ne_of_gt (f32_round_length_pos length h)
  simp [float_div, this]

/-- With a wave type no case of the switch matches, the loop stores nothing. -/
theorem generate_loop_unmatched (cosf : ℚ → ℚ) (length wave_type volume : Nat)
    (hswitch : ∀ t, switch_wave_type cosf wave_type t volume = none)
    (n time_stamp : Nat) (data : List Nat) (hlength : 0 < length ∨ n = 0) :
    generate_loop cosf length wave_type volume n time_stamp data = some data := by
  induction n generalizing time_stamp with
  | zero => rfl
  | succ n ih =>
    have hl : 0 < length := by omega
    rw [generate_loop]
    simp only [Option.bind_eq_bind, bind, float_div_pos _ length hl, Option.some_bind, hswitch]
    exact ih (time_stamp + 1) (Or.inl hl)

/-- With a wave type whose case stores `f time`, the loop stores `f (phase j length)` in every
cell `j` it visits and leaves the other cells as they are. -/
theorem generate_loop_matched (cosf : ℚ → ℚ) (length wave_type volume : Nat) (f : ℚ → Nat)
    (hswitch : ∀ t, switch_wave_type cosf wave_type t volume = some (f t))
    (hlength : 0 < length)
    (n time_stamp : Nat) (data : List Nat) (hsize : time_stamp + n ≤ data.length) :
    ∃ out, generate_loop cosf length wave_type volume n time_stamp data = some out ∧
      out.length = data.length ∧
      ∀ j, out[j]? = if time_stamp ≤ j ∧ j < time_stamp + n then
        some (f (phase j length)) else data[j]? := by
  induction n generalizing time_stamp data with
  | zero =>
    refine ⟨data, rfl, rfl, fun j => ?_⟩
    have : ¬ (time_stamp ≤ j ∧ j < time_stamp + 0) := by omega
    rw [if_neg this]
  | succ n ih =>
    have hlt : time_stamp < data.length := by omega
    rw [generate_loop]
    simp only [Option.bind_eq_bind, bind, float_div_pos _ length hlength, Option.some_bind,
      hswitch, if_pos hlt]
    obtain ⟨out, hout, hlen, hget⟩ := ih (time_stamp + 1)
      (data.set time_stamp (f (phase time_stamp length)))
      (by rw [List.length_set]; omega)
    refine ⟨out, hout, by rw [hlen, List.length_set], fun j => ?_⟩
    rw [hget j, List.getElem?_set]
    by_cases hj : time_stamp = j
    · subst hj
      have h1 : ¬ (time_stamp + 1 ≤ time_stamp ∧ time_stamp < time_stamp + 1 + n) := by omega
      have h2 : time_stamp ≤ time_stamp ∧ time_stamp < time_stamp + (n + 1) := by omega
      rw [if_neg h1, if_pos rfl, if_pos hlt, if_pos h2]
    · rw [if_neg hj]
      by_cases hc : time_stamp + 1 ≤ j ∧ j < time_stamp + 1 + n
      · have h2 : time_stamp ≤ j ∧ j < time_stamp + (n + 1) := by omega
        rw [if_pos hc, if_pos h2]
      · have h2 : ¬ (time_stamp ≤ j ∧ j < time_stamp + (n + 1)) := by omega
        rw [if_neg hc, if_neg h2]

/-- The generator on a wave type whose case stores `f time`. -/
theorem generate_matched (cosf : ℚ → ℚ) (data : List Nat) (length wave_type volume : Nat)
    (f : ℚ → Nat)
    (hswitch : ∀ t, switch_wave_type cosf wave_type t volume = some (f t))
    (hlength : 0 < length) (hsize : length ≤ data.length) :
    ∃ out, pbio_sound_generate_wave cosf data length wave_type volume =
        some (pbio_error_t.PBIO_SUCCESS, out) ∧
      out.length = data.length ∧
      (∀ j, j < length → out[j]? = some (f (phase j length))) ∧
      (∀ j, length ≤ j → out[j]? = data[j]?) := by
  obtain ⟨out, hout, hlen, hget⟩ := generate_loop_matched cosf length wave_type volume f
    hswitch hlength length 0 data (by omega)
  refine ⟨out, ?_, hlen, fun j hj => ?_, fun j hj => ?_⟩
  · unfold pbio_sound_generate_wave
    simp only [Option.bind_eq_bind, bind, hout, Option.some_bind]
  · rw [hget j, if_pos (by omega)]
  · rw [hget j, if_neg (by omega)]

theorem switch_wave_type_saw (cosf : ℚ → ℚ) (volume : Nat) (t : ℚ) :
    switch_wave_type cosf PBIO_SOUND_WAVE_TYPE_SAW t volume =
      some (float_to_uint16
        (f32_round (get_saw_value_at_time t * f32_round (volume : ℚ)))) := by
  simp [switch_wave_type, PBIO_SOUND_WAVE_TYPE_SAW, PBIO_SOUND_WAVE_TYPE_SINE,
    PBIO_SOUND_WAVE_TYPE_TRIANGLE]

theorem switch_wave_type_square (cosf : ℚ → ℚ) (volume : Nat) (t : ℚ) :
    switch_wave_type cosf PBIO_SOUND_WAVE_TYPE_SQUARE t volume =
      some (float_to_uint16
        (f32_round (get_square_value_at_time t * f32_round (volume : ℚ)))) := by
  simp [switch_wave_type, PBIO_SOUND_WAVE_TYPE_SAW, PBIO_SOUND_WAVE_TYPE_SINE,
    PBIO_SOUND_WAVE_TYPE_TRIANGLE, PBIO_SOUND_WAVE_TYPE_SQUARE]

theorem switch_wave_type_triangle (cosf : ℚ → ℚ) (volume : Nat) (t : ℚ) :
    switch_wave_type cosf PBIO_SOUND_WAVE_TYPE_TRIANGLE t volume =
      some (float_to_uint16
        (f32_round (get_triangle_value_at_time t * f32_round (volume : ℚ)))) := by
  simp [switch_wave_type, PBIO_SOUND_WAVE_TYPE_SINE, PBIO_SOUND_WAVE_TYPE_TRIANGLE]

theorem switch_wave_type_sine (cosf : ℚ → ℚ) (volume : Nat) (t : ℚ) :
    switch_wave_type cosf PBIO_SOUND_WAVE_TYPE_SINE t volume =
      some (float_to_uint16
        (f32_round (get_sin_value_at_time cosf t * f32_round (volume : ℚ)))) := by
  simp [switch_wave_type]

theorem switch_wave_type_other (cosf : ℚ → ℚ) (wave_type volume : Nat) (t : ℚ)
    (h : 4 ≤ wave_type) : switch_wave_type cosf wave_type t volume = none := by
  have h0 : wave_type ≠ PBIO_SOUND_WAVE_TYPE_SINE := by
    unfold PBIO_SOUND_WAVE_TYPE_SINE
    omega
  have h1 : wave_type ≠ PBIO_SOUND_WAVE_TYPE_TRIANGLE := by
    unfold PBIO_SOUND_WAVE_TYPE_TRIANGLE
    omega
  have h2 : wave_type ≠ PBIO_SOUND_WAVE_TYPE_SAW := by
    unfold PBIO_SOUND_WAVE_TYPE_SAW
    omega
  have h3 : wave_type ≠ PBIO_SOUND_WAVE_TYPE_SQUARE := by
    unfold PBIO_SOUND_WAVE_TYPE_SQUARE
    omega
  simp [switch_wave_type, h0, h1, h2, h3]

/-- The truncation of `j * volume / length` computed exactly is the quotient of the natural
numbers. -/
theorem float_to_uint16_ratio (j length volume : Nat) (hj : j ≤ length) (hlength : 0 < length)
    (hvolume : volume < 65536) :
    float_to_uint16 ((j : ℚ) / (length : ℚ) * (volume : ℚ)) = j * volume / length := by
  have hq : (j : ℚ) / (length : ℚ) * (volume : ℚ) = ((j * volume : Nat) : ℚ) / (length : ℚ) := by
    push_cast
    ring
  rw [hq, float_to_uint16_of_nonneg _ (by positivity), Rat.floor_natCast_div_natCast]
  have hle : j * volume / length ≤ volume := by
    apply Nat.div_le_of_le_mul
    exact Nat.mul_le_mul_right volume hj
  have hcast : ((j * volume : Nat) : ℤ) / (length : ℤ) = ((j * volume / length : Nat) : ℤ) := by
    norm_cast
  rw [hcast, Int.toNat_natCast]
  exact Nat.mod_eq_of_lt (by omega)

/-! ## The waveforms -/

theorem float_to_uint16_half (volume : Nat) (hvolume : volume < 65536) :
    float_to_uint16 (1 / 2 * (volume : ℚ)) = volume / 2 := by
  have h := float_to_uint16_ratio 1 2 volume (by decide) (by decide) hvolume
  simpa using h

theorem f32_round_natCast_le (n : Nat) (hn : n ≤ 2 ^ 24) : f32_round (n : ℚ) = (n : ℚ) := by
  rcases Nat.eq_or_lt_of_le hn with h | h
  · rw [h]
    have := f32_round_exact 1 24 (by norm_num) (by norm_num)
    norm_num at this ⊢
    exact this
  · exact f32_round_natCast n h

/-- The phase for a length up to `2 ^ 24`: the conversions are exact, the quotient is
rounded. -/
theorem phase_eq (i length : Nat) (hi : i < length) (hmax : length ≤ 2 ^ 24) :
    phase i length = f32_round ((i : ℚ) / (length : ℚ)) := by
  unfold phase
  rw [f32_round_natCast i (by omega), f32_round_natCast_le length hmax]

/-- The phase lies between `0` and `1`, both included. -/
theorem phase_unit (i length : Nat) (hi : i < length) :
    0 ≤ phase i length ∧ phase i length ≤ 1 := by
  unfold phase
  have hl := f32_round_length_pos length (by omega)
  have hi0 : 0 ≤ f32_round (i : ℚ) := f32_round_nonneg _ (Nat.cast_nonneg i)
  have hil : f32_round (i : ℚ) ≤ f32_round (length : ℚ) :=
    f32_round_mono _ _ (by exact_mod_cast hi.le)
  exact f32_round_unit _ (div_nonneg hi0 hl.le) ((div_le_one hl).mpr hil)

/-- For a length that is a power of two up to `2 ^ 24` the phase is computed exactly. -/
theorem phase_exact (k i length : Nat) (hlength : length = 2 ^ k) (hk : k ≤ 24)
    (hi : i < length) : phase i length = (i : ℚ) / (length : ℚ) := by
  have hmax : length ≤ 2 ^ 24 := by
    rw [hlength]
    exact Nat.pow_le_pow_right (by norm_num) hk
  rw [phase_eq i length hi hmax]
  have h := f32_round_exact (i : ℤ) (-(k : ℤ))
    (by rw [abs_of_nonneg (Int.natCast_nonneg i)]; exact_mod_cast (by omega : i < 2 ^ 24))
    (by omega)
  have e1 : (i : ℚ) / (length : ℚ) = ((i : ℤ) : ℚ) * 2 ^ (-(k : ℤ)) := by
    rw [hlength, zpow_neg, zpow_natCast]
    push_cast
    rw [div_eq_mul_inv]
  rw [e1]
  exact h

/-- The product of a sawtooth sample for a length that is a power of two up to 256 is
computed exactly. -/
theorem sawtooth_exact (k i length volume : Nat) (hlength : length = 2 ^ k) (hk : k ≤ 8)
    (hi : i < length) (hvolume : volume < 65536) :
    f32_round (phase i length * f32_round (volume : ℚ)) =
      (i : ℚ) / (length : ℚ) * (volume : ℚ) := by
  have hpow : (2 : Nat) ^ k ≤ 2 ^ 8 := Nat.pow_le_pow_right (by norm_num) hk
  rw [phase_exact k i length hlength (by omega) hi, f32_round_natCast volume (by omega)]
  have hprod : i * volume < 2 ^ 24 := by
    have h1 : i * volume ≤ 255 * 65535 := Nat.mul_le_mul (by omega) (by omega)
    omega
  have h := f32_round_exact ((i * volume : Nat) : ℤ) (-(k : ℤ))
    (by rw [abs_of_nonneg (Int.natCast_nonneg _)]; exact_mod_cast hprod) (by omega)
  have e1 : (i : ℚ) / (length : ℚ) * (volume : ℚ) =
      (((i * volume : Nat) : ℤ) : ℚ) * 2 ^ (-(k : ℤ)) := by
    rw [hlength, zpow_neg, zpow_natCast]
    push_cast
    field_simp
  rw [e1]
  exact h

/-- For a length up to `2 ^ 24` and a 16-bit amplitude the product of a sawtooth sample
differs from the exact `i / length * volume` by at most `1 / 256`, and lies between `0` and
the amplitude. -/
theorem sawtooth_error (i length volume : Nat) (hi : i < length) (hmax : length ≤ 2 ^ 24)
    (hvolume : volume < 65536) :
    |f32_round (phase i length * f32_round (volume : ℚ)) -
        (i : ℚ) / (length : ℚ) * (volume : ℚ)| ≤ 1 / 256 ∧
      0 ≤ f32_round (phase i length * f32_round (volume : ℚ)) ∧
      f32_round (phase i length * f32_round (volume : ℚ)) ≤ (volume : ℚ) := by
  have hl0 : (0 : ℚ) < (length : ℚ) := by
    have : 0 < length := by omega
    exact_mod_cast this
  have hv0 : (0 : ℚ) ≤ (volume : ℚ) := Nat.cast_nonneg volume
  have hv1 : (volume : ℚ) ≤ 65535 := by exact_mod_cast (by omega : volume ≤ 65535)
  have hq0 : (0 : ℚ) ≤ (i : ℚ) / (length : ℚ) := by positivity
  have hq1 : (i : ℚ) / (length : ℚ) < 1 := by
    rw [div_lt_one hl0]
    exact_mod_cast hi
  obtain ⟨hp0, hp1⟩ := phase_unit i length hi
  have hfv := f32_round_natCast volume (by omega)
  rw [hfv]
  have hprod0 : 0 ≤ phase i length * (volume : ℚ) := mul_nonneg hp0 hv0
  have hprod1 : phase i length * (volume : ℚ) ≤ (volume : ℚ) := mul_le_of_le_one_left hv0 hp1
  have hr0 := f32_round_nonneg _ hprod0
  have hr1 := f32_round_mono _ _ hprod1
  rw [hfv] at hr1
  refine ⟨?_, hr0, hr1⟩
  have herr1 : |phase i length - (i : ℚ) / (length : ℚ)| ≤ 1 / 33554432 := by
    rw [phase_eq i length hi hmax]
    have h := f32_round_error_lt ((i : ℚ) / (length : ℚ)) 0
      (by rw [abs_of_nonneg hq0]; simpa using hq1) (by norm_num)
    have e : (2 : ℚ) ^ ((0 : ℤ) - 25) = 1 / 33554432 := by norm_num
    rw [e] at h
    exact h
  have herr2 : |f32_round (phase i length * (volume : ℚ)) - phase i length * (volume : ℚ)| ≤
      1 / 512 := by
    have h := f32_round_error_lt (phase i length * (volume : ℚ)) 16
      (by
        rw [abs_of_nonneg hprod0]
        have e : (2 : ℚ) ^ (16 : ℤ) = 65536 := by norm_num
        rw [e]
        linarith) (by norm_num)
    have e : (2 : ℚ) ^ ((16 : ℤ) - 25) = 1 / 512 := by norm_num
    rw [e] at h
    exact h
  have e3 : f32_round (phase i length * (volume : ℚ)) - (i : ℚ) / (length : ℚ) * (volume : ℚ) =
      (f32_round (phase i length * (volume : ℚ)) - phase i length * (volume : ℚ)) +
      (phase i length - (i : ℚ) / (length : ℚ)) * (volume : ℚ) := by ring
  rw [e3]
  refine le_trans (abs_add _ _) ?_
  have h4 : |(phase i length - (i : ℚ) / (length : ℚ)) * (volume : ℚ)| ≤ 1 / 512 := by
    rw [abs_mul, abs_of_nonneg hv0]
    have := mul_le_mul herr1 hv1 hv0 (by norm_num : (0 : ℚ) ≤ 1 / 33554432)
    refine le_trans this ?_
    norm_num
  linarith

/-- The phase for the length `12` at time stamp `7`, and the sawtooth product for the
amplitude `108`: the quotient `7 / 12` and the product are both rounded down. -/
theorem sawtooth_example_value :
    f32_round (phase 7 12 * f32_round ((108 : Nat) : ℚ)) = 16515071 / 262144 := by
  have hphase : phase 7 12 = 9786709 / 16777216 := by
    rw [phase_eq 7 12 (by norm_num) (by norm_num)]
    have h := f32_round_eval (7 / 12) (-1) 9786709 (by norm_num [abs_of_pos])
      (by norm_num [abs_of_pos]) (by norm_num) (Or.inl (by norm_num [abs_lt]))
    norm_num at h ⊢
    exact h
  rw [hphase, f32_round_natCast 108 (by norm_num)]
  have h := f32_round_eval (9786709 / 16777216 * 108) 5 16515071 (by norm_num [abs_of_pos])
    (by norm_num [abs_of_pos]) (by norm_num) (Or.inl (by norm_num [abs_lt]))
  norm_num at h ⊢
  exact h

/-- C14, as stated, fails: with length `12` and amplitude `108` the sawtooth sample written
at index `7` is `62`, where `floor(7 * 108 / 12)` is `63`. The phase `7 / 12` is rounded to
`float`, and so is its product with the amplitude, which falls below `63`. -/
theorem sawtooth_samples_counterexample :
    ∃ out, pbio_sound_generate_wave cosf_example (List.replicate 12 0) 12
        PBIO_SOUND_WAVE_TYPE_SAW 108 = some (pbio_error_t.PBIO_SUCCESS, out) ∧
      out[7]? = some 62 ∧
      7 * 108 / 12 = 63 ∧
      ⌊((7 : Nat) : ℚ) / ((12 : Nat) : ℚ) * ((108 : Nat) : ℚ)⌋ = 63 := by
  obtain ⟨out, hout, _, hin, _⟩ := generate_matched cosf_example (List.replicate 12 0) 12
    PBIO_SOUND_WAVE_TYPE_SAW 108 _ (switch_wave_type_saw cosf_example 108) (by norm_num)
    (by simp)
  refine ⟨out, hout, ?_, by norm_num, ?_⟩
  · rw [hin 7 (by norm_num)]
    unfold get_saw_value_at_time
    rw [sawtooth_example_value,
      float_to_uint16_eq _ 62 (by norm_num) (by norm_num) (by norm_num)]
  · rw [Int.floor_eq_iff]
    constructor <;> norm_num

/-- C14, amended: for `length ≥ 1` (the length of the buffer), a 16-bit amplitude `volume`
and every `i < length`, `pbio_sound_generate_wave` with the sawtooth wave type returns success
and writes in `data[i]` the truncation of the product of the phase and the amplitude, where
the conversions of `time_stamp`, `length` and `volume`, the quotient and the product are
rounded to binary32; the cells from `length` on are not written. When `length` is a power of
two up to 256 no operation rounds and `data[i] = i * volume / length`, the floor of the exact
phase times the amplitude. When `length` is at most `2 ^ 24` the sample differs from
`i * volume / length` by at most `1`. -/
theorem sawtooth_samples (cosf : ℚ → ℚ) (data : List Nat) (length volume : Nat)
    (hlength : 1 ≤ length) (hsize : length ≤ data.length) (hvolume : volume < 65536) :
    ∃ out, pbio_sound_generate_wave cosf data length PBIO_SOUND_WAVE_TYPE_SAW volume =
        some (pbio_error_t.PBIO_SUCCESS, out) ∧
      out.length = data.length ∧
      (∀ i : Nat, i < length → out[i]? = some (float_to_uint16
        (f32_round (phase i length * f32_round (volume : ℚ))))) ∧
      (∀ k : Nat, length = 2 ^ k → k ≤ 8 →
        ∀ i : Nat, i < length → out[i]? = some (i * volume / length) ∧
          ((i * volume / length : Nat) : ℤ) = ⌊(i : ℚ) / (length : ℚ) * (volume : ℚ)⌋) ∧
      (length ≤ 2 ^ 24 →
        ∀ i : Nat, i < length → ∃ x : Nat, out[i]? = some x ∧
          x ≤ i * volume / length + 1 ∧ i * volume / length ≤ x + 1 ∧ x ≤ volume) ∧
      (∀ i : Nat, length ≤ i → out[i]? = data[i]?) := by
  obtain ⟨out, hout, hlen, hin, hrest⟩ := generate_matched cosf data length
    PBIO_SOUND_WAVE_TYPE_SAW volume _ (switch_wave_type_saw cosf volume) hlength hsize
  have hcell : ∀ i : Nat, i < length → out[i]? = some (float_to_uint16
      (f32_round (phase i length * f32_round (volume : ℚ)))) := by
    intro i hi
    rw [hin i hi]
    rfl
  refine ⟨out, hout, hlen, hcell, ?_, ?_, hrest⟩
  · intro k hk hk8 i hi
    constructor
    · rw [hcell i hi, sawtooth_exact k i length volume hk hk8 hi hvolume,
        float_to_uint16_ratio i length volume (by omega) hlength hvolume]
    · have hq : (i : ℚ) / (length : ℚ) * (volume : ℚ) =
          ((i * volume : Nat) : ℚ) / (length : ℚ) := by
        push_cast
        ring
      rw [hq, Rat.floor_natCast_div_natCast]
      norm_cast
  · intro hmax i hi
    obtain ⟨herr, h0, h1⟩ := sawtooth_error i length volume hi hmax hvolume
    have hv1 : (volume : ℚ) < 65536 := by exact_mod_cast hvolume
    have hl0 : (0 : ℚ) < (length : ℚ) := by exact_mod_cast hlength
    have hq0 : (0 : ℚ) ≤ (i : ℚ) / (length : ℚ) * (volume : ℚ) := by positivity
    have hq1 : (i : ℚ) / (length : ℚ) * (volume : ℚ) ≤ (volume : ℚ) := by
      apply mul_le_of_le_one_left (Nat.cast_nonneg volume)
      rw [div_le_one hl0]
      exact_mod_cast hi.le
    have hnear := float_to_uint16_near _ _ (by linarith) (by linarith) hq0 (by linarith)
      (lt_of_le_of_lt herr (by norm_num))
    rw [float_to_uint16_ratio i length volume (by omega) hlength hvolume] at hnear
    exact ⟨_, hcell i hi, hnear.1, hnear.2, float_to_uint16_le _ volume h0 h1⟩

/-- C14, amended, at the input of the scenario: length `4` and amplitude `4000` yield
`[0, 1000, 2000, 3000]`. -/
theorem sawtooth_samples_witness :
    pbio_sound_generate_wave cosf_example [0, 0, 0, 0] 4 PBIO_SOUND_WAVE_TYPE_SAW 4000 =
      some (pbio_error_t.PBIO_SUCCESS, [0, 1000, 2000, 3000]) := by
  obtain ⟨out, hout, hlen, _, hexact, _⟩ := sawtooth_samples cosf_example [0, 0, 0, 0] 4 4000
    (by decide) (by decide) (by decide)
  have hin := hexact 2 (by decide) (by decide)
  have hlist : out = [0, 1000, 2000, 3000] := by
    apply List.ext_getElem?
    intro i
    by_cases hi : i < 4
    · have h := (hin i hi).1
      interval_cases i <;> simpa using h
    · have h1 : out.length ≤ i := by
        rw [hlen]
        simp
        omega
      rw [List.getElem?_eq_none h1, List.getElem?_eq_none (by simp; omega)]
  rw [hout, hlist]

/-- For a length up to `2 ^ 24` the rounded phase is below, at or above one half exactly when
the exact phase is. -/
theorem phase_lt_half (i length : Nat) (hi : i < length) (hmax : length ≤ 2 ^ 24) :
    (phase i length < 1 / 2 ↔ 2 * i < length) ∧ (phase i length = 1 / 2 ↔ 2 * i = length) := by
  have hl0 : (0 : ℚ) < (length : ℚ) := by
    have : 0 < length := by omega
    exact_mod_cast this
  have hlmax : (length : ℚ) ≤ 16777216 := by exact_mod_cast hmax
  rw [phase_eq i length hi hmax]
  have hbelow : 2 * i < length → f32_round ((i : ℚ) / (length : ℚ)) < 1 / 2 := by
    intro h
    have hq : (i : ℚ) / (length : ℚ) ≤ 16777215 / 33554432 := by
      rw [div_le_div_iff₀ hl0 (by norm_num)]
      have h1 : (2 : ℚ) * (i : ℚ) + 1 ≤ (length : ℚ) := by exact_mod_cast h
      nlinarith
    have hm := f32_round_mono _ _ hq
    have hex := f32_round_exact 16777215 (-25) (by norm_num) (by norm_num)
    have e : ((16777215 : ℤ) : ℚ) * 2 ^ (-25 : ℤ) = 16777215 / 33554432 := by norm_num
    rw [e] at hex
    rw [hex] at hm
    exact lt_of_le_of_lt hm (by norm_num)
  have hhalf : 2 * i = length → f32_round ((i : ℚ) / (length : ℚ)) = 1 / 2 := by
    intro h
    have hq : (i : ℚ) / (length : ℚ) = 1 / 2 := by
      rw [div_eq_iff (ne_of_gt hl0)]
      have h1 : (2 : ℚ) * (i : ℚ) = (length : ℚ) := by exact_mod_cast h
      linarith
    rw [hq]
    have hex := f32_round_exact 1 (-1) (by norm_num) (by norm_num)
    have e : ((1 : ℤ) : ℚ) * 2 ^ (-1 : ℤ) = 1 / 2 := by norm_num
    rw [e] at hex
    exact hex
  have habove : length < 2 * i → 1 / 2 < f32_round ((i : ℚ) / (length : ℚ)) := by
    intro h
    have hq0 : (0 : ℚ) ≤ (i : ℚ) / (length : ℚ) := by positivity
    have hq1 : (i : ℚ) / (length : ℚ) < 1 := by
      rw [div_lt_one hl0]
      exact_mod_cast hi
    have hq : 1 / 2 + 1 / 33554432 < (i : ℚ) / (length : ℚ) := by
      rw [lt_div_iff₀ hl0]
      have h1 : length < (2 * i - length) * 16777216 := by omega
      have h2 : length ≤ 2 * i := by omega
      have h3 : ((length : ℚ)) < ((2 * i - length : Nat) : ℚ) * 16777216 := by
        exact_mod_cast h1
      rw [Nat.cast_sub h2] at h3
      push_cast at h3
      linarith
    have herr := f32_round_error_lt ((i : ℚ) / (length : ℚ)) 0
      (by rw [abs_of_nonneg hq0]; simpa using hq1) (by norm_num)
    have e : (2 : ℚ) ^ ((0 : ℤ) - 25) = 1 / 33554432 := by norm_num
    rw [e] at herr
    have := (abs_le.mp herr).1
    linarith
  constructor
  · constructor
    · intro h
      by_contra hc
      rcases Nat.lt_or_ge length (2 * i) with h2 | h2
      · linarith [habove h2]
      · have h3 : 2 * i = length := by omega
        rw [hhalf h3] at h
        exact lt_irrefl _ h
    · exact hbelow
  · constructor
    · intro h
      by_contra hc
      rcases Nat.lt_or_ge (2 * i) length with h2 | h2
      · have := hbelow h2
        rw [h] at this
        exact lt_irrefl _ this
      · have h3 : length < 2 * i := by omega
        have := habove h3
        rw [h] at this
        exact lt_irrefl _ this
    · exact hhalf

/-- The conversion of `2 ^ 25 + 1` to `float` rounds to `2 ^ 25`, so the phase of the time
stamp `2 ^ 24` for that length is one half. -/
theorem phase_example_half : phase (2 ^ 24) (2 ^ 25 + 1) = 1 / 2 := by
  unfold phase
  have h1 : f32_round (((2 ^ 24 : Nat) : ℚ)) = 16777216 := by
    have := f32_round_natCast_le (2 ^ 24) le_rfl
    norm_num at this ⊢
    exact this
  have h2 : f32_round (((2 ^ 25 + 1 : Nat) : ℚ)) = 33554432 := by
    have h := f32_round_eval 33554433 25 8388608 (by norm_num [abs_of_pos])
      (by norm_num [abs_of_pos]) (by norm_num) (Or.inl (by norm_num [abs_lt]))
    norm_num at h ⊢
    exact h
  rw [h1, h2]
  have hex := f32_round_exact 1 (-1) (by norm_num) (by norm_num)
  norm_num at hex ⊢
  exact hex

/-- C15, as stated, fails: with length `2 ^ 25 + 1` the conversion of the length to `float`
rounds to `2 ^ 25`, so at index `2 ^ 24`, where `2 * i < length`, the phase compares equal to
`0.5` and the square sample written is half the amplitude, not `0`. -/
theorem square_samples_counterexample :
    ∃ out, pbio_sound_generate_wave cosf_example (List.replicate (2 ^ 25 + 1) 0) (2 ^ 25 + 1)
        PBIO_SOUND_WAVE_TYPE_SQUARE 1000 = some (pbio_error_t.PBIO_SUCCESS, out) ∧
      2 * 2 ^ 24 < 2 ^ 25 + 1 ∧
      out[2 ^ 24]? = some 500 := by
  obtain ⟨out, hout, _, hin, _⟩ := generate_matched cosf_example
    (List.replicate (2 ^ 25 + 1) 0) (2 ^ 25 + 1)
    PBIO_SOUND_WAVE_TYPE_SQUARE 1000 _ (switch_wave_type_square cosf_example 1000)
    (by norm_num) (by rw [List.length_replicate])
  refine ⟨out, hout, by norm_num, ?_⟩
  rw [hin (2 ^ 24) (by norm_num), phase_example_half]
  unfold get_square_value_at_time
  rw [if_neg (lt_irrefl _), if_pos rfl, f32_round_natCast 1000 (by norm_num)]
  have hex : f32_round (1 / 2 * ((1000 : Nat) : ℚ)) = 500 := by
    have := f32_round_natCast 500 (by norm_num)
    norm_num at this ⊢
    exact this
  rw [hex, float_to_uint16_eq (500 : ℚ) 500 (by norm_num) (by norm_num) (by norm_num)]

/-- C15, amended: for `1 ≤ length ≤ 2 ^ 24` (the length of the buffer), a 16-bit amplitude
`volume` and every `i < length`, `pbio_sound_generate_wave` with the square wave type returns
success and writes `data[i] = 0` when `2 * i < length`, `volume / 2` (floor) when
`2 * i = length`, and `volume` when `2 * i > length`. -/
theorem square_samples (cosf : ℚ → ℚ) (data : List Nat) (length volume : Nat)
    (hlength : 1 ≤ length) (hmax : length ≤ 2 ^ 24) (hsize : length ≤ data.length)
    (hvolume : volume < 65536) :
    ∃ out, pbio_sound_generate_wave cosf data length PBIO_SOUND_WAVE_TYPE_SQUARE volume =
        some (pbio_error_t.PBIO_SUCCESS, out) ∧
      out.length = data.length ∧
      (∀ i, i < length → out[i]? =
        some (if 2 * i < length then 0 else if 2 * i = length then volume / 2 else volume)) := by
  obtain ⟨out, hout, hlen, hin, _⟩ := generate_matched cosf data length
    PBIO_SOUND_WAVE_TYPE_SQUARE volume _ (switch_wave_type_square cosf volume) hlength hsize
  refine ⟨out, hout, hlen, fun i hi => ?_⟩
  rw [hin i hi]
  obtain ⟨hlt, heq⟩ := phase_lt_half i length hi hmax
  have hfv := f32_round_natCast volume (by omega)
  unfold get_square_value_at_time
  by_cases h1 : 2 * i < length
  · rw [if_pos (hlt.mpr h1), if_pos h1, zero_mul, f32_round_zero]
    have := float_to_uint16_natCast 0
    simpa using this
  · rw [if_neg (fun h => h1 (hlt.mp h)), if_neg h1]
    by_cases h2 : 2 * i = length
    · rw [if_pos (heq.mpr h2), if_pos h2, hfv]
      have hex : f32_round (1 / 2 * (volume : ℚ)) = 1 / 2 * (volume : ℚ) := by
        have h := f32_round_exact (volume : ℤ) (-1)
          (by rw [abs_of_nonneg (Int.natCast_nonneg _)]; exact_mod_cast (by omega : volume < 2 ^ 24))
          (by norm_num)
        have e : ((volume : ℤ) : ℚ) * 2 ^ (-1 : ℤ) = 1 / 2 * (volume : ℚ) := by
          norm_num
          ring
        rw [e] at h
        exact h
      rw [hex, float_to_uint16_half volume hvolume]
    · rw [if_neg (fun h => h2 (heq.mp h)), if_neg h2, one_mul, hfv, hfv,
        float_to_uint16_natCast]
      rw [Nat.mod_eq_of_lt hvolume]

/-- C15, amended, at the input of the scenario: length `4` and amplitude `1000` yield
`[0, 0, 500, 1000]`. -/
theorem square_samples_witness :
    pbio_sound_generate_wave cosf_example [0, 0, 0, 0] 4 PBIO_SOUND_WAVE_TYPE_SQUARE 1000 =
      some (pbio_error_t.PBIO_SUCCESS, [0, 0, 500, 1000]) := by
  obtain ⟨out, hout, hlen, hin⟩ := square_samples cosf_example [0, 0, 0, 0] 4 1000
    (by decide) (by decide) (by decide) (by decide)
  have hlist : out = [0, 0, 500, 1000] := by
    apply List.ext_getElem?
    intro i
    by_cases hi : i < 4
    · have h := hin i hi
      interval_cases i <;> simpa using h
    · have h1 : out.length ≤ i := by
        rw [hlen]
        simp
        omega
      rw [List.getElem?_eq_none h1, List.getElem?_eq_none (by simp; omega)]
  rw [hout, hlist]

/-- The generator returns a status and a buffer whenever every store stays inside the buffer:
whatever the length, the division of the phase computation is not what makes it fail. -/
theorem generate_defined (cosf : ℚ → ℚ) (data : List Nat) (length wave_type volume : Nat)
    (hsize : wave_type < 4 → length ≤ data.length) :
    ∃ out, pbio_sound_generate_wave cosf data length wave_type volume =
        some (pbio_error_t.PBIO_SUCCESS, out) ∧
      out.length = data.length ∧
      (4 ≤ wave_type ∨ length = 0 → out = data) := by
  by_cases h0 : length = 0
  · refine ⟨data, ?_, rfl, fun _ => rfl⟩
    subst h0
    rfl
  · have hpos : 0 < length := Nat.pos_of_ne_zero h0
    by_cases h4 : 4 ≤ wave_type
    · refine ⟨data, ?_, rfl, fun _ => rfl⟩
      have h := generate_loop_unmatched cosf length wave_type volume
        (fun t => switch_wave_type_other cosf wave_type volume t h4) length 0 data (Or.inl hpos)
      unfold pbio_sound_generate_wave
      simp only [Option.bind_eq_bind, bind, h, Option.some_bind]
    · have hlt : wave_type < 4 := by omega
      have hle := hsize hlt
      have hnot : ¬ (4 ≤ wave_type ∨ length = 0) := by omega
      have hcases : wave_type = PBIO_SOUND_WAVE_TYPE_SINE ∨
          wave_type = PBIO_SOUND_WAVE_TYPE_TRIANGLE ∨
          wave_type = PBIO_SOUND_WAVE_TYPE_SAW ∨
          wave_type = PBIO_SOUND_WAVE_TYPE_SQUARE := by
        unfold PBIO_SOUND_WAVE_TYPE_SINE PBIO_SOUND_WAVE_TYPE_TRIANGLE
          PBIO_SOUND_WAVE_TYPE_SAW PBIO_SOUND_WAVE_TYPE_SQUARE
        omega
      rcases hcases with h | h | h | h
      · obtain ⟨out, hout, hlen, _⟩ := generate_matched cosf data length
          PBIO_SOUND_WAVE_TYPE_SINE volume _ (switch_wave_type_sine cosf volume) hpos hle
        exact ⟨out, by rw [h]; exact hout, hlen, fun hc => absurd hc hnot⟩
      · obtain ⟨out, hout, hlen, _⟩ := generate_matched cosf data length
          PBIO_SOUND_WAVE_TYPE_TRIANGLE volume _ (switch_wave_type_triangle cosf volume) hpos hle
        exact ⟨out, by rw [h]; exact hout, hlen, fun hc => absurd hc hnot⟩
      · obtain ⟨out, hout, hlen, _⟩ := generate_matched cosf data length
          PBIO_SOUND_WAVE_TYPE_SAW volume _ (switch_wave_type_saw cosf volume) hpos hle
        exact ⟨out, by rw [h]; exact hout, hlen, fun hc => absurd hc hnot⟩
      · obtain ⟨out, hout, hlen, _⟩ := generate_matched cosf data length
          PBIO_SOUND_WAVE_TYPE_SQUARE volume _ (switch_wave_type_square cosf volume) hpos hle
        exact ⟨out, by rw [h]; exact hout, hlen, fun hc => absurd hc hnot⟩

/-- C16, as stated, fails: the guarded division does fail on a zero divisor, but for no `cosf`,
buffer, wave type and amplitude does the generator fail on `length == 0`; on a concrete input
it returns success and leaves the buffer as it was. -/
theorem zero_length_counterexample :
    float_div 0 0 = none ∧
    (¬ ∃ (cosf : ℚ → ℚ) (data : List Nat) (wave_type volume : Nat),
      pbio_sound_generate_wave cosf data 0 wave_type volume = none) ∧
    pbio_sound_generate_wave cosf_example [7, 7] 0 PBIO_SOUND_WAVE_TYPE_SAW 1000 =
      some (pbio_error_t.PBIO_SUCCESS, [7, 7]) := by
  refine ⟨by simp [float_div], ?_, rfl⟩
  rintro ⟨cosf, data, wave_type, volume, h⟩
  have h2 : pbio_sound_generate_wave cosf data 0 wave_type volume =
      some (pbio_error_t.PBIO_SUCCESS, data) := rfl
  rw [h2] at h
  exact Option.noConfusion h

/-- C16, amended: with `length == 0` the loop of `pbio_sound_generate_wave` runs no iteration:
the phase `time_stamp / length` is not computed, no cell is written and success is returned.
The division is computed only inside the loop, where `length > time_stamp ≥ 0`: for any length
the generator fails only when a store falls outside the buffer, never on the division. -/
theorem zero_length_is_noop (cosf : ℚ → ℚ) (data : List Nat) (wave_type volume : Nat) :
    pbio_sound_generate_wave cosf data 0 wave_type volume =
        some (pbio_error_t.PBIO_SUCCESS, data) ∧
    (∀ length, pbio_sound_generate_wave cosf data length wave_type volume = none →
      wave_type < 4 ∧ data.length < length) := by
  refine ⟨rfl, fun length hnone => ?_⟩
  by_contra hc
  have hsize : wave_type < 4 → length ≤ data.length := by
    intro h
    by_contra h2
    exact hc ⟨h, by omega⟩
  obtain ⟨out, hout, _⟩ := generate_defined cosf data length wave_type volume hsize
  rw [hout] at hnone
  exact Option.noConfusion hnone

/-- C17: whenever `pbio_sound_generate_wave` returns, the status is success, for every buffer,
length, wave type and amplitude; and it does return, with success, on every buffer with at
least `length` cells when a case of the switch matches and on every buffer and length
otherwise; for every wave type outside sine, triangle, sawtooth and square (`wave_type ≥ 4`)
the buffer is left as it was in every cell. -/
theorem generate_always_succeeds (cosf : ℚ → ℚ) (data : List Nat)
    (length wave_type volume : Nat) :
    (∀ status out, pbio_sound_generate_wave cosf data length wave_type volume
        = some (status, out) → status = pbio_error_t.PBIO_SUCCESS) ∧
    ((wave_type < 4 → length ≤ data.length) →
      ∃ out, pbio_sound_generate_wave cosf data length wave_type volume =
          some (pbio_error_t.PBIO_SUCCESS, out) ∧
        out.length = data.length ∧
        (4 ≤ wave_type → out = data ∧ ∀ i : Nat, out[i]? = data[i]?)) := by
  constructor
  · intro status out h
    unfold pbio_sound_generate_wave at h
    simp only [Option.bind_eq_bind, bind] at h
    rw [Option.bind_eq_some] at h
    obtain ⟨d, _, hd⟩ := h
    exact (Prod.mk.inj (Option.some.inj hd)).1.symm
  · intro hsize
    obtain ⟨out, hout, hlen, hsame⟩ := generate_defined cosf data length wave_type volume hsize
    refine ⟨out, hout, hlen, fun h4 => ?_⟩
    have h := hsame (Or.inl h4)
    exact ⟨h, fun i => by rw [h]⟩

/-- C17, at a concrete input: wave type `9` and a length beyond the buffer: success is
returned and the buffer is unchanged. -/
theorem generate_always_succeeds_witness :
    pbio_sound_generate_wave cosf_example [7, 7] 5 9 1000 =
      some (pbio_error_t.PBIO_SUCCESS, [7, 7]) := by
  obtain ⟨out, hout, _, hsame⟩ := (generate_always_succeeds cosf_example [7, 7] 5 9 1000).2
    (fun h => absurd h (by decide))
  rw [hout, (hsame (by decide)).1]

/-! ## The range of the shapes and of the samples -/

/-- The sine shape lies between `0` and `1` when the value `cosf` returns lies between `-1`
and `1`. -/
theorem get_sin_value_unit (cosf : ℚ → ℚ) (t : ℚ)
    (hcos : -1 ≤ cosf (f32_round (f32_round (t * 2) * M_PI)) ∧
      cosf (f32_round (f32_round (t * 2) * M_PI)) ≤ 1) :
    0 ≤ get_sin_value_at_time cosf t ∧ get_sin_value_at_time cosf t ≤ 1 := by
  unfold get_sin_value_at_time
  obtain ⟨hlo, hhi⟩ := hcos
  have hhalf : f32_round (1 / 2) = 1 / 2 := by
    have hex := f32_round_exact 1 (-1) (by norm_num) (by norm_num)
    norm_num at hex ⊢
    exact hex
  have hnhalf : f32_round (-(1 / 2)) = -(1 / 2) := by
    rw [f32_round_neg, hhalf]
  have h1 := f32_round_mono (-(1 / 2)) (-cosf (f32_round (f32_round (t * 2) * M_PI)) / 2)
    (by linarith)
  have h2 := f32_round_mono (-cosf (f32_round (f32_round (t * 2) * M_PI)) / 2) (1 / 2)
    (by linarith)
  rw [hnhalf] at h1
  rw [hhalf] at h2
  obtain ⟨h3, h4⟩ := f64_round_unit
    (f32_round (-cosf (f32_round (f32_round (t * 2) * M_PI)) / 2) + 1 / 2)
    (by linarith) (by linarith)
  exact f32_round_unit _ h3 h4

/-- The triangle shape lies between `0` and `1` on the phases between `0` and `1`. -/
theorem get_triangle_value_unit (t : ℚ) (h0 : 0 ≤ t) (h1 : t ≤ 1) :
    0 ≤ get_triangle_value_at_time t ∧ get_triangle_value_at_time t ≤ 1 := by
  unfold get_triangle_value_at_time
  split_ifs with h
  · exact f32_round_unit _ (by linarith) (by linarith)
  · have hhalf : f32_round (1 / 2) = 1 / 2 := by
      have hex := f32_round_exact 1 (-1) (by norm_num) (by norm_num)
      norm_num at hex ⊢
      exact hex
    have h2 := f32_round_nonneg (1 - t) (by linarith)
    have h3 := f32_round_mono (1 - t) (1 / 2) (by linarith)
    rw [hhalf] at h3
    exact f32_round_unit _ (by linarith) (by linarith)

theorem get_saw_value_unit (t : ℚ) (h0 : 0 ≤ t) (h1 : t ≤ 1) :
    0 ≤ get_saw_value_at_time t ∧ get_saw_value_at_time t ≤ 1 :=
  ⟨h0, h1⟩

theorem get_square_value_unit (t : ℚ) :
    0 ≤ get_square_value_at_time t ∧ get_square_value_at_time t ≤ 1 := by
  unfold get_square_value_at_time
  split_ifs <;> constructor <;> norm_num

/-- A sample computed from a shape value between `0` and `1` and a 16-bit amplitude is at most
the amplitude, and the conversion that stores it does not wrap. -/
theorem scaled_sample_bounds (x : ℚ) (volume : Nat) (h0 : 0 ≤ x) (h1 : x ≤ 1)
    (hvolume : volume < 65536) :
    float_to_uint16 (f32_round (x * f32_round (volume : ℚ))) ≤ volume ∧
    0 ≤ f32_round (x * f32_round (volume : ℚ)) ∧
    f32_round (x * f32_round (volume : ℚ)) < 65536 ∧
    (float_to_uint16 (f32_round (x * f32_round (volume : ℚ))) : ℤ) =
      ⌊f32_round (x * f32_round (volume : ℚ))⌋ := by
  have hfv := f32_round_natCast volume (by omega)
  have hv0 : (0 : ℚ) ≤ (volume : ℚ) := Nat.cast_nonneg volume
  have hv1 : (volume : ℚ) < 65536 := by exact_mod_cast hvolume
  rw [hfv]
  have hp0 : 0 ≤ x * (volume : ℚ) := mul_nonneg h0 hv0
  have hp1 : x * (volume : ℚ) ≤ (volume : ℚ) := mul_le_of_le_one_left hv0 h1
  have hr0 := f32_round_nonneg _ hp0
  have hr1 := f32_round_mono _ _ hp1
  rw [hfv] at hr1
  exact ⟨float_to_uint16_le _ volume hr0 hr1, hr0, lt_of_le_of_lt hr1 hv1,
    float_to_uint16_eq_floor _ hr0 (lt_of_le_of_lt hr1 hv1)⟩

/-- The rounding error of the sine shape: the value returned differs from
`(1 - c) / 2`, with `c` the value `cosf` returns, by at most `2 ^ (-23)`. -/
theorem get_sin_value_error (cosf : ℚ → ℚ) (t : ℚ)
    (hcos : -1 ≤ cosf (f32_round (f32_round (t * 2) * M_PI)) ∧
      cosf (f32_round (f32_round (t * 2) * M_PI)) ≤ 1) :
    |get_sin_value_at_time cosf t - (1 - cosf (f32_round (f32_round (t * 2) * M_PI))) / 2| ≤
      1 / 8388608 := by
  unfold get_sin_value_at_time
  obtain ⟨hlo, hhi⟩ := hcos
  generalize cosf (f32_round (f32_round (t * 2) * M_PI)) = c at hlo hhi
  have hhalf : f32_round (1 / 2) = 1 / 2 := by
    have hex := f32_round_exact 1 (-1) (by norm_num) (by norm_num)
    norm_num at hex ⊢
    exact hex
  have hnhalf : f32_round (-(1 / 2)) = -(1 / 2) := by
    rw [f32_round_neg, hhalf]
  have h1 := f32_round_mono (-(1 / 2)) (-c / 2) (by linarith)
  have h2 := f32_round_mono (-c / 2) (1 / 2) (by linarith)
  rw [hnhalf] at h1
  rw [hhalf] at h2
  have e1 : |f32_round (-c / 2) - -c / 2| ≤ 1 / 33554432 := by
    have h := f32_round_error_le (-c / 2) (-1)
      (by
        rw [abs_le]
        norm_num
        constructor <;> linarith) (by norm_num)
    have e : (2 : ℚ) ^ ((-1 : ℤ) - 24) = 1 / 33554432 := by norm_num
    rw [e] at h
    exact h
  obtain ⟨h3, h4⟩ := f64_round_unit (f32_round (-c / 2) + 1 / 2) (by linarith) (by linarith)
  have e2 : |f64_round (f32_round (-c / 2) + 1 / 2) - (f32_round (-c / 2) + 1 / 2)| ≤
      1 / 9007199254740992 := by
    have h := f64_round_error_le (f32_round (-c / 2) + 1 / 2) 0
      (by
        rw [abs_le]
        norm_num
        constructor <;> linarith) (by norm_num)
    have e : (2 : ℚ) ^ ((0 : ℤ) - 53) = 1 / 9007199254740992 := by norm_num
    rw [e] at h
    exact h
  have e3 : |f32_round (f64_round (f32_round (-c / 2) + 1 / 2)) -
      f64_round (f32_round (-c / 2) + 1 / 2)| ≤ 1 / 16777216 := by
    have h := f32_round_error_le (f64_round (f32_round (-c / 2) + 1 / 2)) 0
      (by
        rw [abs_le]
        norm_num
        constructor <;> linarith) (by norm_num)
    have e : (2 : ℚ) ^ ((0 : ℤ) - 24) = 1 / 16777216 := by norm_num
    rw [e] at h
    exact h
  have a1 := abs_le.mp e1
  have a2 := abs_le.mp e2
  have a3 := abs_le.mp e3
  rw [abs_le]
  constructor <;> linarith [a1.1, a1.2, a2.1, a2.2, a3.1, a3.2]

theorem rat_abs_le_real (a b : ℚ) (h : |a| ≤ b) : |(a : ℝ)| ≤ (b : ℝ) := by
  rw [← Rat.cast_abs]
  exact Rat.cast_le.mpr h

/-- The value of the macro `M_PI` as a `float`. -/
theorem M_PI_eq : M_PI = 13176795 / 4194304 := by
  unfold M_PI
  have h := f32_round_eval 3.14159265358979323846 1 13176795 (by norm_num [abs_of_pos])
    (by norm_num [abs_of_pos]) (by norm_num) (Or.inl (by norm_num [abs_lt]))
  norm_num at h ⊢
  exact h

/-- The argument passed to `cosf` for a phase `t` between `0` and `1` differs from
`2 * π * t` by at most `3 / 1000000`. -/
theorem sine_argument_error (t : ℚ) (h0 : 0 ≤ t) (h1 : t ≤ 1) :
    |((f32_round (f32_round (t * 2) * M_PI) : ℚ) : ℝ) - 2 * Real.pi * (t : ℝ)| ≤
      3 / 1000000 := by
  have ha1 : |f32_round (t * 2) - t * 2| ≤ 1 / 8388608 := by
    have h := f32_round_error_le (t * 2) 1
      (by
        rw [abs_le]
        norm_num
        constructor <;> linarith) (by norm_num)
    have e : (2 : ℚ) ^ ((1 : ℤ) - 24) = 1 / 8388608 := by norm_num
    rw [e] at h
    exact h
  have ha1' := abs_le.mp ha1
  have hb0 : 0 ≤ f32_round (t * 2) := f32_round_nonneg _ (by linarith)
  have hb2 : f32_round (t * 2) ≤ 2 := by
    have h := f32_round_mono (t * 2) 2 (by linarith)
    have e : f32_round 2 = 2 := by
      have := f32_round_intCast 2 (by norm_num)
      simpa using this
    rwa [e] at h
  rw [M_PI_eq]
  have hp0 : 0 ≤ f32_round (t * 2) * (13176795 / 4194304) := by positivity
  have hp8 : f32_round (t * 2) * (13176795 / 4194304) < 8 := by nlinarith
  have ha2 : |f32_round (f32_round (t * 2) * (13176795 / 4194304)) -
      f32_round (t * 2) * (13176795 / 4194304)| ≤ 1 / 4194304 := by
    have h := f32_round_error_lt (f32_round (t * 2) * (13176795 / 4194304)) 3
      (by
        rw [abs_of_nonneg hp0]
        norm_num
        exact hp8) (by norm_num)
    have e : (2 : ℚ) ^ ((3 : ℤ) - 25) = 1 / 4194304 := by norm_num
    rw [e] at h
    exact h
  have ha2' := abs_le.mp ha2
  have hpi1 := Real.pi_gt_d6
  have hpi2 := Real.pi_lt_d6
  have r1 := abs_le.mp (rat_abs_le_real _ _ ha1)
  have r2 := abs_le.mp (rat_abs_le_real _ _ ha2)
  push_cast at r1 r2
  obtain ⟨r1lo, r1hi⟩ := r1
  obtain ⟨r2lo, r2hi⟩ := r2
  have t0 : (0 : ℝ) ≤ (t : ℝ) := by exact_mod_cast h0
  have t1 : (t : ℝ) ≤ 1 := by exact_mod_cast h1
  have hpi1' : (3.141592 : ℝ) < Real.pi := hpi1
  have hpi2' : Real.pi < (3.141593 : ℝ) := hpi2
  rw [abs_le]
  constructor
  · nlinarith
  · nlinarith

theorem abs_cos_sub_cos_le (x y : ℝ) : |Real.cos x - Real.cos y| ≤ |x - y| := by
  rw [Real.cos_sub_cos]
  have h1 := Real.abs_sin_le_one ((x + y) / 2)
  have h2 := Real.abs_sin_le_abs (x := (x - y) / 2)
  have h3 : |(x - y) / 2| = |x - y| / 2 := by
    rw [abs_div]
    norm_num
  rw [h3] at h2
  have e : |-2 * Real.sin ((x + y) / 2) * Real.sin ((x - y) / 2)| =
      2 * (|Real.sin ((x + y) / 2)| * |Real.sin ((x - y) / 2)|) := by
    rw [abs_mul, abs_mul]
    norm_num
    ring
  rw [e]
  have h4 : |Real.sin ((x + y) / 2)| * |Real.sin ((x - y) / 2)| ≤ 1 * (|x - y| / 2) :=
    mul_le_mul h1 h2 (abs_nonneg _) (by norm_num)
  linarith

/-- The sine shape against the real formula: when the value `cosf` returns lies between `-1`
and `1` and is within `ε` of the cosine of its argument, the value computed at a phase `t`
between `0` and `1` is within `ε / 2 + 2 / 1000000` of `(1 - cos (2 π t)) / 2`. -/
theorem get_sin_value_real (cosf : ℚ → ℚ) (t : ℚ) (ε : ℝ) (h0 : 0 ≤ t) (h1 : t ≤ 1)
    (hcos : -1 ≤ cosf (f32_round (f32_round (t * 2) * M_PI)) ∧
      cosf (f32_round (f32_round (t * 2) * M_PI)) ≤ 1)
    (happrox : |((cosf (f32_round (f32_round (t * 2) * M_PI)) : ℚ) : ℝ) -
      Real.cos ((f32_round (f32_round (t * 2) * M_PI) : ℚ) : ℝ)| ≤ ε) :
    |((get_sin_value_at_time cosf t : ℚ) : ℝ) - (1 - Real.cos (2 * Real.pi * (t : ℝ))) / 2| ≤
      ε / 2 + 2 / 1000000 := by
  have herr := get_sin_value_error cosf t hcos
  have harg := sine_argument_error t h0 h1
  have hap := happrox
  have hlip := abs_cos_sub_cos_le ((f32_round (f32_round (t * 2) * M_PI) : ℚ) : ℝ)
    (2 * Real.pi * (t : ℝ))
  generalize cosf (f32_round (f32_round (t * 2) * M_PI)) = c at herr hap
  generalize get_sin_value_at_time cosf t = r at herr
  have herr' : |(r : ℝ) - (1 - (c : ℝ)) / 2| ≤ 1 / 8388608 := by
    have := rat_abs_le_real _ _ herr
    push_cast at this
    exact this
  have b1 := abs_le.mp herr'
  have b2 := abs_le.mp hap
  have b3 := abs_le.mp (le_trans hlip harg)
  rw [abs_le]
  constructor <;> linarith [b1.1, b1.2, b2.1, b2.2, b3.1, b3.2]

/-- A triangle wave of three samples and amplitude `3`: the phases `1 / 3` and `2 / 3` are
rounded, and the last sample is the truncation of a product just below `2`. -/
theorem triangle_example :
    pbio_sound_generate_wave cosf_example [0, 0, 0] 3 PBIO_SOUND_WAVE_TYPE_TRIANGLE 3 =
      some (pbio_error_t.PBIO_SUCCESS, [0, 2, 1]) := by
  obtain ⟨out, hout, hlen, hin, _⟩ := generate_matched cosf_example [0, 0, 0] 3
    PBIO_SOUND_WAVE_TYPE_TRIANGLE 3 _ (switch_wave_type_triangle cosf_example 3)
    (by decide) (by decide)
  have hv : f32_round ((3 : Nat) : ℚ) = 3 := by
    have := f32_round_natCast 3 (by norm_num)
    simpa using this
  have hp0 : phase 0 3 = 0 := by
    rw [phase_eq 0 3 (by norm_num) (by norm_num)]
    norm_num [f32_round_zero]
  have hp1 : phase 1 3 = 11184811 / 33554432 := by
    rw [phase_eq 1 3 (by norm_num) (by norm_num)]
    have h := f32_round_eval (1 / 3) (-2) 11184811 (by norm_num [abs_of_pos])
      (by norm_num [abs_of_pos]) (by norm_num) (Or.inl (by norm_num [abs_lt]))
    norm_num at h ⊢
    exact h
  have hp2 : phase 2 3 = 11184811 / 16777216 := by
    rw [phase_eq 2 3 (by norm_num) (by norm_num)]
    have h := f32_round_eval (2 / 3) (-1) 11184811 (by norm_num [abs_of_pos])
      (by norm_num [abs_of_pos]) (by norm_num) (Or.inl (by norm_num [abs_lt]))
    norm_num at h ⊢
    exact h
  have hc0 : float_to_uint16 (f32_round (get_triangle_value_at_time (phase 0 3) *
      f32_round ((3 : Nat) : ℚ))) = 0 := by
    rw [hp0, hv]
    unfold get_triangle_value_at_time
    rw [if_pos (by norm_num)]
    norm_num [f32_round_zero]
    exact float_to_uint16_eq 0 0 (by norm_num) (by norm_num) (by norm_num)
  have hc1 : float_to_uint16 (f32_round (get_triangle_value_at_time (phase 1 3) *
      f32_round ((3 : Nat) : ℚ))) = 2 := by
    rw [hp1, hv]
    unfold get_triangle_value_at_time
    rw [if_pos (by norm_num)]
    have h1 : f32_round (11184811 / 33554432 * 2) = 11184811 / 16777216 := by
      have h := f32_round_eval (11184811 / 16777216) (-1) 11184811 (by norm_num [abs_of_pos])
        (by norm_num [abs_of_pos]) (by norm_num) (Or.inl (by norm_num [abs_lt]))
      norm_num at h ⊢
      exact h
    have h2 : f32_round (11184811 / 16777216 * 3) = 2 := by
      have h := f32_round_eval (33554433 / 16777216) 1 8388608 (by norm_num [abs_of_pos])
        (by norm_num [abs_of_pos]) (by norm_num) (Or.inl (by norm_num [abs_lt]))
      norm_num at h ⊢
      exact h
    rw [h1, h2]
    exact float_to_uint16_eq 2 2 (by norm_num) (by norm_num) (by norm_num)
  have hc2 : float_to_uint16 (f32_round (get_triangle_value_at_time (phase 2 3) *
      f32_round ((3 : Nat) : ℚ))) = 1 := by
    rw [hp2, hv]
    unfold get_triangle_value_at_time
    rw [if_neg (by norm_num)]
    have h1 : f32_round (1 - 11184811 / 16777216) = 5592405 / 16777216 := by
      have h := f32_round_eval (5592405 / 16777216) (-2) 11184810 (by norm_num [abs_of_pos])
        (by norm_num [abs_of_pos]) (by norm_num) (Or.inl (by norm_num [abs_lt]))
      norm_num at h ⊢
      exact h
    have h2 : f32_round (5592405 / 16777216 * 2) = 5592405 / 8388608 := by
      have h := f32_round_eval (5592405 / 8388608) (-1) 11184810 (by norm_num [abs_of_pos])
        (by norm_num [abs_of_pos]) (by norm_num) (Or.inl (by norm_num [abs_lt]))
      norm_num at h ⊢
      exact h
    have h3 : f32_round (5592405 / 8388608 * 3) = 16777215 / 8388608 := by
      have h := f32_round_eval (16777215 / 8388608) 0 16777215 (by norm_num [abs_of_pos])
        (by norm_num [abs_of_pos]) (by norm_num) (Or.inl (by norm_num [abs_lt]))
      norm_num at h ⊢
      exact h
    rw [h1, h2, h3]
    exact float_to_uint16_eq _ 1 (by norm_num) (by norm_num) (by norm_num)
  have h0 := hin 0 (by norm_num)
  have h1 := hin 1 (by norm_num)
  have h2 := hin 2 (by norm_num)
  simp only [] at h0 h1 h2
  rw [hc0] at h0
  rw [hc1] at h1
  rw [hc2] at h2
  have hlist : out = [0, 2, 1] := by
    apply List.ext_getElem?
    intro i
    rcases i with _ | _ | _ | i
    · exact h0
    · exact h1
    · exact h2
    · have h3 : out.length ≤ i + 1 + 1 + 1 := by
        rw [hlen]
        simp
      rw [List.getElem?_eq_none h3]
      rfl
  rw [hout, hlist]

/-- C18: for each of the four supported wave types, with its shape function (for sine, with a
`cosf` whose values lie between `-1` and `1`), every `length ≥ 1` (the length of the buffer),
every 16-bit amplitude `volume` and every `i < length`: the phase computed for `i` lies
between `0` and `1`, the shape value at that phase lies between `0` and `1`, and the sample
written is at most `volume`; the rounded product that is converted lies between `0` and
`65536`, so the conversion to `uint16_t` does not wrap and the sample is its floor. Every
`float` operation is rounded to binary32. For sine, the value computed differs from
`(1 - c) / 2`, with `c` the value `cosf` returns, by at most `2 ^ (-23)`; and over the reals,
when `c` is within `ε` of the cosine of the argument passed to `cosf`, the value computed at a
phase `t` between `0` and `1` is within `ε / 2 + 2 / 1000000` of `(1 - cos (2 π t)) / 2`. -/
theorem waveform_range (cosf : ℚ → ℚ) (data : List Nat) (length wave_type volume : Nat)
    (shape : ℚ → ℚ)
    (hcos : wave_type = PBIO_SOUND_WAVE_TYPE_SINE → ∀ x, -1 ≤ cosf x ∧ cosf x ≤ 1)
    (hshape :
      (wave_type = PBIO_SOUND_WAVE_TYPE_SINE ∧ shape = get_sin_value_at_time cosf) ∨
      (wave_type = PBIO_SOUND_WAVE_TYPE_TRIANGLE ∧ shape = get_triangle_value_at_time) ∨
      (wave_type = PBIO_SOUND_WAVE_TYPE_SAW ∧ shape = get_saw_value_at_time) ∨
      (wave_type = PBIO_SOUND_WAVE_TYPE_SQUARE ∧ shape = get_square_value_at_time))
    (hlength : 1 ≤ length) (hsize : length ≤ data.length) (hvolume : volume < 65536) :
    (∃ out, pbio_sound_generate_wave cosf data length wave_type volume =
        some (pbio_error_t.PBIO_SUCCESS, out) ∧
      ∀ i : Nat, i < length →
        0 ≤ phase i length ∧ phase i length ≤ 1 ∧
        0 ≤ shape (phase i length) ∧ shape (phase i length) ≤ 1 ∧
        ∃ x : Nat, out[i]? = some x ∧ x ≤ volume ∧
          x = float_to_uint16 (f32_round (shape (phase i length) * f32_round (volume : ℚ))) ∧
          0 ≤ f32_round (shape (phase i length) * f32_round (volume : ℚ)) ∧
          f32_round (shape (phase i length) * f32_round (volume : ℚ)) < 65536 ∧
          (x : ℤ) = ⌊f32_round (shape (phase i length) * f32_round (volume : ℚ))⌋) ∧
    (∀ t : ℚ, (-1 ≤ cosf (f32_round (f32_round (t * 2) * M_PI)) ∧
        cosf (f32_round (f32_round (t * 2) * M_PI)) ≤ 1) →
      |get_sin_value_at_time cosf t -
        (1 - cosf (f32_round (f32_round (t * 2) * M_PI))) / 2| ≤ 1 / 8388608) ∧
    (∀ (t : ℚ) (ε : ℝ), 0 ≤ t → t ≤ 1 →
      (-1 ≤ cosf (f32_round (f32_round (t * 2) * M_PI)) ∧
        cosf (f32_round (f32_round (t * 2) * M_PI)) ≤ 1) →
      |((cosf (f32_round (f32_round (t * 2) * M_PI)) : ℚ) : ℝ) -
        Real.cos ((f32_round (f32_round (t * 2) * M_PI) : ℚ) : ℝ)| ≤ ε →
      |((get_sin_value_at_time cosf t : ℚ) : ℝ) -
        (1 - Real.cos (2 * Real.pi * (t : ℝ))) / 2| ≤ ε / 2 + 2 / 1000000) := by
  refine ⟨?_, fun t ht => get_sin_value_error cosf t ht,
    fun t ε h0 h1 hc ha => get_sin_value_real cosf t ε h0 h1 hc ha⟩
  have hstored : ∃ out, pbio_sound_generate_wave cosf data length wave_type volume =
        some (pbio_error_t.PBIO_SUCCESS, out) ∧
      ∀ i, i < length → out[i]? = some (float_to_uint16
        (f32_round (shape (phase i length) * f32_round (volume : ℚ)))) := by
    rcases hshape with ⟨hw, hs⟩ | ⟨hw, hs⟩ | ⟨hw, hs⟩ | ⟨hw, hs⟩
    · obtain ⟨out, hout, _, hin, _⟩ := generate_matched cosf data length
        PBIO_SOUND_WAVE_TYPE_SINE volume _ (switch_wave_type_sine cosf volume) hlength hsize
      exact ⟨out, by rw [hw]; exact hout, fun i hi => by rw [hs]; exact hin i hi⟩
    · obtain ⟨out, hout, _, hin, _⟩ := generate_matched cosf data length
        PBIO_SOUND_WAVE_TYPE_TRIANGLE volume _ (switch_wave_type_triangle cosf volume)
        hlength hsize
      exact ⟨out, by rw [hw]; exact hout, fun i hi => by rw [hs]; exact hin i hi⟩
    · obtain ⟨out, hout, _, hin, _⟩ := generate_matched cosf data length
        PBIO_SOUND_WAVE_TYPE_SAW volume _ (switch_wave_type_saw cosf volume) hlength hsize
      exact ⟨out, by rw [hw]; exact hout, fun i hi => by rw [hs]; exact hin i hi⟩
    · obtain ⟨out, hout, _, hin, _⟩ := generate_matched cosf data length
        PBIO_SOUND_WAVE_TYPE_SQUARE volume _ (switch_wave_type_square cosf volume)
        hlength hsize
      exact ⟨out, by rw [hw]; exact hout, fun i hi => by rw [hs]; exact hin i hi⟩
  obtain ⟨out, hout, hin⟩ := hstored
  refine ⟨out, hout, fun i hi => ?_⟩
  obtain ⟨ht0, ht1⟩ := phase_unit i length hi
  have hb : 0 ≤ shape (phase i length) ∧ shape (phase i length) ≤ 1 := by
    rcases hshape with ⟨hw, hs⟩ | ⟨_, hs⟩ | ⟨_, hs⟩ | ⟨_, hs⟩ <;> rw [hs]
    · exact get_sin_value_unit cosf _ (hcos hw _)
    · exact get_triangle_value_unit _ ht0 ht1
    · exact get_saw_value_unit _ ht0 ht1
    · exact get_square_value_unit _
  obtain ⟨hle, hp0, hp1, hfloor⟩ := scaled_sample_bounds _ volume hb.1 hb.2 hvolume
  exact ⟨ht0, ht1, hb.1, hb.2, _, hin i hi, hle, rfl, hp0, hp1, hfloor⟩

/-- C18, at a concrete input: a triangle wave of three samples and amplitude `3`: the buffer
written is `[0, 2, 1]`, and every sample is at most `3`. -/
theorem waveform_range_witness :
    ∃ out, pbio_sound_generate_wave cosf_example [0, 0, 0] 3
        PBIO_SOUND_WAVE_TYPE_TRIANGLE 3 = some (pbio_error_t.PBIO_SUCCESS, out) ∧
      out = [0, 2, 1] ∧
      ∀ i : Nat, i < 3 → ∃ x : Nat, out[i]? = some x ∧ x ≤ 3 := by
  obtain ⟨out, hout, hin⟩ := (waveform_range cosf_example [0, 0, 0] 3
    PBIO_SOUND_WAVE_TYPE_TRIANGLE 3 get_triangle_value_at_time
    (fun h => absurd h (by decide)) (Or.inr (Or.inl ⟨rfl, rfl⟩))
    (by decide) (by decide) (by decide)).1
  have hlist : out = [0, 2, 1] := by
    have h := triangle_example
    rw [hout] at h
    exact (Prod.mk.inj (Option.some.inj h)).2
  refine ⟨out, hout, hlist, fun i hi => ?_⟩
  obtain ⟨_, _, _, _, x, hx, hle, _⟩ := hin i hi
  exact ⟨x, hx, hle⟩

end PbdrvSound
